import Mathlib

/-!
Verification of the stateful/hierarchical path-query core of a graph
path-search library.  The Python source is shallowly embedded: every
definition below mirrors a function of the source files
(`src/ds/PQ.py`, `src/ds/FibonacciHeap.py`, `src/algorithms/Johnson.py`,
`src/algorithms/Contraction Hierarchies.py`, `src/algorithms/TNR.py`,
`src/algorithms/Yen.py`, `src/algorithms/LPAs.py`).  Edge weights are
modelled by `ℤ` and the Python float value `inf` by the `none` value of
`Option ℤ`; the graphs of interest carry integral weights, and no claim
depends on genuine floating-point behaviour.  Loops whose termination
depends on the input are given explicit fuel; running out of fuel models
a non-returning Python loop.
-/

namespace S2P

/-- Extended integers: `none` models the Python float value `inf`
(only `+inf` ever arises in the source). -/
abbrev EInt := Option ℤ

/-- `x + w` for an extended `x` and a finite `w` (`inf + w = inf`). -/
def addE : EInt → ℤ → EInt
  | none, _ => none
  | some a, w => some (a + w)

/-- addition of two extended values (`inf` absorbs). -/
def eadd : EInt → EInt → EInt
  | none, _ => none
  | _, none => none
  | some a, some b => some (a + b)

/-- strict comparison of extended values, as Python `<` on floats with `inf`. -/
def ltE : EInt → EInt → Bool
  | none, _ => false
  | some _, none => true
  | some a, some b => decide (a < b)

/-- `x ≤ y` on extended values. -/
def leE (x y : EInt) : Bool := !(ltE y x)

/-- pointwise map update used to model Python dict assignment. -/
def upd {α : Type} (f : ℕ → α) (k : ℕ) (v : α) : ℕ → α :=
  fun x => if x = k then v else f x

theorem upd_same {α : Type} (f : ℕ → α) (k : ℕ) (v : α) : upd f k v k = v := by
  simp [upd]

theorem upd_other {α : Type} (f : ℕ → α) (k x : ℕ) (v : α) (h : x ≠ k) :
    upd f k v x = f x := by
  simp [upd, h]

/-! ## The lazy-deletion indexed priority queue (`src/ds/PQ.py`)

A heap entry is the Python list `[priority, item]`; tombstoning an entry
(`old_entry[-1] = self.REMOVED`) replaces the item field by the sentinel,
which we model by `tag = none`.  The `finder` dict of the source maps an
item to its unique live entry, so it is recoverable from the heap: an item
is in `finder` iff the heap has an entry tagged with it.  `heapq` pops a
minimal entry under lexicographic comparison of `[priority, item]`; we
model this by removing the leftmost minimal entry. -/

structure Entry (P : Type) where
  pri : P
  tag : Option ℕ
deriving Repr, DecidableEq

/-- a total order standing in for Python comparison between an item and
the string tombstone (the claims never depend on this tie order). -/
def tagLt : Option ℕ → Option ℕ → Bool
  | none, none => false
  | none, some _ => true
  | some _, none => false
  | some a, some b => decide (a < b)

/-- lexicographic comparison on `[priority, item]`, as `heapq` performs. -/
def entryLt {P : Type} [DecidableEq P] (ltP : P → P → Bool) (e₁ e₂ : Entry P) : Bool :=
  ltP e₁.pri e₂.pri || (decide (e₁.pri = e₂.pri) && tagLt e₁.tag e₂.tag)

/-- remove the leftmost minimal entry of a list (the `heapq.heappop` of the
model); returns the entry and the remaining list. -/
def popMinEntry {P : Type} [DecidableEq P] (ltP : P → P → Bool) :
    List (Entry P) → Option (Entry P × List (Entry P))
  | [] => none
  | e :: rest =>
    match popMinEntry ltP rest with
    | none => some (e, [])
    | some (m, rest') =>
      if entryLt ltP m e then some (m, e :: rest') else some (e, rest)

theorem popMinEntry_eq_none {P : Type} [DecidableEq P] (ltP : P → P → Bool) :
    ∀ (l : List (Entry P)), popMinEntry ltP l = none ↔ l = [] := by
  intro l
  cases l with
  | nil => simp [popMinEntry]
  | cons a rest =>
    simp only [popMinEntry]
    cases hrec : popMinEntry ltP rest with
    | none => simp
    | some p =>
      obtain ⟨m, rest'⟩ := p
      by_cases hc : entryLt ltP m a = true <;> simp [hc]

theorem popMinEntry_length {P : Type} [DecidableEq P] (ltP : P → P → Bool) :
    ∀ (l : List (Entry P)) (e : Entry P) (r : List (Entry P)),
      popMinEntry ltP l = some (e, r) → r.length + 1 = l.length := by
  intro l
  induction l with
  | nil => intro e r h; simp [popMinEntry] at h
  | cons a rest ih =>
    intro e r h
    simp only [popMinEntry] at h
    cases hrec : popMinEntry ltP rest with
    | none =>
      rw [hrec] at h
      have : rest = [] := (popMinEntry_eq_none ltP rest).mp hrec
      subst this
      cases h
      simp
    | some p =>
      obtain ⟨m, rest'⟩ := p
      rw [hrec] at h
      by_cases hc : entryLt ltP m a = true
      · simp only [hc, if_true, Option.some.injEq, Prod.mk.injEq] at h
        obtain ⟨he, hr⟩ := h
        subst he; subst hr
        have := ih m rest' hrec
        simp only [List.length_cons]
        omega
      · simp only [hc, if_false, Option.some.injEq, Prod.mk.injEq, Bool.false_eq_true] at h
        obtain ⟨he, hr⟩ := h
        subst he; subst hr
        simp

/-- the state of `PQ`: just the heap list (`finder` is derived). -/
structure LazyPQ (P : Type) where
  heap : List (Entry P)
deriving Repr, DecidableEq

namespace LazyPQ

variable {P : Type} [DecidableEq P]

/-- the set of live items (the keys of the `finder` dict). -/
def contains (s : LazyPQ P) (i : ℕ) : Bool :=
  s.heap.any (fun e => e.tag = some i)

/-- `PQ.is_empty`: true iff `finder` is empty or the heap is empty;
equivalently, no live entry remains. -/
def isEmpty (s : LazyPQ P) : Bool :=
  !(s.heap.any (fun e => e.tag.isSome))

/-- `PQ.push`: tombstone the live entry of `item` if present, then append a
fresh entry `[priority, item]`. -/
def push (s : LazyPQ P) (item : ℕ) (pri : P) : LazyPQ P :=
  ⟨(s.heap.map fun e => if e.tag = some item then { e with tag := none } else e)
    ++ [⟨pri, some item⟩]⟩

/-- the loop of `PQ.pop`, with structural fuel (the wrapper always
supplies enough; every recursive call strictly shrinks the heap):
repeatedly discard tombstoned heap tops, return the first live entry.
`none` models the `KeyError` raise. -/
def popLoopF (ltP : P → P → Bool) : ℕ → List (Entry P) →
    Option ((P × ℕ) × List (Entry P))
  | 0, _ => none
  | Nat.succ fuel, heap =>
    match popMinEntry ltP heap with
    | none => none
    | some (e, rest) =>
      match e.tag with
      | some i => some ((e.pri, i), rest)
      | none => popLoopF ltP fuel rest

def popLoop (ltP : P → P → Bool) (heap : List (Entry P)) :
    Option ((P × ℕ) × List (Entry P)) :=
  popLoopF ltP (heap.length + 1) heap

/-- `PQ.pop`: error result models the `KeyError('pop from an empty priority queue')`. -/
def pop (ltP : P → P → Bool) (s : LazyPQ P) :
    Except String ((P × ℕ) × LazyPQ P) :=
  match popLoop ltP s.heap with
  | none => .error "pop from an empty priority queue"
  | some (r, h) => .ok (r, ⟨h⟩)

/-- the loop of `PQ.peek`: discards tombstoned tops destructively but keeps
the live top in the heap. -/
def peekLoopF (ltP : P → P → Bool) : ℕ → List (Entry P) →
    Option ((P × ℕ) × List (Entry P))
  | 0, _ => none
  | Nat.succ fuel, heap =>
    match popMinEntry ltP heap with
    | none => none
    | some (e, rest) =>
      match e.tag with
      | some i => some ((e.pri, i), heap)
      | none => peekLoopF ltP fuel rest

def peekLoop (ltP : P → P → Bool) (heap : List (Entry P)) :
    Option ((P × ℕ) × List (Entry P)) :=
  peekLoopF ltP (heap.length + 1) heap

/-- `PQ.peek`: error result models the `KeyError('peek from an empty priority queue')`. -/
def peek (ltP : P → P → Bool) (s : LazyPQ P) :
    Except String ((P × ℕ) × LazyPQ P) :=
  match peekLoop ltP s.heap with
  | none => .error "peek from an empty priority queue"
  | some (r, h) => .ok (r, ⟨h⟩)

end LazyPQ

theorem popMinEntry_perm {P : Type} [DecidableEq P] (ltP : P → P → Bool) :
    ∀ (l : List (Entry P)) (e : Entry P) (r : List (Entry P)),
      popMinEntry ltP l = some (e, r) → l.Perm (e :: r) := by
  intro l
  induction l with
  | nil => intro e r h; simp [popMinEntry] at h
  | cons a rest ih =>
    intro e r h
    simp only [popMinEntry] at h
    cases hrec : popMinEntry ltP rest with
    | none =>
      rw [hrec] at h
      have : rest = [] := (popMinEntry_eq_none ltP rest).mp hrec
      subst this
      cases h
      exact List.Perm.refl _
    | some p =>
      obtain ⟨m, rest'⟩ := p
      rw [hrec] at h
      by_cases hc : entryLt ltP m a = true
      · simp only [hc, if_true, Option.some.injEq, Prod.mk.injEq] at h
        obtain ⟨he, hr⟩ := h
        subst he; subst hr
        exact ((ih m rest' hrec).cons a).trans (List.Perm.swap m a rest')
      · simp only [hc, if_false, Option.some.injEq, Prod.mk.injEq, Bool.false_eq_true] at h
        obtain ⟨he, hr⟩ := h
        subst he; subst hr
        exact List.Perm.refl _

/-- the boolean strict order used for integer priorities. -/
def ltZ : ℤ → ℤ → Bool := fun a b => decide (a < b)

theorem tagLt_irrefl (t : Option ℕ) : tagLt t t = false := by
  cases t <;> simp [tagLt]

theorem tagLt_asymm (s t : Option ℕ) (h : tagLt s t = true) : tagLt t s = false := by
  cases s <;> cases t <;> simp_all [tagLt] <;> omega

theorem tagLt_le_lt (x m a : Option ℕ) (h₁ : tagLt x m = false) (h₂ : tagLt x a = true) :
    tagLt m a = true := by
  cases x <;> cases m <;> cases a <;> simp_all [tagLt] <;> omega

theorem entryLtZ_irrefl (e : Entry ℤ) : entryLt ltZ e e = false := by
  simp [entryLt, ltZ, tagLt_irrefl]

theorem entryLtZ_asymm (x y : Entry ℤ) (h : entryLt ltZ x y = true) :
    entryLt ltZ y x = false := by
  simp only [entryLt, ltZ, Bool.or_eq_true, Bool.and_eq_true, decide_eq_true_eq] at h
  rcases h with h | ⟨heq, ht⟩
  · have h1 : decide (y.pri < x.pri) = false := by simp; omega
    have h2 : decide (y.pri = x.pri) = false := by simp; omega
    simp [entryLt, ltZ, h1, h2]
  · have h1 : decide (y.pri < x.pri) = false := by simp; omega
    have h2 := tagLt_asymm _ _ ht
    simp [entryLt, ltZ, h1, h2]

theorem entryLtZ_le_lt (x m a : Entry ℤ) (h₁ : entryLt ltZ x m = false)
    (h₂ : entryLt ltZ x a = true) : entryLt ltZ m a = true := by
  simp only [entryLt, ltZ, Bool.or_eq_false_iff, Bool.or_eq_true, Bool.and_eq_true,
    Bool.and_eq_false_iff, decide_eq_true_eq, decide_eq_false_iff_not] at *
  obtain ⟨hm, hm2⟩ := h₁
  rcases h₂ with h | ⟨he, ht⟩
  · left; rcases hm2 with h2 | h2
    · omega
    · rcases lt_or_eq_of_le (not_lt.mp hm) with hlt | heq
      · omega
      · omega
  · rcases hm2 with h2 | h2
    · left; omega
    · rcases lt_or_eq_of_le (not_lt.mp hm) with hlt | heq
      · left; omega
      · right
        refine ⟨by omega, tagLt_le_lt x.tag m.tag a.tag (by simpa using h2) ht⟩

theorem popMinEntry_minZ :
    ∀ (l : List (Entry ℤ)) (e : Entry ℤ) (r : List (Entry ℤ)),
      popMinEntry ltZ l = some (e, r) → ∀ x ∈ l, entryLt ltZ x e = false := by
  intro l
  induction l with
  | nil => intro e r h; simp [popMinEntry] at h
  | cons a rest ih =>
    intro e r h x hx
    simp only [popMinEntry] at h
    cases hrec : popMinEntry ltZ rest with
    | none =>
      rw [hrec] at h
      have : rest = [] := (popMinEntry_eq_none ltZ rest).mp hrec
      subst this
      cases h
      rcases List.mem_cons.mp hx with hxa | hxr
      · subst hxa; exact entryLtZ_irrefl x
      · simp at hxr
    | some p =>
      obtain ⟨m, rest'⟩ := p
      rw [hrec] at h
      by_cases hc : entryLt ltZ m a = true
      · simp only [hc, if_true, Option.some.injEq, Prod.mk.injEq] at h
        obtain ⟨he, _⟩ := h
        subst he
        rcases List.mem_cons.mp hx with hxa | hxr
        · subst hxa; exact entryLtZ_asymm m x hc
        · exact ih m rest' hrec x hxr
      · simp only [hc, if_false, Option.some.injEq, Prod.mk.injEq, Bool.false_eq_true] at h
        obtain ⟨he, _⟩ := h
        subst he
        rcases List.mem_cons.mp hx with hxa | hxr
        · subst hxa; exact entryLtZ_irrefl x
        · by_contra hxe
          have hxe' : entryLt ltZ x a = true := by
            cases hb : entryLt ltZ x a
            · exact absurd hb hxe
            · rfl
          have := entryLtZ_le_lt x m a (ih m rest' hrec x hxr) hxe'
          simp [this] at hc

/-- the live entries of a heap (the value set of the `finder` dict). -/
def liveList {P : Type} (heap : List (Entry P)) : List (Entry P) :=
  heap.filter (fun e => e.tag.isSome)

theorem popLoopF_struct {P : Type} [DecidableEq P] (ltP : P → P → Bool) :
    ∀ (fuel : ℕ) (heap : List (Entry P)) (p : P) (i : ℕ) (rest : List (Entry P)),
      LazyPQ.popLoopF ltP fuel heap = some ((p, i), rest) →
      (⟨p, some i⟩ : Entry P) ∈ heap ∧ (∀ x ∈ rest, x ∈ heap) ∧
      (liveList heap).Perm ((⟨p, some i⟩ : Entry P) :: liveList rest) := by
  intro fuel
  induction fuel with
  | zero =>
    intro heap p i rest h
    simp [LazyPQ.popLoopF] at h
  | succ k ih =>
    intro heap p i rest h
    rw [LazyPQ.popLoopF] at h
    split at h
    · exact absurd h (by simp)
    · rename_i e r hm
      have hperm := popMinEntry_perm ltP heap e r hm
      split at h
      · rename_i j ht
        simp only [Option.some.injEq, Prod.mk.injEq] at h
        obtain ⟨⟨hp, hj⟩, hr⟩ := h
        subst hp; subst hj; subst hr
        obtain ⟨pe, te⟩ := e
        simp only at ht
        subst ht
        refine ⟨hperm.symm.subset (List.mem_cons_self _ _), ?_, ?_⟩
        · intro x hx
          exact hperm.symm.subset (List.mem_cons_of_mem _ hx)
        · have hfil := hperm.filter (fun e => e.tag.isSome)
          simpa [liveList] using hfil
      · rename_i ht
        obtain ⟨h1, h2, h3⟩ := ih r p i rest h
        refine ⟨hperm.symm.subset (List.mem_cons_of_mem _ h1), ?_, ?_⟩
        · intro x hx
          exact hperm.symm.subset (List.mem_cons_of_mem _ (h2 x hx))
        · have hfil := hperm.filter (fun e => e.tag.isSome)
          have hstep : (liveList heap).Perm (liveList r) := by
            simpa [liveList, ht] using hfil
          exact hstep.trans h3

theorem popLoop_struct {P : Type} [DecidableEq P] (ltP : P → P → Bool)
    (heap : List (Entry P)) (p : P) (i : ℕ) (rest : List (Entry P))
    (h : LazyPQ.popLoop ltP heap = some ((p, i), rest)) :
    (⟨p, some i⟩ : Entry P) ∈ heap ∧ (∀ x ∈ rest, x ∈ heap) ∧
    (liveList heap).Perm ((⟨p, some i⟩ : Entry P) :: liveList rest) :=
  popLoopF_struct ltP (heap.length + 1) heap p i rest h

theorem popLoopF_minZ :
    ∀ (fuel : ℕ) (heap : List (Entry ℤ)) (p : ℤ) (i : ℕ) (rest : List (Entry ℤ)),
      LazyPQ.popLoopF ltZ fuel heap = some ((p, i), rest) →
      ∀ x ∈ heap, x.tag.isSome = true → p ≤ x.pri := by
  intro fuel
  induction fuel with
  | zero =>
    intro heap p i rest h
    simp [LazyPQ.popLoopF] at h
  | succ k ih =>
    intro heap p i rest h x hx hlive
    rw [LazyPQ.popLoopF] at h
    split at h
    · exact absurd h (by simp)
    · rename_i e r hm
      have hperm := popMinEntry_perm ltZ heap e r hm
      have hmin := popMinEntry_minZ heap e r hm x hx
      split at h
      · rename_i j ht
        simp only [Option.some.injEq, Prod.mk.injEq] at h
        obtain ⟨⟨hp, _⟩, _⟩ := h
        subst hp
        by_contra hc
        push_neg at hc
        have : entryLt ltZ x e = true := by
          simp only [entryLt, ltZ, Bool.or_eq_true, decide_eq_true_eq]
          left; exact hc
        simp [this] at hmin
      · rename_i ht
        rcases List.mem_cons.mp ((List.Perm.mem_iff hperm).mp hx) with hxe | hxr
        · subst hxe
          rw [ht] at hlive
          simp at hlive
        · exact ih r p i rest h x hxr hlive

theorem popLoop_minZ (heap : List (Entry ℤ)) (p : ℤ) (i : ℕ) (rest : List (Entry ℤ))
    (h : LazyPQ.popLoop ltZ heap = some ((p, i), rest)) :
    ∀ x ∈ heap, x.tag.isSome = true → p ≤ x.pri :=
  popLoopF_minZ (heap.length + 1) heap p i rest h

theorem popLoopF_all_tombstone {P : Type} [DecidableEq P] (ltP : P → P → Bool) :
    ∀ (fuel : ℕ) (heap : List (Entry P)), (∀ e ∈ heap, e.tag = none) →
      LazyPQ.popLoopF ltP fuel heap = none := by
  intro fuel
  induction fuel with
  | zero => intro heap _; simp [LazyPQ.popLoopF]
  | succ k ih =>
    intro heap hall
    cases hm : popMinEntry ltP heap with
    | none => simp [LazyPQ.popLoopF, hm]
    | some pr =>
      obtain ⟨e, r⟩ := pr
      have hperm := popMinEntry_perm ltP heap e r hm
      have hte : e.tag = none := hall e (hperm.symm.subset (List.mem_cons_self _ _))
      have hallr : ∀ x ∈ r, x.tag = none := fun x hx =>
        hall x (hperm.symm.subset (List.mem_cons_of_mem _ hx))
      simp only [LazyPQ.popLoopF, hm, hte]
      exact ih r hallr

theorem popLoopF_live {P : Type} [DecidableEq P] (ltP : P → P → Bool) :
    ∀ (fuel : ℕ) (heap : List (Entry P)), heap.length < fuel →
      liveList heap ≠ [] →
      ∃ p i rest, LazyPQ.popLoopF ltP fuel heap = some ((p, i), rest) := by
  intro fuel
  induction fuel with
  | zero => intro heap hlen _; omega
  | succ k ih =>
    intro heap hlen hlive
    cases hm : popMinEntry ltP heap with
    | none =>
      have : heap = [] := (popMinEntry_eq_none ltP heap).mp hm
      subst this
      simp [liveList] at hlive
    | some pr =>
      obtain ⟨e, r⟩ := pr
      have hperm := popMinEntry_perm ltP heap e r hm
      have hlen2 : r.length < k := by
        have := popMinEntry_length ltP heap e r hm
        omega
      cases ht : e.tag with
      | some j =>
        refine ⟨e.pri, j, r, ?_⟩
        simp [LazyPQ.popLoopF, hm, ht]
      | none =>
        have hstep : (liveList heap).Perm (liveList r) := by
          have hfil := hperm.filter (fun e => e.tag.isSome)
          simpa [liveList, ht] using hfil
        have hlive2 : liveList r ≠ [] := by
          intro hnil
          rw [hnil] at hstep
          exact hlive (List.Perm.eq_nil hstep)
        obtain ⟨p, i, rest, hres⟩ := ih r hlen2 hlive2
        refine ⟨p, i, rest, ?_⟩
        simp only [LazyPQ.popLoopF, hm, ht]
        exact hres

theorem peekLoopF_mem {P : Type} [DecidableEq P] (ltP : P → P → Bool) :
    ∀ (fuel : ℕ) (heap : List (Entry P)) (p : P) (i : ℕ) (h' : List (Entry P)),
      LazyPQ.peekLoopF ltP fuel heap = some ((p, i), h') →
      (⟨p, some i⟩ : Entry P) ∈ heap := by
  intro fuel
  induction fuel with
  | zero => intro heap p i h' h; simp [LazyPQ.peekLoopF] at h
  | succ k ih =>
    intro heap p i h' h
    rw [LazyPQ.peekLoopF] at h
    split at h
    · exact absurd h (by simp)
    · rename_i e r hm
      have hperm := popMinEntry_perm ltP heap e r hm
      split at h
      · rename_i j ht
        simp only [Option.some.injEq, Prod.mk.injEq] at h
        obtain ⟨⟨hp, hj⟩, _⟩ := h
        subst hp; subst hj
        obtain ⟨pe, te⟩ := e
        simp only at ht
        subst ht
        exact hperm.symm.subset (List.mem_cons_self _ _)
      · rename_i ht
        exact hperm.symm.subset (List.mem_cons_of_mem _ (ih r p i h' h))

/-- fold a sequence of `push` operations starting from a fresh `PQ()`. -/
def pushSeq (ops : List (ℕ × ℤ)) : LazyPQ ℤ :=
  ops.foldl (fun s op => LazyPQ.push s op.1 op.2) ⟨[]⟩

theorem push_itemPriOK (s : LazyPQ ℤ) (i : ℕ) (p : ℤ) :
    ∀ e ∈ (LazyPQ.push s i p).heap, e.tag = some i → e.pri = p := by
  intro e he htag
  simp only [LazyPQ.push, List.mem_append, List.mem_map, List.mem_singleton] at he
  rcases he with ⟨a, _, hfa⟩ | he2
  · by_cases hc : a.tag = some i
    · rw [if_pos hc] at hfa
      rw [← hfa] at htag
      simp at htag
    · rw [if_neg hc] at hfa
      rw [← hfa] at htag
      exact absurd htag hc
  · rw [he2]

/-- iterate `pop` n times, collecting the returned pairs (stopping at the
first `KeyError`). -/
def popN : ℕ → LazyPQ ℤ → List (ℤ × ℕ) × LazyPQ ℤ
  | 0, s => ([], s)
  | Nat.succ k, s =>
    match LazyPQ.pop ltZ s with
    | .error _ => ([], s)
    | .ok (r, s') =>
      let t := popN k s'
      (r :: t.1, t.2)

theorem pop_popLoop (s : LazyPQ ℤ) (q : ℤ) (j : ℕ) (s' : LazyPQ ℤ)
    (hp : LazyPQ.pop ltZ s = .ok ((q, j), s')) :
    LazyPQ.popLoop ltZ s.heap = some ((q, j), s'.heap) := by
  rw [LazyPQ.pop] at hp
  split at hp
  · exact absurd hp (by simp)
  · rename_i r h hl
    simp only [Except.ok.injEq, Prod.mk.injEq] at hp
    obtain ⟨hr, hs⟩ := hp
    subst hr
    subst hs
    exact hl

theorem popN_itemPriOK :
    ∀ (n : ℕ) (s : LazyPQ ℤ) (i : ℕ) (p : ℤ),
      (∀ e ∈ s.heap, e.tag = some i → e.pri = p) →
      (∀ q j, (q, j) ∈ (popN n s).1 → j = i → q = p) ∧
      (∀ e ∈ (popN n s).2.heap, e.tag = some i → e.pri = p) := by
  intro n
  induction n with
  | zero =>
    intro s i p hok
    exact ⟨fun q j hq => by simp [popN] at hq, by simpa [popN] using hok⟩
  | succ k ih =>
    intro s i p hok
    cases hp : LazyPQ.pop ltZ s with
    | error msg =>
      refine ⟨fun q j hq => by simp [popN, hp] at hq, ?_⟩
      simpa [popN, hp] using hok
    | ok pr =>
      obtain ⟨⟨q0, j0⟩, s'⟩ := pr
      have hpl := pop_popLoop s q0 j0 s' hp
      obtain ⟨hmem, hsub, _⟩ := popLoop_struct ltZ s.heap q0 j0 s'.heap hpl
      have hok' : ∀ e ∈ s'.heap, e.tag = some i → e.pri = p := fun e he =>
        hok e (hsub e he)
      obtain ⟨ih1, ih2⟩ := ih s' i p hok'
      constructor
      · intro q j hq hj
        simp only [popN, hp, List.mem_cons, Prod.mk.injEq] at hq
        rcases hq with ⟨hq1, hq2⟩ | hq3
        · subst hq1; subst hq2; subst hj
          exact hok _ hmem rfl
        · exact ih1 q j hq3 hj
      · intro e he
        apply ih2
        simpa [popN, hp] using he

/-- C5: for every sequence of `push` operations on the lazy-deletion
indexed queue `PQ`, `pop()` returns an item with the minimum priority among
the currently-live items (and succeeds whenever a live item remains), and
a `push` of an item already present replaces its priority: no subsequent
`pop` or `peek` ever observes the superseded priority. -/
theorem C5_pop_min_and_update_key :
    (∀ (ops : List (ℕ × ℤ)) (p : ℤ) (i : ℕ) (s' : LazyPQ ℤ),
        LazyPQ.pop ltZ (pushSeq ops) = .ok ((p, i), s') →
          (⟨p, some i⟩ : Entry ℤ) ∈ (pushSeq ops).heap ∧
          ∀ e ∈ (pushSeq ops).heap, e.tag.isSome = true → p ≤ e.pri) ∧
    (∀ (ops : List (ℕ × ℤ)), liveList (pushSeq ops).heap ≠ [] →
        ∃ p i s', LazyPQ.pop ltZ (pushSeq ops) = .ok ((p, i), s')) ∧
    (∀ (s : LazyPQ ℤ) (i : ℕ) (p : ℤ) (n : ℕ) (q : ℤ),
        (q, i) ∈ (popN n (LazyPQ.push s i p)).1 → q = p) ∧
    (∀ (s : LazyPQ ℤ) (i : ℕ) (p : ℤ) (n : ℕ) (q : ℤ) (r : LazyPQ ℤ),
        LazyPQ.peek ltZ (popN n (LazyPQ.push s i p)).2 = .ok ((q, i), r) →
        q = p) := by
  refine ⟨?_, ?_, ?_, ?_⟩
  · intro ops p i s' hp
    have hpl := pop_popLoop (pushSeq ops) p i s' hp
    obtain ⟨hmem, _, _⟩ := popLoop_struct ltZ _ p i s'.heap hpl
    exact ⟨hmem, popLoop_minZ _ p i s'.heap hpl⟩
  · intro ops hlive
    obtain ⟨p, i, rest, hres⟩ :=
      popLoopF_live ltZ ((pushSeq ops).heap.length + 1) (pushSeq ops).heap
        (Nat.lt_succ_self _) hlive
    refine ⟨p, i, ⟨rest⟩, ?_⟩
    rw [LazyPQ.pop, LazyPQ.popLoop, hres]
  · intro s i p n q hq
    exact (popN_itemPriOK n (LazyPQ.push s i p) i p (push_itemPriOK s i p)).1
      q i hq rfl
  · intro s i p n q r hpk
    have h2 := (popN_itemPriOK n (LazyPQ.push s i p) i p (push_itemPriOK s i p)).2
    rw [LazyPQ.peek] at hpk
    split at hpk
    · exact absurd hpk (by simp)
    · rename_i r0 h0 hl
      simp only [Except.ok.injEq, Prod.mk.injEq] at hpk
      obtain ⟨hr, _⟩ := hpk
      subst hr
      exact h2 _ (peekLoopF_mem ltZ _ _ q i h0 hl) rfl

/-- witness for C5 at a concrete push sequence: pushing items 1 and 2 with
priorities 5 and 3, `pop` returns item 2 with the minimal priority 3. -/
theorem C5_witness :
    (⟨3, some 2⟩ : Entry ℤ) ∈ (pushSeq [(1, 5), (2, 3)]).heap ∧
    ∀ e ∈ (pushSeq [(1, 5), (2, 3)]).heap, e.tag.isSome = true → 3 ≤ e.pri :=
  C5_pop_min_and_update_key.1 [(1, 5), (2, 3)] 3 2 ⟨[⟨5, some 1⟩]⟩ rfl

/-! ## The Fibonacci heap (`src/ds/FibonacciHeap.py`)

`FibonacciTree` objects are modelled by an inductive tree; the `least`
attribute is a pointer to one of the top-level trees, modelled by its index
into the `trees` list (Python `list.remove` uses default object identity,
so removal always erases exactly the pointed-at position).  The `aux`
array of `consolidate` is modelled by a list of options that silently grows
on out-of-range writes (Python would raise `IndexError` there; this does
not happen for heaps produced by the operations). -/

inductive FibTree (V : Type) where
  | node (value : V) (child : List (FibTree V)) (order : ℕ)

def FibTree.value {V : Type} : FibTree V → V
  | .node v _ _ => v

def FibTree.child {V : Type} : FibTree V → List (FibTree V)
  | .node _ c _ => c

def FibTree.order {V : Type} : FibTree V → ℕ
  | .node _ _ o => o

/-- `FibonacciTree.add_at_end`. -/
def FibTree.addAtEnd {V : Type} : FibTree V → FibTree V → FibTree V
  | .node v c o, t => .node v (c ++ [t]) (o + 1)

structure FibHeap (V : Type) where
  trees : List (FibTree V)
  least : Option ℕ
  count : ℕ

def FibHeap.empty {V : Type} : FibHeap V := ⟨[], none, 0⟩

/-- `FibonacciHeap.is_empty`. -/
def FibHeap.isEmpty {V : Type} (h : FibHeap V) : Bool := h.count = 0

/-- `FibonacciHeap.push` (also aliased `put` in the source). -/
def FibHeap.push {V : Type} (ltV : V → V → Bool) (h : FibHeap V) (v : V) : FibHeap V :=
  let newIdx := h.trees.length
  let least' :=
    match h.least with
    | none => some newIdx
    | some i =>
      match h.trees.get? i with
      | none => h.least
      | some t => if ltV v t.value then some newIdx else h.least
  ⟨h.trees ++ [.node v [] 0], least', h.count + 1⟩

/-- `FibonacciHeap.peek`: returns `None` on an empty heap. -/
def FibHeap.peek {V : Type} (h : FibHeap V) : Option V :=
  h.least.bind fun i => (h.trees.get? i).map FibTree.value

/-- read of the `aux` array (out of range reads `None`). -/
def auxGet {T : Type} (aux : List (Option T)) (i : ℕ) : Option T :=
  aux.getD i none

/-- write to the `aux` array, growing it with `None` padding if needed. -/
def auxSet {T : Type} (aux : List (Option T)) (i : ℕ) (v : Option T) : List (Option T) :=
  (aux ++ List.replicate (i + 1 - aux.length) none).set i v

/-- number of filled slots of the `aux` array. -/
def countSome {T : Type} (aux : List (Option T)) : ℕ :=
  aux.countP (fun o => o.isSome)

theorem countSome_set_none {T : Type} :
    ∀ (aux : List (Option T)) (i : ℕ) (y : T), aux.getD i none = some y →
      countSome (aux.set i none) + 1 = countSome aux := by
  intro aux
  induction aux with
  | nil => intro i y h; simp [List.getD] at h
  | cons a rest ih =>
    intro i y h
    cases i with
    | zero =>
      simp [List.getD] at h
      subst h
      simp [countSome, List.countP_cons]
    | succ j =>
      have h' : rest.getD j none = some y := by simpa [List.getD] using h
      have := ih j y h'
      simp only [List.set, countSome, List.countP_cons] at *
      omega

theorem auxGet_lt_length {T : Type} (aux : List (Option T)) (i : ℕ) (y : T)
    (h : auxGet aux i = some y) : i < aux.length := by
  by_contra hn
  push_neg at hn
  rw [auxGet, List.getD_eq_default _ _ hn] at h
  exact Option.noConfusion h

theorem countSome_auxSet_none {T : Type} (aux : List (Option T)) (i : ℕ) (y : T)
    (h : auxGet aux i = some y) :
    countSome (auxSet aux i none) + 1 = countSome aux := by
  have hlt := auxGet_lt_length aux i y h
  have hz : i + 1 - aux.length = 0 := by omega
  rw [auxSet, hz]
  simp only [List.replicate, List.append_nil]
  exact countSome_set_none aux i y h

/-- the inner `while aux[order] is not None` loop of `consolidate`, with
structural fuel (each recursive call empties one filled slot, so the
wrapper's `countSome aux + 1` is always enough): link trees of equal
order pairwise (the smaller root keeps its rank and receives the larger
as a child), carrying the merged tree upward. -/
def insertAuxF {V : Type} (ltV : V → V → Bool) :
    ℕ → List (Option (FibTree V)) → FibTree V → ℕ → List (Option (FibTree V))
  | 0, aux, x, ord => auxSet aux ord (some x)
  | Nat.succ fuel, aux, x, ord =>
    match auxGet aux ord with
    | none => auxSet aux ord (some x)
    | some y =>
      let xy := if ltV y.value x.value then (y, x) else (x, y)
      insertAuxF ltV fuel (auxSet aux ord none) (xy.1.addAtEnd xy.2) (ord + 1)

def insertAux {V : Type} (ltV : V → V → Bool)
    (aux : List (Option (FibTree V))) (x : FibTree V) (ord : ℕ) :
    List (Option (FibTree V)) :=
  insertAuxF ltV (countSome aux + 1) aux x ord

/-- the outer `while self.trees != []` loop of `consolidate`. -/
def consolidateLoop {V : Type} (ltV : V → V → Bool) :
    List (FibTree V) → List (Option (FibTree V)) → List (Option (FibTree V))
  | [], aux => aux
  | x :: rest, aux => consolidateLoop ltV rest (insertAux ltV aux x x.order)

/-- the final scan of `consolidate`: collect filled slots in ascending
order and point `least` at the first strictly-minimal root. -/
def findLeastIdx {V : Type} (ltV : V → V → Bool) (ts : List (FibTree V)) : Option ℕ :=
  (ts.foldl
    (fun (acc : Option (ℕ × V) × ℕ) t =>
      match acc.1 with
      | none => (some (acc.2, t.value), acc.2 + 1)
      | some bv =>
        (if ltV t.value bv.2 then some (acc.2, t.value) else some bv, acc.2 + 1))
    (none, 0)).1.map Prod.fst

/-- structural `⌊log₂⌋` (agrees with `math.frexp(x)[1] - 1` on positive
sizes; the first argument is fuel, always supplied as the number itself). -/
def log2F : ℕ → ℕ → ℕ
  | 0, _ => 0
  | Nat.succ fuel, n => if 2 ≤ n then log2F fuel (n / 2) + 1 else 0

def floorLog2 (n : ℕ) : ℕ := log2F n n

/-- `FibonacciHeap.consolidate` (`floor_log` is `⌊log₂⌋` on the sizes that
occur).  Returns the rebuilt top-level list together with the new `least`
index. -/
def consolidate {V : Type} (ltV : V → V → Bool) (ts : List (FibTree V)) (count : ℕ) :
    List (FibTree V) × Option ℕ :=
  let size := floorLog2 count + 1
  let aux := consolidateLoop ltV ts (List.replicate size none)
  let ts' := aux.filterMap id
  (ts', findLeastIdx ltV ts')

/-- `FibonacciHeap.pop`: returns `None` (a plain value, not an error) on an
empty heap; otherwise removes the pointed-at minimum, promotes its
children and consolidates. -/
def FibHeap.pop {V : Type} (ltV : V → V → Bool) (h : FibHeap V) :
    Option V × FibHeap V :=
  match h.least with
  | none => (none, h)
  | some i =>
    match h.trees.get? i with
    | none => (none, h)
    | some smallest =>
      let t1 := h.trees ++ smallest.child
      let t2 := t1.eraseIdx i
      if t2.isEmpty then (some smallest.value, ⟨[], none, h.count - 1⟩)
      else
        let c := consolidate ltV t2 h.count
        (some smallest.value, ⟨c.1, c.2, h.count - 1⟩)

/-- C6: the claim that both priority-queue ADTs fail loudly on an empty
`pop` is false: the lazy-deletion `PQ` does raise `KeyError`, but
`FibonacciHeap.pop` on an empty heap returns the sentinel value `None`
(modelled by the `none` result) as a normal return value, leaving the heap
unchanged. -/
theorem C6_counterexample :
    FibHeap.pop ltZ (FibHeap.empty : FibHeap ℤ) = (none, FibHeap.empty) ∧
    LazyPQ.pop ltZ (⟨[]⟩ : LazyPQ ℤ) = .error "pop from an empty priority queue" :=
  ⟨rfl, rfl⟩

/-- C6 (amended): `PQ.pop` fails loudly (raises `KeyError`) whenever no
live item remains, whereas `FibonacciHeap.pop` on an empty heap returns
the sentinel `None` instead of failing. -/
theorem C6_amended :
    (∀ (P : Type) [DecidableEq P] (ltP : P → P → Bool) (s : LazyPQ P),
        (∀ e ∈ s.heap, e.tag = none) →
        LazyPQ.pop ltP s = .error "pop from an empty priority queue") ∧
    (∀ (V : Type) (ltV : V → V → Bool) (h : FibHeap V),
        h.least = none → FibHeap.pop ltV h = (none, h)) := by
  constructor
  · intro P inst ltP s hall
    rw [LazyPQ.pop, LazyPQ.popLoop, popLoopF_all_tombstone ltP _ s.heap hall]
  · intro V ltV h hl
    rw [FibHeap.pop, hl]

/-- witness for the amended C6 at concrete inputs: a queue holding a single
tombstoned entry raises, the empty Fibonacci heap returns `None`. -/
theorem C6_witness :
    LazyPQ.pop ltZ (⟨[⟨(7 : ℤ), none⟩]⟩ : LazyPQ ℤ) =
      .error "pop from an empty priority queue" ∧
    FibHeap.pop ltZ (⟨[], none, 0⟩ : FibHeap ℤ) = (none, ⟨[], none, 0⟩) :=
  ⟨C6_amended.1 ℤ ltZ ⟨[⟨7, none⟩]⟩
      (fun e he => by simp only [List.mem_singleton] at he; rw [he]),
    C6_amended.2 ℤ ltZ ⟨[], none, 0⟩ rfl⟩

/-! ## The graph model

NetworkX graphs are modelled by a node list, an edge list with integral
weights, and a directedness flag.  Neighbor iteration follows the edge
list; undirected edges are visible from both endpoints.  All graphs of
interest have one stored edge per adjacent pair (as in `nx.Graph`). -/

structure Graph where
  directed : Bool
  nodes : List ℕ
  edges : List (ℕ × ℕ × ℤ)
deriving Repr, DecidableEq

/-- neighbor iteration together with the `weight` attribute of each edge. -/
def nbrsW (G : Graph) (u : ℕ) : List (ℕ × ℤ) :=
  G.edges.filterMap fun e =>
    if e.1 = u then some (e.2.1, e.2.2)
    else if !G.directed && e.2.1 = u then some (e.1, e.2.2) else none

/-- neighbor iteration (`G.neighbors(u)` / `G.successors(u)`). -/
def nbrs (G : Graph) (u : ℕ) : List ℕ := (nbrsW G u).map Prod.fst

/-- `G[u][v]['weight']` when the edge exists. -/
def weightQ (G : Graph) (u v : ℕ) : Option ℤ :=
  (G.edges.find? fun e =>
      (e.1 == u && e.2.1 == v) || (!G.directed && e.1 == v && e.2.1 == u)).map
    (fun e => e.2.2)

/-- every edge endpoint is a listed node. -/
def edgesInNodes (G : Graph) : Prop :=
  ∀ e ∈ G.edges, e.1 ∈ G.nodes ∧ e.2.1 ∈ G.nodes

instance (G : Graph) : Decidable (edgesInNodes G) := by
  unfold edgesInNodes
  infer_instance

/-! ## Johnson's algorithm (`src/algorithms/Johnson.py`)

`johnson` copies the graph, attaches a virtual source `'_start_'` (here a
fresh numeric node) with zero-weight edges to every node, runs an
SPFA-style relaxation computing potentials, fails (returns `None`) when a
node is enqueued more than `len(G_aug.nodes)` times, reweights the edges
in their stored orientation, and finally runs one Fibonacci-heap Dijkstra
per source on the reweighted graph, undoing the potential shift. -/

/-- a node label distinct from every node and edge endpoint. -/
def freshNode (G : Graph) : ℕ :=
  ((G.nodes ++ G.edges.map (fun e => e.1) ++ G.edges.map (fun e => e.2.1)).foldr
    max 0) + 1

/-- the augmented graph `G_aug` with the virtual source attached. -/
def augGraph (G : Graph) : Graph :=
  let s := freshNode G
  ⟨G.directed, G.nodes ++ [s], G.edges ++ G.nodes.map (fun v => (s, v, 0))⟩

/-- the mutable state of the SPFA relaxation pass. -/
structure SpfaSt where
  pot : ℕ → EInt
  inQ : ℕ → Bool
  queue : List ℕ
  cnt : ℕ → ℕ

def spfaInit (G : Graph) : SpfaSt :=
  let s := freshNode G
  { pot := upd (fun _ => none) s (some 0)
    inQ := fun _ => false
    queue := [s]
    cnt := fun _ => 0 }

/-- the `for v in G_aug.neighbors(u)` relaxation loop body; `n` is
`len(G_aug.nodes)`; `none` models the `return None` on detection. -/
def relaxList (n : ℕ) (u : ℕ) : List (ℕ × ℤ) → SpfaSt → Option SpfaSt
  | [], st => some st
  | (v, w) :: L, st =>
    if ltE (addE (st.pot u) w) (st.pot v) then
      let st1 : SpfaSt := { st with pot := upd st.pot v (addE (st.pot u) w) }
      if st1.inQ v then relaxList n u L st1
      else
        let c := st1.cnt v + 1
        if n < c then none
        else relaxList n u L
          { st1 with
            cnt := upd st1.cnt v c
            queue := st1.queue ++ [v]
            inQ := upd st1.inQ v true }
    else relaxList n u L st

/-- the `while len(queue) > 0` loop; returns the potentials when the queue
empties, `none` on negative-cycle detection (or fuel exhaustion, which
stands for a still-running loop). -/
def spfaLoop (adj : ℕ → List (ℕ × ℤ)) (n : ℕ) : ℕ → SpfaSt → Option (ℕ → EInt)
  | 0, _ => none
  | Nat.succ fuel, st =>
    match st.queue with
    | [] => some st.pot
    | u :: rest =>
      match relaxList n u (adj u)
          { st with queue := rest, inQ := upd st.inQ u false } with
      | none => none
      | some st2 => spfaLoop adj n fuel st2

def spfaFuel (G : Graph) : ℕ :=
  ((augGraph G).nodes.length + 2) * ((augGraph G).nodes.length + 2)

/-- the whole relaxation pass of `johnson` (lines 11-35). -/
def spfaRun (G : Graph) : Option (ℕ → EInt) :=
  spfaLoop (fun u => nbrsW (augGraph G) u) (augGraph G).nodes.length
    (spfaFuel G) (spfaInit G)

/-- finite view of a potential (the potentials are provably finite
whenever the relaxation pass succeeds). -/
def finV : EInt → ℤ
  | none => 0
  | some a => a

/-- the reweighting step (lines 37-39): every stored edge not incident to
the virtual source gets `weight + potential[u] - potential[v]` in its
stored orientation. -/
def reweight (A : Graph) (pot : ℕ → EInt) (s : ℕ) : List (ℕ × ℕ × ℤ) :=
  A.edges.map fun e =>
    if e.1 ≠ s ∧ e.2.1 ≠ s then
      (e.1, e.2.1, e.2.2 + finV (pot e.1) - finV (pot e.2.1))
    else e

/-- weight lookup in a reweighted edge list (`G_aug[u][v].get('weight', 1)`). -/
def lookupW (edges : List (ℕ × ℕ × ℤ)) (directed : Bool) (u v : ℕ) : Option ℤ :=
  (edges.find? fun e =>
      (e.1 == u && e.2.1 == v) || (!directed && e.1 == v && e.2.1 == u)).map
    (fun e => e.2.2)

/-- lexicographic order on the `(dist, node)` values pushed into the
Fibonacci heap. -/
def ltDN (a b : ℤ × ℕ) : Bool :=
  decide (a.1 < b.1) || (decide (a.1 = b.1) && decide (a.2 < b.2))

/-- one relaxation sweep over `G.neighbors(u)` in the Dijkstra phase. -/
def relaxDij (rE : List (ℕ × ℕ × ℤ)) (directed : Bool) (u : ℕ) :
    List ℕ → (ℕ → EInt) → FibHeap (ℤ × ℕ) → (ℕ → EInt) × FibHeap (ℤ × ℕ)
  | [], dist, h => (dist, h)
  | v :: L, dist, h =>
    match dist u with
    | none => relaxDij rE directed u L dist h
    | some du =>
      let w := (lookupW rE directed u v).getD 1
      if ltE (some (du + w)) (dist v) then
        relaxDij rE directed u L (upd dist v (some (du + w)))
          (FibHeap.push ltDN h (du + w, v))
      else relaxDij rE directed u L dist h

/-- the `while not q.is_empty()` Dijkstra loop of `johnson`. -/
def dijLoop (G : Graph) (rE : List (ℕ × ℕ × ℤ)) :
    ℕ → (ℕ → EInt) → FibHeap (ℤ × ℕ) → (ℕ → EInt)
  | 0, dist, _ => dist
  | Nat.succ fuel, dist, h =>
    if h.count = 0 then dist
    else
      let p := FibHeap.pop ltDN h
      match p.1 with
      | none => dist
      | some (d, u) =>
        if ltE (dist u) (some d) then dijLoop G rE fuel dist p.2
        else
          let r := relaxDij rE G.directed u (nbrs G u) dist p.2
          dijLoop G rE fuel r.1 r.2

def dijFuel (G : Graph) : ℕ :=
  (G.nodes.length + 2) * (G.nodes.length + 2) * (G.nodes.length + 2)

/-- the single-source Dijkstra of `johnson` (lines 42-55). -/
def dijkstraJ (G : Graph) (rE : List (ℕ × ℕ × ℤ)) (src : ℕ) : ℕ → EInt :=
  dijLoop G rE (dijFuel G) (upd (fun _ => none) src (some 0))
    (FibHeap.push ltDN FibHeap.empty (0, src))

/-- `johnson` (`src/algorithms/Johnson.py`): `none` models `return None`. -/
def johnson (G : Graph) : Option (ℕ → ℕ → EInt) :=
  match spfaRun G with
  | none => none
  | some pot =>
    let s := freshNode G
    let rE := reweight (augGraph G) pot s
    some fun src =>
      let dij := dijkstraJ G rE src
      fun v =>
        if v ∈ G.nodes then addE (dij v) (finV (pot v) - finV (pot src))
        else dij v

/-! ## Invariants of the SPFA relaxation pass -/

theorem ltE_irrefl (a : EInt) : ltE a a = false := by
  cases a <;> simp [ltE]

/-- `a ≤ b` on extended values, expressed as `¬(b < a)`. -/
def leEP (a b : EInt) : Prop := ltE b a = false

theorem leEP_refl (a : EInt) : leEP a a := ltE_irrefl a

theorem leEP_trans {a b c : EInt} (h₁ : leEP a b) (h₂ : leEP b c) : leEP a c := by
  cases a <;> cases b <;> cases c <;> simp_all [leEP, ltE] <;> omega

theorem leEP_of_ltE {a b : EInt} (h : ltE a b = true) : leEP a b := by
  cases a <;> cases b <;> simp_all [leEP, ltE] <;> omega

theorem leEP_some {a : EInt} {c : ℤ} (h : leEP a (some c)) :
    ∃ x, a = some x ∧ x ≤ c := by
  cases a with
  | none => simp [leEP, ltE] at h
  | some x =>
    refine ⟨x, rfl, ?_⟩
    simp [leEP, ltE] at h
    omega

/-- the edge `(u,v,w)` is not tense under `pot`. -/
def Nontense (pot : ℕ → EInt) (u v : ℕ) (w : ℤ) : Prop :=
  ltE (addE (pot u) w) (pot v) = false

/-- invariant between SPFA loop iterations: queued flags are honest and
every tense edge starts at a queued node. -/
def SpfaInv (adj : ℕ → List (ℕ × ℤ)) (st : SpfaSt) : Prop :=
  (∀ x, st.inQ x = true → x ∈ st.queue) ∧
  (∀ x v w, (v, w) ∈ adj x → Nontense st.pot x v w ∨ x ∈ st.queue)

/-- invariant in the middle of relaxing the neighbors of `u`: a tense edge
either starts at a queued node or is one of the not-yet-processed
neighbor edges of `u`. -/
def MidInv (adj : ℕ → List (ℕ × ℤ)) (u : ℕ) (L : List (ℕ × ℤ)) (st : SpfaSt) :
    Prop :=
  (∀ x, st.inQ x = true → x ∈ st.queue) ∧
  (∀ x v w, (v, w) ∈ adj x →
      Nontense st.pot x v w ∨ x ∈ st.queue ∨ (x = u ∧ (v, w) ∈ L))

theorem midinv_edges_update
    (adj : ℕ → List (ℕ × ℤ)) (u v : ℕ) (w : ℤ) (L : List (ℕ × ℤ)) (st : SpfaSt)
    (q' : List ℕ)
    (hmid : MidInv adj u ((v, w) :: L) st)
    (ht : ltE (addE (st.pot u) w) (st.pot v) = true)
    (hsub : ∀ x, x ∈ st.queue → x ∈ q')
    (hvq : v ∈ q') :
    ∀ x y w₂, (y, w₂) ∈ adj x →
      Nontense (upd st.pot v (addE (st.pot u) w)) x y w₂ ∨ x ∈ q' ∨
        (x = u ∧ (y, w₂) ∈ L) := by
  intro x y w₂ hxy
  have hdrop : leEP (addE (st.pot u) w) (st.pot v) := leEP_of_ltE ht
  rcases hmid.2 x y w₂ hxy with hnt | hxq | ⟨hxu, hmem⟩
  · by_cases hxv : x = v
    · rw [hxv]; exact Or.inr (Or.inl hvq)
    · left
      unfold Nontense
      rw [upd_other _ _ _ _ hxv]
      by_cases hyv : y = v
      · rw [hyv, upd_same]
        rw [hyv] at hnt
        exact leEP_trans hdrop hnt
      · rw [upd_other _ _ _ _ hyv]
        exact hnt
  · exact Or.inr (Or.inl (hsub x hxq))
  · rcases List.mem_cons.mp hmem with hc | hc
    · rw [Prod.mk.injEq] at hc
      obtain ⟨hy, hw⟩ := hc
      by_cases hxv : x = v
      · rw [hxv]; exact Or.inr (Or.inl hvq)
      · left
        unfold Nontense
        rw [hxu, hy, hw]
        rw [hxu] at hxv
        rw [upd_other _ _ _ _ hxv, upd_same]
        exact ltE_irrefl _
    · exact Or.inr (Or.inr ⟨hxu, hc⟩)

theorem relaxList_spec (adj : ℕ → List (ℕ × ℤ)) (n u : ℕ) :
    ∀ (L : List (ℕ × ℤ)) (st st₂ : SpfaSt),
      relaxList n u L st = some st₂ → MidInv adj u L st →
      MidInv adj u [] st₂ ∧ (∀ x, x ∈ st.queue → x ∈ st₂.queue) ∧
      (∀ x, leEP (st₂.pot x) (st.pot x)) := by
  intro L
  induction L with
  | nil =>
    intro st st₂ h hmid
    simp only [relaxList, Option.some.injEq] at h
    subst h
    exact ⟨hmid, fun x hx => hx, fun x => leEP_refl _⟩
  | cons vw L ih =>
    intro st st₂ h hmid
    obtain ⟨v, w⟩ := vw
    simp only [relaxList] at h
    by_cases ht : ltE (addE (st.pot u) w) (st.pot v) = true
    · rw [if_pos ht] at h
      have hdrop : leEP (addE (st.pot u) w) (st.pot v) := leEP_of_ltE ht
      by_cases hq : st.inQ v = true
      · rw [if_pos hq] at h
        have hvq : v ∈ st.queue := hmid.1 v hq
        have hmid' : MidInv adj u L
            { st with pot := upd st.pot v (addE (st.pot u) w) } :=
          ⟨hmid.1,
            midinv_edges_update adj u v w L st st.queue hmid ht
              (fun x hx => hx) hvq⟩
        obtain ⟨h1, h2, h3⟩ := ih _ _ h hmid'
        refine ⟨h1, h2, fun x => leEP_trans (h3 x) ?_⟩
        dsimp only
        by_cases hxv : x = v
        · rw [hxv, upd_same]; exact hdrop
        · rw [upd_other _ _ _ _ hxv]; exact leEP_refl _
      · rw [if_neg hq] at h
        by_cases hdet : n < st.cnt v + 1
        · rw [if_pos hdet] at h
          exact absurd h (by simp)
        · rw [if_neg hdet] at h
          have hmid' : MidInv adj u L
              { pot := upd st.pot v (addE (st.pot u) w)
                inQ := upd st.inQ v true
                queue := st.queue ++ [v]
                cnt := upd st.cnt v (st.cnt v + 1) } := by
            constructor
            · intro x hx
              dsimp only at hx ⊢
              by_cases hxv : x = v
              · rw [hxv]
                exact List.mem_append_right _ (by simp)
              · rw [upd_other _ _ _ _ hxv] at hx
                exact List.mem_append_left _ (hmid.1 x hx)
            · exact midinv_edges_update adj u v w L st (st.queue ++ [v]) hmid ht
                (fun x hx => List.mem_append_left _ hx)
                (List.mem_append_right _ (by simp))
          obtain ⟨h1, h2, h3⟩ := ih _ _ h hmid'
          refine ⟨h1, fun x hx => h2 x (List.mem_append_left _ hx),
            fun x => leEP_trans (h3 x) ?_⟩
          dsimp only
          by_cases hxv : x = v
          · rw [hxv, upd_same]; exact hdrop
          · rw [upd_other _ _ _ _ hxv]; exact leEP_refl _
    · rw [if_neg ht] at h
      have hmid' : MidInv adj u L st := by
        refine ⟨hmid.1, ?_⟩
        intro x y w₂ hxy
        rcases hmid.2 x y w₂ hxy with hnt | hxq | ⟨hxu, hmem⟩
        · exact Or.inl hnt
        · exact Or.inr (Or.inl hxq)
        · rcases List.mem_cons.mp hmem with hc | hc
          · rw [Prod.mk.injEq] at hc
            obtain ⟨hy, hw⟩ := hc
            left
            unfold Nontense
            rw [hxu, hy, hw]
            exact Bool.eq_false_iff.mpr ht
          · exact Or.inr (Or.inr ⟨hxu, hc⟩)
      exact ih _ _ h hmid'

theorem spfaLoop_inv (adj : ℕ → List (ℕ × ℤ)) (n : ℕ) :
    ∀ (fuel : ℕ) (st : SpfaSt) (pot : ℕ → EInt),
      spfaLoop adj n fuel st = some pot → SpfaInv adj st →
      (∀ x v w, (v, w) ∈ adj x → Nontense pot x v w) ∧
      (∀ x, leEP (pot x) (st.pot x)) := by
  intro fuel
  induction fuel with
  | zero => intro st pot h _; simp [spfaLoop] at h
  | succ k ih =>
    intro st pot h hinv
    rw [spfaLoop] at h
    split at h
    · rename_i hq
      simp only [Option.some.injEq] at h
      subst h
      refine ⟨?_, fun x => leEP_refl _⟩
      intro x v w hxy
      rcases hinv.2 x v w hxy with hnt | hxq
      · exact hnt
      · rw [hq] at hxq
        simp at hxq
    · rename_i u rest hq
      split at h
      · exact absurd h (by simp)
      · rename_i st2 hrel
        have hmid : MidInv adj u (adj u)
            { st with queue := rest, inQ := upd st.inQ u false } := by
          constructor
          · intro x hx
            dsimp only at hx ⊢
            by_cases hxu : x = u
            · rw [hxu, upd_same] at hx
              exact absurd hx (by simp)
            · rw [upd_other _ _ _ _ hxu] at hx
              have := hinv.1 x hx
              rw [hq] at this
              rcases List.mem_cons.mp this with hc | hc
              · exact absurd hc hxu
              · exact hc
          · intro x y w hxy
            dsimp only
            rcases hinv.2 x y w hxy with hnt | hxq
            · exact Or.inl hnt
            · rw [hq] at hxq
              rcases List.mem_cons.mp hxq with hc | hc
              · subst hc
                exact Or.inr (Or.inr ⟨rfl, hxy⟩)
              · exact Or.inr (Or.inl hc)
        obtain ⟨hm1, hm2, hm3⟩ := relaxList_spec adj n u (adj u) _ st2 hrel hmid
        have hinv2 : SpfaInv adj st2 := by
          refine ⟨hm1.1, ?_⟩
          intro x y w hxy
          rcases hm1.2 x y w hxy with hnt | hxq | ⟨_, hmem⟩
          · exact Or.inl hnt
          · exact Or.inr hxq
          · exact absurd hmem (by simp)
        obtain ⟨hfin, hmono⟩ := ih st2 pot h hinv2
        exact ⟨hfin, fun x => leEP_trans (hmono x) (hm3 x)⟩

theorem start_edge_mem (G : Graph) (v : ℕ) (hv : v ∈ G.nodes) :
    (v, (0 : ℤ)) ∈ nbrsW (augGraph G) (freshNode G) := by
  apply List.mem_filterMap.mpr
  refine ⟨(freshNode G, v, 0), ?_, ?_⟩
  · simp only [augGraph]
    exact List.mem_append_right _ (List.mem_map.mpr ⟨v, hv, rfl⟩)
  · simp

theorem nbrsW_sub_aug (G : Graph) (x : ℕ) :
    ∀ p ∈ nbrsW G x, p ∈ nbrsW (augGraph G) x := by
  intro p hp
  obtain ⟨e, he, hf⟩ := List.mem_filterMap.mp hp
  apply List.mem_filterMap.mpr
  refine ⟨e, ?_, ?_⟩
  · simp only [augGraph]
    exact List.mem_append_left _ he
  · simpa only [augGraph] using hf

theorem nbrsW_mem_nodes (G : Graph) (hwf : edgesInNodes G) (x v : ℕ) (w : ℤ)
    (h : (v, w) ∈ nbrsW G x) : x ∈ G.nodes ∧ v ∈ G.nodes := by
  obtain ⟨e, he, hf⟩ := List.mem_filterMap.mp h
  have hmem := hwf e he
  by_cases h1 : e.1 = x
  · rw [if_pos h1] at hf
    simp only [Option.some.injEq, Prod.mk.injEq] at hf
    obtain ⟨hv, _⟩ := hf
    exact ⟨h1 ▸ hmem.1, hv ▸ hmem.2⟩
  · rw [if_neg h1] at hf
    by_cases h2 : (!G.directed && decide (e.2.1 = x)) = true
    · rw [if_pos h2] at hf
      simp only [Option.some.injEq, Prod.mk.injEq] at hf
      obtain ⟨hv, _⟩ := hf
      simp only [Bool.and_eq_true, decide_eq_true_eq] at h2
      exact ⟨h2.2 ▸ hmem.2, hv ▸ hmem.1⟩
    · rw [if_neg h2] at hf
      exact absurd hf (by simp)

/-- the nontense inequalities and finiteness of the potentials after a
successful relaxation pass. -/
theorem spfa_success (G : Graph) (pot : ℕ → EInt)
    (hwf : edgesInNodes G) (h : spfaRun G = some pot) :
    (∀ v ∈ G.nodes, ∃ a, pot v = some a) ∧
    (∀ x v w, (v, w) ∈ nbrsW G x → finV (pot v) ≤ finV (pot x) + w) := by
  have hinv0 : SpfaInv (fun u => nbrsW (augGraph G) u) (spfaInit G) := by
    constructor
    · intro x hx
      simp [spfaInit] at hx
    · intro x v w hxy
      by_cases hxs : x = freshNode G
      · rw [hxs]
        exact Or.inr (by simp [spfaInit])
      · left
        unfold Nontense
        simp only [spfaInit]
        rw [upd_other _ _ _ _ hxs]
        simp [addE, ltE]
  obtain ⟨hnt, hmono⟩ := spfaLoop_inv _ _ (spfaFuel G) (spfaInit G) pot h hinv0
  have hstart : ∃ c, pot (freshNode G) = some c := by
    have := hmono (freshNode G)
    simp only [spfaInit, upd_same] at this
    obtain ⟨c, hc, _⟩ := leEP_some this
    exact ⟨c, hc⟩
  obtain ⟨c, hc⟩ := hstart
  have hfin : ∀ v ∈ G.nodes, ∃ a, pot v = some a ∧ a ≤ c := by
    intro v hv
    have hnt2 := hnt (freshNode G) v 0 (start_edge_mem G v hv)
    unfold Nontense at hnt2
    rw [hc] at hnt2
    cases hpv : pot v with
    | none => rw [hpv] at hnt2; simp [addE, ltE] at hnt2
    | some a =>
      rw [hpv] at hnt2
      simp only [addE, ltE, decide_eq_false_iff_not, not_lt] at hnt2
      exact ⟨a, rfl, by omega⟩
  constructor
  · intro v hv
    obtain ⟨a, ha, _⟩ := hfin v hv
    exact ⟨a, ha⟩
  · intro x v w hxy
    obtain ⟨hx, hv⟩ := nbrsW_mem_nodes G hwf x v w hxy
    obtain ⟨ax, hax, _⟩ := hfin x hx
    obtain ⟨av, hav, _⟩ := hfin v hv
    have hnt2 := hnt x v w (nbrsW_sub_aug G x _ hxy)
    unfold Nontense at hnt2
    rw [hax, hav] at hnt2
    simp only [addE, ltE, decide_eq_false_iff_not, not_lt] at hnt2
    rw [hax, hav]
    simpa [finV] using hnt2

/-! ## Closed walks and negative cycles -/

/-- the consecutive steps of a walk chain up. -/
def chainedB : List (ℕ × ℕ × ℤ) → Bool
  | [] => true
  | [_] => true
  | a :: b :: t => a.2.1 == b.1 && chainedB (b :: t)

def stepsWeight (steps : List (ℕ × ℕ × ℤ)) : ℤ :=
  (steps.map (fun st => st.2.2)).sum

/-- `steps` is a closed walk of `G` (each step an adjacency of its first
node, consecutive steps chained, last endpoint equal to the first start)
of negative total weight. -/
def closedNegWalkB (G : Graph) : List (ℕ × ℕ × ℤ) → Bool
  | [] => false
  | st :: rest =>
    ((st :: rest).all fun e => decide ((e.2.1, e.2.2) ∈ nbrsW G e.1)) &&
    chainedB (st :: rest) &&
    (((st :: rest).getLast (List.cons_ne_nil st rest)).2.1 == st.1) &&
    decide (stepsWeight (st :: rest) < 0)

theorem tele (pz : ℕ → ℤ) :
    ∀ (rest : List (ℕ × ℕ × ℤ)) (st : ℕ × ℕ × ℤ),
      chainedB (st :: rest) = true →
      (∀ e ∈ st :: rest, pz e.2.1 ≤ pz e.1 + e.2.2) →
      pz (((st :: rest).getLast (List.cons_ne_nil st rest)).2.1) ≤
        pz st.1 + stepsWeight (st :: rest) := by
  intro rest
  induction rest with
  | nil =>
    intro st _ hstep
    have h1 := hstep st (List.mem_singleton.mpr rfl)
    simp only [List.getLast_singleton, stepsWeight, List.map, List.sum_cons,
      List.sum_nil]
    omega
  | cons st2 t ih =>
    intro st hch hstep
    have hch' : (st.2.1 == st2.1 && chainedB (st2 :: t)) = true := hch
    simp only [Bool.and_eq_true, beq_iff_eq] at hch'
    obtain ⟨heq, hch2⟩ := hch'
    have h1 := hstep st (List.mem_cons_self _ _)
    rw [heq] at h1
    have h2 := ih st2 hch2 (fun e he => hstep e (List.mem_cons_of_mem _ he))
    have hlast : ((st :: st2 :: t).getLast (List.cons_ne_nil st (st2 :: t))) =
        ((st2 :: t).getLast (List.cons_ne_nil st2 t)) :=
      List.getLast_cons _
    rw [hlast]
    have hw : stepsWeight (st :: st2 :: t) = st.2.2 + stepsWeight (st2 :: t) := by
      simp [stepsWeight]
    rw [hw]
    omega

/-- C3: for every graph with edge endpoints among its nodes that contains
a closed walk of negative total weight (a reachable negative cycle — in
the augmented graph every node is reachable from the virtual source),
`johnson` fails with its distinct negative-cycle signal `None` and returns
no distance table. -/
theorem C3_negative_cycle_detected (G : Graph) (steps : List (ℕ × ℕ × ℤ))
    (hwf : edgesInNodes G) (hneg : closedNegWalkB G steps = true) :
    johnson G = none := by
  cases h : spfaRun G with
  | none => simp [johnson, h]
  | some pot =>
    exfalso
    obtain ⟨_, hineq⟩ := spfa_success G pot hwf h
    cases steps with
    | nil => simp [closedNegWalkB] at hneg
    | cons st rest =>
      unfold closedNegWalkB at hneg
      simp only [Bool.and_eq_true, beq_iff_eq, decide_eq_true_eq,
        List.all_eq_true] at hneg
      obtain ⟨⟨⟨hall, hch⟩, hclose⟩, hwneg⟩ := hneg
      have hstep : ∀ e ∈ st :: rest,
          (fun v => finV (pot v)) e.2.1 ≤ (fun v => finV (pot v)) e.1 + e.2.2 := by
        intro e he
        exact hineq e.1 e.2.1 e.2.2 (by simpa using hall e he)
      have htel := tele (fun v => finV (pot v)) rest st hch hstep
      rw [hclose] at htel
      simp only at htel
      omega

/-- concrete graph for the C3 witness: a directed two-node negative cycle. -/
def gW3 : Graph := ⟨true, [0, 1], [(0, 1, -1), (1, 0, -1)]⟩

/-- witness for C3: on the two-node negative cycle, `johnson` returns `None`. -/
theorem C3_witness : johnson gW3 = none :=
  C3_negative_cycle_detected gW3 [(0, 1, -1), (1, 0, -1)] (by decide) (by decide)

/-- C4: whenever the relaxation pass of `johnson` succeeds (in particular
on every graph without a negative cycle), the potentials of all nodes are
finite and every original edge satisfies
`weight(u,v) + potential(u) - potential(v) ≥ 0` — in both orientations
when the graph is undirected, since the pass relaxes both directions. -/
theorem C4_reweighted_nonneg (G : Graph) (pot : ℕ → EInt)
    (hwf : edgesInNodes G) (h : spfaRun G = some pot) :
    (∀ v ∈ G.nodes, ∃ a, pot v = some a) ∧
    ∀ e ∈ G.edges,
      0 ≤ e.2.2 + finV (pot e.1) - finV (pot e.2.1) ∧
      (G.directed = false → 0 ≤ e.2.2 + finV (pot e.2.1) - finV (pot e.1)) := by
  obtain ⟨hfin, hineq⟩ := spfa_success G pot hwf h
  refine ⟨hfin, ?_⟩
  intro e he
  constructor
  · have hmem : (e.2.1, e.2.2) ∈ nbrsW G e.1 :=
      List.mem_filterMap.mpr ⟨e, he, by rw [if_pos rfl]⟩
    have := hineq e.1 e.2.1 e.2.2 hmem
    omega
  · intro hdir
    have hmem : (e.1, e.2.2) ∈ nbrsW G e.2.1 := by
      apply List.mem_filterMap.mpr
      refine ⟨e, he, ?_⟩
      by_cases hsl : e.1 = e.2.1
      · rw [if_pos hsl, hsl]
      · rw [if_neg hsl, if_pos (by simp [hdir])]
    have := hineq e.2.1 e.1 e.2.2 hmem
    omega

/-- concrete graph for the C4 witness: one directed negative edge. -/
def gW4 : Graph := ⟨true, [0, 1], [(0, 1, -3)]⟩

/-- witness for C4: on the one-negative-edge graph the relaxation pass
succeeds and the reweighted edge weight is non-negative. -/
theorem C4_witness :
    ∃ pot, spfaRun gW4 = some pot ∧ (∃ a, pot 0 = some a) ∧
      0 ≤ -3 + finV (pot 0) - finV (pot 1) := by
  have hs : (spfaRun gW4).isSome = true := by decide
  obtain ⟨pot, hp⟩ := Option.isSome_iff_exists.mp hs
  have hmain := C4_reweighted_nonneg gW4 pot (by decide) hp
  refine ⟨pot, hp, hmain.1 0 (by decide), ?_⟩
  exact (hmain.2 (0, 1, -3) (by decide)).1

/-! ## Contraction Hierarchies (`src/algorithms/Contraction Hierarchies.py`)

The build contracts nodes in ascending-degree order, runs a
distance-bounded witness search per neighbor pair, and records shortcut
edges into `edge_map` (keyed by the sorted pair).  The query runs a
bidirectional Dijkstra over the symmetrized shortcut graph; it receives
the node→rank map from the build but — exactly as the source — never
consults it, so the model records the relaxed edge pairs of both searches
in explicit traces to let the rank claim be examined. -/

/-- `_edge_weight`: `inf` when no edge exists. -/
def edgeW (G : Graph) (a b : ℕ) : EInt := weightQ G a b

/-- leftmost-minimal pop on a plain `heapq` list of `(dist, node)` pairs. -/
def popMinPair : List (ℤ × ℕ) → Option ((ℤ × ℕ) × List (ℤ × ℕ))
  | [] => none
  | e :: rest =>
    match popMinPair rest with
    | none => some (e, [])
    | some (m, r') => if ltDN m e then some (m, e :: r') else some (e, rest)

/-- the pushes emitted when `_dijkstra_limited` relaxes the neighbors of
`u` (skipping forbidden nodes, the limit, and already-settled nodes). -/
def dlRelax (G : Graph) (forb : List ℕ) (limit d : ℤ)
    (dist : ℕ → Option ℤ) (u : ℕ) : List (ℤ × ℕ) :=
  (nbrs G u).filterMap fun v =>
    if v ∈ forb then none
    else
      match edgeW G u v with
      | none => none
      | some w =>
        if d + w ≤ limit ∧ (dist v).isNone then some (d + w, v) else none

/-- the main loop of `_dijkstra_limited`. -/
def dijLimLoop (G : Graph) (forb : List ℕ) (limit : ℤ) :
    ℕ → (ℕ → Option ℤ) → List (ℤ × ℕ) → (ℕ → Option ℤ)
  | 0, dist, _ => dist
  | Nat.succ fuel, dist, pq =>
    match popMinPair pq with
    | none => dist
    | some ((d, u), pq') =>
      if (dist u).isSome then dijLimLoop G forb limit fuel dist pq'
      else
        let dist' := upd dist u (some d)
        if limit < d then dijLimLoop G forb limit fuel dist' pq'
        else dijLimLoop G forb limit fuel dist'
          (pq' ++ dlRelax G forb limit d dist' u)

/-- `_dijkstra_limited(G, source, forbidden, dist_limit)`. -/
def dijkstraLimited (G : Graph) (src : ℕ) (forb : List ℕ) (limit : ℤ) :
    ℕ → Option ℤ :=
  dijLimLoop G forb limit
    ((G.nodes.length + G.edges.length + 2) * (G.nodes.length + 2))
    (fun _ => none) [(0, src)]

def degree (G : Graph) (x : ℕ) : ℕ := (nbrs G x).length

/-- stable insertion into an ascending-key-sorted list. -/
def insertSorted (key : ℕ → ℕ) (x : ℕ) : List ℕ → List ℕ
  | [] => [x]
  | y :: t => if key y < key x then y :: insertSorted key x t
              else x :: y :: t

/-- stable ascending sort by key (Python `sorted` is stable). -/
def sortByKey (key : ℕ → ℕ) (l : List ℕ) : List ℕ :=
  l.foldr (insertSorted key) []

/-- `compute_node_order`: ascending degree, ties in node-list order. -/
def compute_node_order (G : Graph) : List ℕ := sortByKey (degree G) G.nodes

/-- the sorted-pair key `tuple(sorted((a, b)))` of `edge_map`. -/
def skey (a b : ℕ) : ℕ × ℕ := if a ≤ b then (a, b) else (b, a)

def emFind (m : List ((ℕ × ℕ) × ℤ)) (k : ℕ × ℕ) : Option ℤ :=
  (m.find? (fun p => p.1 == k)).map (fun p => p.2)

/-- `edge_map[key] = min(edge_map.get(key, inf), w)`. -/
def emUpdateMin (m : List ((ℕ × ℕ) × ℤ)) (k : ℕ × ℕ) (w : ℤ) :
    List ((ℕ × ℕ) × ℤ) :=
  match emFind m k with
  | none => m ++ [(k, w)]
  | some old =>
    if w < old then m.map (fun p => if p.1 == k then (p.1, w) else p) else m

/-- the initial collection of original edges into `edge_map`. -/
def initEdgeMap (G : Graph) : List ((ℕ × ℕ) × ℤ) :=
  G.edges.foldl (fun m e => emUpdateMin m (skey e.1 e.2.1) e.2.2) []

/-- removal of a contracted node from the working graph. -/
def removeNode (G : Graph) (v : ℕ) : Graph :=
  ⟨G.directed, G.nodes.erase v,
    G.edges.filter (fun e => e.1 ≠ v ∧ e.2.1 ≠ v)⟩

/-- the inner loop over `neigh[j]` (`j > i`) of the contraction of `v`:
witness search and shortcut recording. -/
def contractInner (working : Graph) (v u : ℕ) (duv : ℤ) :
    List ℕ → List ((ℕ × ℕ) × ℤ) → List ((ℕ × ℕ) × ℤ)
  | [], em => em
  | wn :: rest, em =>
    if u = wn then contractInner working v u duv rest em
    else
      match edgeW working v wn with
      | none => contractInner working v u duv rest em
      | some dvw =>
        let via := duv + dvw
        let dists := dijkstraLimited working u [v] via
        let em' :=
          if ltE (some via) (dists wn) then emUpdateMin em (skey u wn) via
          else em
        contractInner working v u duv rest em'

/-- the outer loop over `neigh[i]` of the contraction of `v`. -/
def contractOuter (working : Graph) (v : ℕ) :
    List ℕ → List ((ℕ × ℕ) × ℤ) → List ((ℕ × ℕ) × ℤ)
  | [], em => em
  | u :: rest, em =>
    match edgeW working u v with
    | none => contractOuter working v rest em
    | some duv => contractOuter working v rest (contractInner working v u duv rest em)

/-- the contraction loop of `build_contraction_hierarchy`. -/
def buildLoop :
    List ℕ → Graph → (ℕ → Option ℕ) → ℕ → List ((ℕ × ℕ) × ℤ) →
    (ℕ → Option ℕ) × List ((ℕ × ℕ) × ℤ)
  | [], _, rank, _, em => (rank, em)
  | v :: vs, working, rank, idx, em =>
    if v ∈ working.nodes then
      buildLoop vs (removeNode working v) (upd rank v (some idx)) (idx + 1)
        (contractOuter working v (nbrs working v) em)
    else buildLoop vs working (upd rank v (some idx)) (idx + 1) em

/-- `build_contraction_hierarchy`: returns the shortcut `edge_map` (the
directed graph `G_up` adds both directions of each entry) and the
node→rank map. -/
def build_contraction_hierarchy (G : Graph) :
    List ((ℕ × ℕ) × ℤ) × (ℕ → Option ℕ) :=
  let r := buildLoop (compute_node_order G) G (fun _ => none) 0 (initEdgeMap G)
  (r.2, r.1)

/-- neighbor iteration in the symmetrized shortcut graph `G_up` (and in
its reverse, which coincides with it). -/
def upNbrs (em : List ((ℕ × ℕ) × ℤ)) (u : ℕ) : List (ℕ × ℤ) :=
  em.filterMap fun p =>
    if p.1.1 = u then some (p.1.2, p.2)
    else if p.1.2 = u then some (p.1.1, p.2) else none

/-- the state of the bidirectional CH query, including the traces of the
relaxed edge pairs of the two searches. -/
structure ChSt where
  distF : ℕ → EInt
  distB : ℕ → EInt
  parF : ℕ → Option ℕ
  parB : ℕ → Option ℕ
  pqF : List (ℤ × ℕ)
  pqB : List (ℤ × ℕ)
  visF : List ℕ
  visB : List ℕ
  best : EInt
  meet : Option ℕ
  trF : List (ℕ × ℕ)
  trB : List (ℕ × ℕ)

/-- relax all shortcut-graph neighbors of the popped node `u`. -/
def chRelax (u : ℕ) (d : ℤ) :
    List (ℕ × ℤ) → (ℕ → EInt) → (ℕ → Option ℕ) → List (ℤ × ℕ) →
    List (ℕ × ℕ) →
    (ℕ → EInt) × (ℕ → Option ℕ) × List (ℤ × ℕ) × List (ℕ × ℕ)
  | [], dist, par, pq, tr => (dist, par, pq, tr)
  | (v, w) :: L, dist, par, pq, tr =>
    if ltE (some (d + w)) (dist v) then
      chRelax u d L (upd dist v (some (d + w))) (upd par v (some u))
        (pq ++ [(d + w, v)]) (tr ++ [(u, v)])
    else chRelax u d L dist par pq tr

/-- the forward block of one query-loop iteration. -/
def chStepF (adj : ℕ → List (ℕ × ℤ)) (st : ChSt) : ChSt :=
  match popMinPair st.pqF with
  | none => st
  | some ((d, u), pq') =>
    if some d = st.distF u then
      let r := chRelax u d (adj u) st.distF st.parF pq' st.trF
      let st1 : ChSt := { st with
        distF := r.1, parF := r.2.1, pqF := r.2.2.1, trF := r.2.2.2,
        visF := st.visF ++ [u] }
      if (st1.distB u).isSome then
        let cand := eadd (st1.distF u) (st1.distB u)
        if ltE cand st1.best then { st1 with best := cand, meet := some u }
        else st1
      else st1
    else { st with pqF := pq' }

/-- the backward block of one query-loop iteration. -/
def chStepB (adj : ℕ → List (ℕ × ℤ)) (st : ChSt) : ChSt :=
  match popMinPair st.pqB with
  | none => st
  | some ((d, u), pq') =>
    if some d = st.distB u then
      let r := chRelax u d (adj u) st.distB st.parB pq' st.trB
      let st1 : ChSt := { st with
        distB := r.1, parB := r.2.1, pqB := r.2.2.1, trB := r.2.2.2,
        visB := st.visB ++ [u] }
      if (st1.distF u).isSome then
        let cand := eadd (st1.distF u) (st1.distB u)
        if ltE cand st1.best then { st1 with best := cand, meet := some u }
        else st1
      else st1
    else { st with pqB := pq' }

/-- the smallest pending priority of a `heapq` list (`pq[0][0]`), `inf`
when empty. -/
def topMin (pq : List (ℤ × ℕ)) : EInt :=
  match popMinPair pq with
  | none => none
  | some ((d, _), _) => some d

/-- the main `while pq_f or pq_b` loop of `ch_shortest_path`. -/
def chLoop (adj : ℕ → List (ℕ × ℤ)) : ℕ → ChSt → ChSt
  | 0, st => st
  | Nat.succ fuel, st =>
    if st.pqF.isEmpty && st.pqB.isEmpty then st
    else
      let st1 := if st.pqF.isEmpty then st else chStepF adj st
      let st2 := if st1.pqB.isEmpty then st1 else chStepB adj st1
      if st2.best.isSome &&
          !(ltE (eadd (topMin st2.pqF) (topMin st2.pqB)) st2.best) then st2
      else chLoop adj fuel st2

/-- scan for a meeting node among nodes reached by both searches (the
fallback after the main loop when no meeting node was recorded). -/
def meetScan (distF distB : ℕ → EInt) :
    List ℕ → EInt → Option ℕ → EInt × Option ℕ
  | [], best, meet => (best, meet)
  | u :: rest, best, meet =>
    if (distF u).isSome && (distB u).isSome then
      let cand := eadd (distF u) (distB u)
      if ltE cand best then meetScan distF distB rest cand (some u)
      else meetScan distF distB rest best meet
    else meetScan distF distB rest best meet

/-- follow a parent chain (`while cur is not None`), fuel-bounded. -/
def parentChain (par : ℕ → Option ℕ) : ℕ → ℕ → List ℕ
  | 0, _ => []
  | Nat.succ fuel, cur =>
    cur :: (match par cur with
            | none => []
            | some p => parentChain par fuel p)

/-- recomputed weight of the reconstructed path in the original graph
(`_edge_weight` returns `inf` on a missing edge). -/
def pathWeightE (G : Graph) : List ℕ → EInt
  | [] => some 0
  | [_] => some 0
  | a :: b :: t => eadd (edgeW G a b) (pathWeightE G (b :: t))

/-- the result of `ch_shortest_path` together with the relaxation traces
of the two searches. -/
structure ChOut where
  res : Option (List ℕ × EInt × List ℕ)
  trF : List (ℕ × ℕ)
  trB : List (ℕ × ℕ)

def chFuel (G : Graph) : ℕ :=
  (G.nodes.length + G.edges.length + 2) * (G.nodes.length + G.edges.length + 2)

/-- the initial state of the bidirectional query. -/
def chInit (source target : ℕ) : ChSt :=
  { distF := upd (fun _ => none) source (some 0)
    distB := upd (fun _ => none) target (some 0)
    parF := fun _ => none
    parB := fun _ => none
    pqF := [(0, source)]
    pqB := [(0, target)]
    visF := []
    visB := []
    best := none
    meet := none
    trF := []
    trB := [] }

/-- build the hierarchy and run the bidirectional search to completion. -/
def chRun (G : Graph) (source target : ℕ) : ChSt :=
  chLoop (upNbrs (build_contraction_hierarchy G).1) (chFuel G)
    (chInit source target)

/-- `ch_shortest_path(G, source, target)`. -/
def ch_shortest_path (G : Graph) (source target : ℕ) : ChOut :=
  if ¬(source ∈ G.nodes ∧ target ∈ G.nodes) then ⟨none, [], []⟩
  else if source = target then ⟨some ([source], some 0, [source]), [], []⟩
  else
    let stF := chRun G source target
    let m2 :=
      match stF.meet with
      | some m => (stF.best, some m)
      | none => meetScan stF.distF stF.distB G.nodes stF.best none
    match m2.2 with
    | none => ⟨none, stF.trF, stF.trB⟩
    | some meeting =>
      let fuelN := G.nodes.length + 1
      let pathF := (parentChain stF.parF fuelN meeting).reverse
      let pathB :=
        match stF.parB meeting with
        | none => []
        | some c => parentChain stF.parB fuelN c
      let path := pathF ++ pathB
      ⟨some (path, pathWeightE G path, stF.visF ++ stF.visB), stF.trF, stF.trB⟩

theorem chRelax_trace (u : ℕ) (d : ℤ) :
    ∀ (L : List (ℕ × ℤ)) (dist : ℕ → EInt) (par : ℕ → Option ℕ)
      (pq : List (ℤ × ℕ)) (tr : List (ℕ × ℕ)),
      ∀ p ∈ (chRelax u d L dist par pq tr).2.2.2,
        p ∈ tr ∨ (p.1 = u ∧ ∃ w, (p.2, w) ∈ L) := by
  intro L
  induction L with
  | nil => intro dist par pq tr p hp; exact Or.inl hp
  | cons vw L ih =>
    intro dist par pq tr p hp
    obtain ⟨v, w⟩ := vw
    rw [chRelax] at hp
    by_cases hc : ltE (some (d + w)) (dist v) = true
    · rw [if_pos hc] at hp
      rcases ih _ _ _ _ p hp with hin | ⟨hu, w', hw'⟩
      · rcases List.mem_append.mp hin with h1 | h1
        · exact Or.inl h1
        · rw [List.mem_singleton] at h1
          subst h1
          exact Or.inr ⟨rfl, w, List.mem_cons_self _ _⟩
      · exact Or.inr ⟨hu, w', List.mem_cons_of_mem _ hw'⟩
    · rw [if_neg hc] at hp
      rcases ih _ _ _ _ p hp with hin | ⟨hu, w', hw'⟩
      · exact Or.inl hin
      · exact Or.inr ⟨hu, w', List.mem_cons_of_mem _ hw'⟩

theorem chStepF_traces (adj : ℕ → List (ℕ × ℤ)) (st : ChSt) :
    (∀ p ∈ (chStepF adj st).trF,
        p ∈ st.trF ∨ ∃ w, (p.2, w) ∈ adj p.1) ∧
    (chStepF adj st).trB = st.trB := by
  rw [chStepF]
  split
  · exact ⟨fun p hp => Or.inl hp, rfl⟩
  · rename_i d u pq' hm
    split
    · constructor
      · intro p hp
        simp only at hp
        split at hp <;>
          first
          | (split at hp <;>
              (rcases chRelax_trace u d (adj u) st.distF st.parF pq' st.trF p hp
                  with h1 | ⟨hu, w, hw⟩
               · exact Or.inl h1
               · exact Or.inr ⟨w, by rw [hu]; exact hw⟩))
          | (rcases chRelax_trace u d (adj u) st.distF st.parF pq' st.trF p hp
                with h1 | ⟨hu, w, hw⟩
             · exact Or.inl h1
             · exact Or.inr ⟨w, by rw [hu]; exact hw⟩)
      · simp only
        split <;> first | (split <;> rfl) | rfl
    · exact ⟨fun p hp => Or.inl hp, rfl⟩

theorem chStepB_traces (adj : ℕ → List (ℕ × ℤ)) (st : ChSt) :
    (∀ p ∈ (chStepB adj st).trB,
        p ∈ st.trB ∨ ∃ w, (p.2, w) ∈ adj p.1) ∧
    (chStepB adj st).trF = st.trF := by
  rw [chStepB]
  split
  · exact ⟨fun p hp => Or.inl hp, rfl⟩
  · rename_i d u pq' hm
    split
    · constructor
      · intro p hp
        simp only at hp
        split at hp <;>
          first
          | (split at hp <;>
              (rcases chRelax_trace u d (adj u) st.distB st.parB pq' st.trB p hp
                  with h1 | ⟨hu, w, hw⟩
               · exact Or.inl h1
               · exact Or.inr ⟨w, by rw [hu]; exact hw⟩))
          | (rcases chRelax_trace u d (adj u) st.distB st.parB pq' st.trB p hp
                with h1 | ⟨hu, w, hw⟩
             · exact Or.inl h1
             · exact Or.inr ⟨w, by rw [hu]; exact hw⟩)
      · simp only
        split <;> first | (split <;> rfl) | rfl
    · exact ⟨fun p hp => Or.inl hp, rfl⟩

theorem chLoop_traces (adj : ℕ → List (ℕ × ℤ)) :
    ∀ (fuel : ℕ) (st : ChSt),
      (∀ p ∈ st.trF, ∃ w, (p.2, w) ∈ adj p.1) →
      (∀ p ∈ st.trB, ∃ w, (p.2, w) ∈ adj p.1) →
      (∀ p ∈ (chLoop adj fuel st).trF, ∃ w, (p.2, w) ∈ adj p.1) ∧
      (∀ p ∈ (chLoop adj fuel st).trB, ∃ w, (p.2, w) ∈ adj p.1) := by
  intro fuel
  induction fuel with
  | zero => intro st hF hB; exact ⟨hF, hB⟩
  | succ k ih =>
    intro st hF hB
    rw [chLoop]
    split
    · exact ⟨hF, hB⟩
    · simp only
      set st1 := if st.pqF.isEmpty = true then st else chStepF adj st with hst1
      set st2 := if st1.pqB.isEmpty = true then st1 else chStepB adj st1 with hst2
      have h1F : ∀ p ∈ st1.trF, ∃ w, (p.2, w) ∈ adj p.1 := by
        rw [hst1]
        split
        · exact hF
        · intro p hp
          rcases (chStepF_traces adj st).1 p hp with h | h
          · exact hF p h
          · exact h
      have h1B : ∀ p ∈ st1.trB, ∃ w, (p.2, w) ∈ adj p.1 := by
        rw [hst1]
        split
        · exact hB
        · rw [(chStepF_traces adj st).2]
          exact hB
      have h2F : ∀ p ∈ st2.trF, ∃ w, (p.2, w) ∈ adj p.1 := by
        rw [hst2]
        split
        · exact h1F
        · rw [(chStepB_traces adj st1).2]
          exact h1F
      have h2B : ∀ p ∈ st2.trB, ∃ w, (p.2, w) ∈ adj p.1 := by
        rw [hst2]
        split
        · exact h1B
        · intro p hp
          rcases (chStepB_traces adj st1).1 p hp with h | h
          · exact h1B p h
          · exact h
      split
      · exact ⟨h2F, h2B⟩
      · exact ih st2 h2F h2B

/-- C1 (amended): the bidirectional query relaxes exactly edges of the
symmetrized shortcut graph, with no restriction by rank — the node→rank
map produced by the build is never consulted, and relaxations may move to
neighbors of lower rank (see the counterexample). -/
theorem C1_query_relaxes_shortcut_edges (G : Graph) (s t : ℕ) (p : ℕ × ℕ)
    (hp : p ∈ (ch_shortest_path G s t).trF ∨ p ∈ (ch_shortest_path G s t).trB) :
    ∃ w, (p.2, w) ∈ upNbrs (build_contraction_hierarchy G).1 p.1 := by
  have hrun : ∀ q ∈ (chRun G s t).trF, ∃ w,
      (q.2, w) ∈ upNbrs (build_contraction_hierarchy G).1 q.1 := by
    intro q hq
    exact (chLoop_traces _ (chFuel G) (chInit s t)
      (fun r hr => absurd hr (by simp [chInit]))
      (fun r hr => absurd hr (by simp [chInit]))).1 q hq
  have hrunB : ∀ q ∈ (chRun G s t).trB, ∃ w,
      (q.2, w) ∈ upNbrs (build_contraction_hierarchy G).1 q.1 := by
    intro q hq
    exact (chLoop_traces _ (chFuel G) (chInit s t)
      (fun r hr => absurd hr (by simp [chInit]))
      (fun r hr => absurd hr (by simp [chInit]))).2 q hq
  rw [ch_shortest_path] at hp
  split at hp
  · simp at hp
  · split at hp
    · simp at hp
    · simp only at hp
      rcases hp with hp | hp
      · split at hp <;> exact hrun p hp
      · split at hp <;> exact hrunB p hp

/-- the three-node path graph of the C1 counterexample. -/
def gC1 : Graph := ⟨false, [0, 1, 2], [(0, 1, 1), (1, 2, 1)]⟩

/-- C1 is false as stated: querying the path `0 - 1 - 2` from `0` to `2`,
the forward search relaxes the edge `(1, 2)` although node `1` has rank 2
and node `2` has the strictly lower rank 1 — the search does not move
exclusively to neighbors of higher rank. -/
theorem C1_counterexample :
    (1, 2) ∈ (ch_shortest_path gC1 0 2).trF ∧
    (build_contraction_hierarchy gC1).2 1 = some 2 ∧
    (build_contraction_hierarchy gC1).2 2 = some 1 := by decide

/-- witness for the amended C1 at the concrete graph: the relaxed pair
`(1, 2)` is indeed an edge of the shortcut graph. -/
theorem C1_witness :
    ∃ w, ((2 : ℕ), w) ∈ upNbrs (build_contraction_hierarchy gC1).1 1 :=
  C1_query_relaxes_shortcut_edges gC1 0 2 (1, 2) (Or.inl (by decide))

/-! ## Transit Node Routing (`src/algorithms/TNR.py`)

The TNR code delegates every basic shortest-path computation to the
external graph library (`nx.shortest_path`,
`nx.single_source_dijkstra_path_length`, `nx.path_weight`), which the
design document excludes as an out-of-scope collaborator.  These are
modelled from the spec by their documented contract: the collaborator is
Dijkstra's algorithm, whose contract is defined only for non-negative
edge weights — there it yields a minimal-weight simple path (realized by
brute-force enumeration over the finite set of simple paths), its total
weight, and minimal simple-path distances.  On a graph with a negative
edge the call is outside the contract (the library raises), modelled as
producing no result. -/

/-- all edge weights are non-negative: the domain of the Dijkstra
collaborators' contract. -/
def NonnegW (G : Graph) : Prop := ∀ e ∈ G.edges, 0 ≤ e.2.2

instance (G : Graph) : Decidable (NonnegW G) := by
  unfold NonnegW
  infer_instance

/-- Modelled from the spec: enumeration of simple paths used to realize
the external `nx.shortest_path` / `nx.single_source_dijkstra_path_length`
collaborators (`plain Dijkstra` is out of scope for the core and is
specified only by its contract of returning shortest paths). -/
def simplePathsAux (G : Graph) : ℕ → ℕ → ℕ → List ℕ → List (List ℕ)
  | 0, _, _, _ => []
  | Nat.succ fuel, cur, target, visited =>
    if cur = target then [[cur]]
    else
      (((nbrs G cur).filter (fun v => decide (¬v ∈ cur :: visited))).map
        (fun v =>
          (simplePathsAux G fuel v target (cur :: visited)).map
            (fun q => cur :: q))).flatten

def allSimplePaths (G : Graph) (s t : ℕ) : List (List ℕ) :=
  simplePathsAux G (G.nodes.length + 1) s t []

/-- Modelled from the spec: `nx.shortest_path(G, s, t, weight='weight')` —
Dijkstra, specified only for non-negative edge weights: there it returns
some minimal-weight simple path (`none` when `t` is unreachable); on a
graph with a negative edge the call is outside the contract (the library
raises), modelled as no result. -/
def nxShortestPath (G : Graph) (s t : ℕ) : Option (List ℕ) :=
  if NonnegW G then
    (allSimplePaths G s t).foldl
      (fun acc p =>
        match acc with
        | none => some p
        | some q => if ltE (pathWeightE G p) (pathWeightE G q) then some p else acc)
      none
  else none

/-- Modelled from the spec: the true shortest-path cost between two nodes
(the minimum total weight over all simple paths; `none` = unreachable). -/
def shortestCost (G : Graph) (s t : ℕ) : EInt :=
  (allSimplePaths G s t).foldl
    (fun acc p => if ltE (pathWeightE G p) acc then pathWeightE G p else acc)
    none

/-- Modelled from the spec:
`nx.single_source_dijkstra_path_length(G, v)[t]` — Dijkstra, specified
only for non-negative edge weights: there it is the shortest-path
distance (`none` when unreachable); on a graph with a negative edge the
call is outside the contract (the library raises), modelled as no
result. -/
def nxSPLength (G : Graph) (s t : ℕ) : EInt :=
  if NonnegW G then shortestCost G s t else none

/-- stable descending sort by key (`sorted(..., reverse=True)`). -/
def insertSortedDesc (key : ℕ → ℕ) (x : ℕ) : List ℕ → List ℕ
  | [] => [x]
  | y :: t => if key x < key y then y :: insertSortedDesc key x t
              else x :: y :: t

def sortByKeyDesc (key : ℕ → ℕ) (l : List ℕ) : List ℕ :=
  l.foldr (insertSortedDesc key) []

/-- `choose_transit_nodes` with the default `degree` policy. -/
def choose_transit_nodes (G : Graph) (k : ℕ) : List ℕ :=
  (sortByKeyDesc (degree G) G.nodes).take k

/-- stable ascending sort of `(node, dist)` pairs by distance
(`t_with_dist.sort(key=lambda x: x[1])`). -/
def insertSortedD (x : ℕ × ℤ) : List (ℕ × ℤ) → List (ℕ × ℤ)
  | [] => [x]
  | y :: t => if y.2 ≤ x.2 then y :: insertSortedD x t else x :: y :: t

def sortPairsByD (l : List (ℕ × ℤ)) : List (ℕ × ℤ) :=
  l.foldr insertSortedD []

/-- `compute_transit_pairwise_distances` as a lookup function
(`index.transit_dist.get(a, {}).get(b, inf)`). -/
def compute_transit_pairwise (G : Graph) (transit : List ℕ) : ℕ → ℕ → EInt :=
  fun a b =>
    if a ∈ transit ∧ b ∈ transit then nxSPLength G a b else none

/-- `compute_access_nodes`: up to `maxAccess` nearest transit nodes per
node, sorted ascending by distance, optionally cutoff-bounded. -/
def compute_access_nodes (G : Graph) (transit : List ℕ) (maxAccess : ℕ)
    (cutoff : Option ℤ) : ℕ → List (ℕ × ℤ) :=
  fun v =>
    (sortPairsByD (transit.filterMap fun t =>
      match nxSPLength G v t with
      | none => none
      | some d =>
        match cutoff with
        | none => some (t, d)
        | some c => if d ≤ c then some (t, d) else none)).take maxAccess

/-- `TransitNodeIndex`. -/
structure TransitNodeIndex where
  Gidx : Graph
  transit : List ℕ
  tdist : ℕ → ℕ → EInt
  access : ℕ → List (ℕ × ℤ)

/-- `build_transit_index`. -/
def build_transit_index (G : Graph) (k : ℕ) (maxAccess : ℕ)
    (cutoff : Option ℤ) : TransitNodeIndex :=
  let transit := choose_transit_nodes G k
  ⟨G, transit, compute_transit_pairwise G transit,
    compute_access_nodes G transit maxAccess cutoff⟩

/-- the inner loop of the query over target-side access nodes. -/
def tnrInner (G : Graph) (tdist : ℕ → ℕ → EInt) (source target ts : ℕ)
    (ds : ℤ) :
    List (ℕ × ℤ) → Option (List ℕ) × EInt → Option (List ℕ) × EInt
  | [], best => best
  | (tt, dt) :: rest, best =>
    tnrInner G tdist source target ts ds rest
      (match tdist ts tt with
       | none => best
       | some inter =>
         if ltE (some (ds + inter + dt)) best.2 then
           match nxShortestPath G source ts, nxShortestPath G ts tt,
               nxShortestPath G tt target with
           | some p1, some p2, some p3 =>
             if ltE (pathWeightE G (p1 ++ p2.drop 1 ++ p3.drop 1)) best.2 then
               (some (p1 ++ p2.drop 1 ++ p3.drop 1),
                pathWeightE G (p1 ++ p2.drop 1 ++ p3.drop 1))
             else best
           | _, _, _ => best
         else best)

/-- the outer loop of the query over source-side access nodes. -/
def tnrOuter (G : Graph) (tdist : ℕ → ℕ → EInt) (source target : ℕ)
    (tAcc : List (ℕ × ℤ)) :
    List (ℕ × ℤ) → Option (List ℕ) × EInt → Option (List ℕ) × EInt
  | [], best => best
  | (ts, ds) :: rest, best =>
    tnrOuter G tdist source target tAcc rest
      (tnrInner G tdist source target ts ds tAcc best)

/-- `query_shortest_path_tnr`. -/
def query_shortest_path_tnr (idx : TransitNodeIndex) (source target : ℕ) :
    Option (List ℕ × EInt) :=
  if ¬(source ∈ idx.Gidx.nodes ∧ target ∈ idx.Gidx.nodes) then none
  else
    let direct := nxShortestPath idx.Gidx source target
    let dlen :=
      match direct with
      | none => none
      | some p => pathWeightE idx.Gidx p
    let best :=
      if idx.access source ≠ [] ∧ idx.access target ≠ [] then
        tnrOuter idx.Gidx idx.tdist source target (idx.access target)
          (idx.access source) (direct, dlen)
      else (direct, dlen)
    match best.1 with
    | none => none
    | some p => some (p, best.2)

/-- the concrete five-node graph of C9: nodes A..E as 0..4 (E isolated),
undirected edges A-B=1, B-C=2, A-C=4, C-D=2, B-D=5. -/
def g9 : Graph :=
  ⟨false, [0, 1, 2, 3, 4], [(0, 1, 1), (1, 2, 2), (0, 2, 4), (2, 3, 2), (1, 3, 5)]⟩

/-- C9: on the concrete five-node graph, the shortest path from A to D is
[A,B,C,D] with cost 5, and both `ch_shortest_path(G, A, D)` (which also
returns that node sequence) and `johnson(G)` (entry `dist[A][D]`) report
cost exactly 5. -/
theorem C9_concrete_five_node :
    nxShortestPath g9 0 3 = some [0, 1, 2, 3] ∧
    shortestCost g9 0 3 = some (5 : ℤ) ∧
    ((ch_shortest_path g9 0 3).res).map (fun r => (r.1, r.2.1)) =
      some ([0, 1, 2, 3], some 5) ∧
    (johnson g9).map (fun t => t 0 3) = some (some 5) := by decide

/-! ## Walks and the no-underestimate property of TNR -/

/-- a node list is a walk: nonempty, with an edge between each pair of
consecutive nodes. -/
def isWalk (G : Graph) : List ℕ → Bool
  | [] => false
  | [_] => true
  | a :: b :: t => (weightQ G a b).isSome && isWalk G (b :: t)

theorem eadd_zero_right (x : EInt) : eadd x (some 0) = x := by
  cases x <;> simp [eadd]

theorem eadd_zero_left (x : EInt) : eadd (some 0) x = x := by
  cases x <;> simp [eadd]

theorem eadd_assoc (x y z : EInt) : eadd (eadd x y) z = eadd x (eadd y z) := by
  cases x <;> cases y <;> cases z <;> simp [eadd] <;> ring

theorem pathWeightE_isSome (G : Graph) :
    ∀ p, isWalk G p = true → ∃ c, pathWeightE G p = some c := by
  intro p
  induction p with
  | nil => intro h; simp [isWalk] at h
  | cons a rest ih =>
    intro h
    cases rest with
    | nil => exact ⟨0, rfl⟩
    | cons b t =>
      simp only [isWalk, Bool.and_eq_true] at h
      obtain ⟨c, hc⟩ := ih h.2
      obtain ⟨w, hww⟩ := Option.isSome_iff_exists.mp h.1
      refine ⟨w + c, ?_⟩
      simp [pathWeightE, edgeW, hww, hc, eadd]

theorem weightQ_nonneg (G : Graph) (hnn : NonnegW G) (a b : ℕ) (w : ℤ)
    (h : weightQ G a b = some w) : 0 ≤ w := by
  rw [weightQ] at h
  cases hf : G.edges.find? fun e =>
      (e.1 == a && e.2.1 == b) || (!G.directed && e.1 == b && e.2.1 == a) with
  | none => rw [hf] at h; simp at h
  | some e =>
    rw [hf] at h
    simp at h
    have := hnn e (List.mem_of_find?_eq_some hf)
    omega

theorem walkWeight_nonneg (G : Graph) (hnn : NonnegW G) :
    ∀ p c, isWalk G p = true → pathWeightE G p = some c → 0 ≤ c := by
  intro p
  induction p with
  | nil => intro c h; simp [isWalk] at h
  | cons a rest ih =>
    intro c h hc
    cases rest with
    | nil =>
      simp only [pathWeightE, Option.some.injEq] at hc
      omega
    | cons b t =>
      simp only [isWalk, Bool.and_eq_true] at h
      obtain ⟨w, hww⟩ := Option.isSome_iff_exists.mp h.1
      obtain ⟨c2, hc2⟩ := pathWeightE_isSome G _ h.2
      have h1 := weightQ_nonneg G hnn a b w hww
      have h2 := ih c2 h.2 hc2
      simp only [pathWeightE, edgeW, hww, hc2, eadd, Option.some.injEq] at hc
      omega

theorem pathWeightE_split (G : Graph) :
    ∀ (xs : List ℕ) (y : ℕ) (zs : List ℕ),
      pathWeightE G (xs ++ y :: zs) =
        eadd (pathWeightE G (xs ++ [y])) (pathWeightE G (y :: zs)) := by
  intro xs
  induction xs with
  | nil =>
    intro y zs
    show pathWeightE G (y :: zs) =
      eadd (pathWeightE G [y]) (pathWeightE G (y :: zs))
    rw [show pathWeightE G [y] = some 0 from rfl, eadd_zero_left]
  | cons a xs ih =>
    intro y zs
    cases xs with
    | nil =>
      simp only [List.cons_append, List.nil_append, pathWeightE,
        eadd_zero_right]
    | cons b t =>
      have h1 : (a :: b :: t) ++ y :: zs = a :: ((b :: t) ++ y :: zs) := rfl
      have h2 : (a :: b :: t) ++ [y] = a :: ((b :: t) ++ [y]) := rfl
      rw [h1, h2]
      have h3 : ∀ (l : List ℕ) (c : ℕ), l.head? = some c →
          pathWeightE G (a :: l) = eadd (edgeW G a c) (pathWeightE G l) := by
        intro l c hl
        cases l with
        | nil => simp at hl
        | cons d t2 =>
          simp only [List.head?_cons, Option.some.injEq] at hl
          subst hl
          rfl
      rw [h3 _ b (by simp), h3 _ b (by simp), ih, eadd_assoc]

theorem isWalk_suffix (G : Graph) :
    ∀ (xs ys : List ℕ), ys ≠ [] → isWalk G (xs ++ ys) = true →
      isWalk G ys = true := by
  intro xs
  induction xs with
  | nil => intro ys _ h; exact h
  | cons a xs ih =>
    intro ys hne h
    cases hxy : xs ++ ys with
    | nil => exact absurd (List.append_eq_nil.mp hxy).2 hne
    | cons c rest =>
      have : isWalk G (a :: c :: rest) = true := by rw [← hxy]; exact h
      simp only [isWalk, Bool.and_eq_true] at this
      apply ih ys hne
      rw [hxy]
      exact this.2

theorem isWalk_dropLast (G : Graph) :
    ∀ (xs : List ℕ) (y : ℕ) (zs : List ℕ),
      isWalk G (xs ++ y :: zs) = true → isWalk G (xs ++ [y]) = true := by
  intro xs
  induction xs with
  | nil => intro y zs _; rfl
  | cons a xs ih =>
    intro y zs h
    cases hxs : xs with
    | nil =>
      subst hxs
      have h' : isWalk G (a :: y :: zs) = true := h
      simp only [isWalk, Bool.and_eq_true] at h'
      show isWalk G (a :: [y]) = true
      simp [isWalk, h'.1]
    | cons b t =>
      subst hxs
      have h1 : (a :: b :: t) ++ y :: zs = a :: b :: (t ++ y :: zs) := rfl
      rw [h1] at h
      simp only [isWalk, Bool.and_eq_true] at h
      have h2 : (a :: b :: t) ++ [y] = a :: b :: (t ++ [y]) := rfl
      rw [h2]
      simp only [isWalk, Bool.and_eq_true]
      have := ih y zs (by exact h.2)
      exact ⟨h.1, this⟩

theorem getLast?_append_right :
    ∀ (xs ys : List ℕ), ys ≠ [] → (xs ++ ys).getLast? = ys.getLast? := by
  intro xs
  induction xs with
  | nil => intro ys _; rfl
  | cons a xs ih =>
    intro ys hne
    cases hxy : xs ++ ys with
    | nil => exact absurd (List.append_eq_nil.mp hxy).2 hne
    | cons c rest =>
      have h1 : (a :: xs) ++ ys = a :: c :: rest := by
        rw [List.cons_append, hxy]
      rw [h1, List.getLast?_cons_cons, ← hxy]
      exact ih ys hne

theorem head?_append_left (xs ys : List ℕ) (h : xs ≠ []) :
    (xs ++ ys).head? = xs.head? := by
  cases xs with
  | nil => exact absurd rfl h
  | cons a t => rfl

theorem isWalk_ne_nil (G : Graph) (p : List ℕ) (h : isWalk G p = true) :
    p ≠ [] := by
  cases p with
  | nil => simp [isWalk] at h
  | cons a t => simp

theorem isWalk_append (G : Graph) :
    ∀ (A : List ℕ) (x : ℕ) (B : List ℕ), isWalk G A = true →
      A.getLast? = some x → isWalk G (x :: B) = true →
      isWalk G (A ++ B) = true := by
  intro A
  induction A with
  | nil => intro x B h _ _; simp [isWalk] at h
  | cons a A ih =>
    intro x B h hl hB
    cases hA : A with
    | nil =>
      subst hA
      simp only [List.getLast?_singleton, Option.some.injEq] at hl
      subst hl
      exact hB
    | cons b t =>
      subst hA
      have h' : isWalk G (a :: b :: t) = true := h
      simp only [isWalk, Bool.and_eq_true] at h'
      have hl' : (b :: t).getLast? = some x := by
        rw [← List.getLast?_cons_cons]
        exact hl
      have hrec := ih x B h'.2 hl' hB
      show isWalk G (a :: ((b :: t) ++ B)) = true
      simp only [isWalk, Bool.and_eq_true]
      exact ⟨h'.1, hrec⟩

theorem walk_glue (G : Graph) (A B : List ℕ) (x : ℕ)
    (hA : isWalk G A = true) (hB : isWalk G B = true)
    (hlA : A.getLast? = some x) (hhB : B.head? = some x) :
    isWalk G (A ++ B.drop 1) = true ∧ (A ++ B.drop 1).head? = A.head? ∧
      (A ++ B.drop 1).getLast? = B.getLast? := by
  cases B with
  | nil => simp [isWalk] at hB
  | cons b B' =>
    simp only [List.head?_cons, Option.some.injEq] at hhB
    subst hhB
    refine ⟨isWalk_append G A b B' hA hlA hB, ?_, ?_⟩
    · exact head?_append_left A B' (isWalk_ne_nil G A hA)
    · cases B' with
      | nil => simpa using hlA
      | cons c C =>
        show (A ++ c :: C).getLast? = (b :: c :: C).getLast?
        rw [getLast?_append_right A (c :: C) (by simp),
          List.getLast?_cons_cons]

theorem mem_of_getLast? :
    ∀ (l : List ℕ) (x : ℕ), l.getLast? = some x → x ∈ l := by
  intro l
  induction l with
  | nil => intro x h; simp at h
  | cons a t ih =>
    intro x h
    cases t with
    | nil =>
      simp only [List.getLast?_singleton, Option.some.injEq] at h
      simp [h]
    | cons b t2 =>
      rw [List.getLast?_cons_cons] at h
      exact List.mem_cons_of_mem a (ih x h)

theorem not_nodup_split (l : List ℕ) (h : ¬ l.Nodup) :
    ∃ xs x ys zs, l = xs ++ x :: ys ++ x :: zs := by
  induction l with
  | nil => exact absurd List.nodup_nil h
  | cons a rest ih =>
    by_cases ha : a ∈ rest
    · obtain ⟨ys, zs, hsplit⟩ := List.append_of_mem ha
      exact ⟨[], a, ys, zs, by rw [hsplit]; rfl⟩
    · have hr : ¬ rest.Nodup := by
        intro hn
        exact h (List.nodup_cons.mpr ⟨ha, hn⟩)
      obtain ⟨xs, x, ys, zs, hsplit⟩ := ih hr
      exact ⟨a :: xs, x, ys, zs, by rw [hsplit]; rfl⟩


theorem weightQ_isSome_of_mem_nbrs (G : Graph) (u v : ℕ)
    (h : v ∈ nbrs G u) : (weightQ G u v).isSome = true := by
  obtain ⟨⟨v', w⟩, hmem, hv⟩ := List.mem_map.mp h
  simp only at hv
  subst hv
  obtain ⟨e, he, hf⟩ := List.mem_filterMap.mp hmem
  rw [weightQ]
  cases hfind : G.edges.find? (fun e =>
      (e.1 == u && e.2.1 == v') || (!G.directed && e.1 == v' && e.2.1 == u)) with
  | some e2 => simp
  | none =>
    exfalso
    have hnone := List.find?_eq_none.mp hfind e he
    apply hnone
    by_cases h1 : e.1 = u
    · rw [if_pos h1] at hf
      simp only [Option.some.injEq, Prod.mk.injEq] at hf
      simp [h1, hf.1]
    · rw [if_neg h1] at hf
      by_cases h2 : (!G.directed && decide (e.2.1 = u)) = true
      · rw [if_pos h2] at hf
        simp only [Option.some.injEq, Prod.mk.injEq] at hf
        simp only [Bool.and_eq_true, decide_eq_true_eq] at h2
        simp [h2.1, h2.2, hf.1]
      · rw [if_neg h2] at hf
        exact absurd hf (by simp)

theorem mem_nbrs_of_weightQ_isSome (G : Graph) (u v : ℕ)
    (h : (weightQ G u v).isSome = true) : v ∈ nbrs G u := by
  rw [weightQ] at h
  cases hfind : G.edges.find? (fun e =>
      (e.1 == u && e.2.1 == v) || (!G.directed && e.1 == v && e.2.1 == u)) with
  | none => rw [hfind] at h; simp at h
  | some e =>
    have hpred := List.find?_some hfind
    have hmem := List.mem_of_find?_eq_some hfind
    simp only [Bool.or_eq_true, Bool.and_eq_true, beq_iff_eq,
      Bool.not_eq_true'] at hpred
    rcases hpred with ⟨h1, h2⟩ | ⟨⟨hd, h1⟩, h2⟩
    · refine List.mem_map.mpr ⟨(v, e.2.2), List.mem_filterMap.mpr ⟨e, hmem, ?_⟩, rfl⟩
      rw [if_pos h1, h2]
    · refine List.mem_map.mpr ⟨(v, e.2.2), List.mem_filterMap.mpr ⟨e, hmem, ?_⟩, rfl⟩
      by_cases h1' : e.1 = u
      · rw [if_pos h1']
        rw [h1'] at h1
        rw [h2, ← h1]
      · rw [if_neg h1', if_pos (by simp [hd, h2]), h1]

theorem weightQ_isSome_mem_nodes (G : Graph) (hwf : edgesInNodes G) (u v : ℕ)
    (h : (weightQ G u v).isSome = true) : u ∈ G.nodes ∧ v ∈ G.nodes := by
  rw [weightQ] at h
  cases hfind : G.edges.find? (fun e =>
      (e.1 == u && e.2.1 == v) || (!G.directed && e.1 == v && e.2.1 == u)) with
  | none => rw [hfind] at h; simp at h
  | some e =>
    have hpred := List.find?_some hfind
    have hmem := hwf e (List.mem_of_find?_eq_some hfind)
    simp only [Bool.or_eq_true, Bool.and_eq_true, beq_iff_eq,
      Bool.not_eq_true'] at hpred
    rcases hpred with ⟨h1, h2⟩ | ⟨⟨_, h1⟩, h2⟩
    · exact ⟨h1 ▸ hmem.1, h2 ▸ hmem.2⟩
    · exact ⟨h2 ▸ hmem.2, h1 ▸ hmem.1⟩

theorem walk_mem_nodes_or (G : Graph) (hwf : edgesInNodes G) :
    ∀ p, isWalk G p = true → ∀ v ∈ p, v ∈ G.nodes ∨ p = [v] := by
  intro p
  induction p with
  | nil => intro _ v hv; simp at hv
  | cons a rest ih =>
    intro h v hv
    cases rest with
    | nil =>
      right
      simp only [List.mem_singleton] at hv
      rw [hv]
    | cons b t =>
      simp only [isWalk, Bool.and_eq_true] at h
      have hn := weightQ_isSome_mem_nodes G hwf a b h.1
      rcases List.mem_cons.mp hv with rfl | hv'
      · exact Or.inl hn.1
      · rcases ih h.2 v hv' with hvn | heq
        · exact Or.inl hvn
        · left
          have hb : b = v := by
            have := congrArg List.head? heq
            simpa using this
          rw [← hb]
          exact hn.2

theorem walk_to_simple (G : Graph) (hnn : NonnegW G) :
    ∀ (n : ℕ) (p : List ℕ), p.length ≤ n → isWalk G p = true →
      ∃ (q : List ℕ) (cq : ℤ), isWalk G q = true ∧ q.head? = p.head? ∧
        q.getLast? = p.getLast? ∧ q.Nodup ∧ (∀ v ∈ q, v ∈ p) ∧
        pathWeightE G q = some cq ∧
        ∀ cp, pathWeightE G p = some cp → cq ≤ cp := by
  intro n
  induction n with
  | zero =>
    intro p hl hw
    have hnil : p = [] := List.length_eq_zero.mp (Nat.le_zero.mp hl)
    rw [hnil] at hw
    simp [isWalk] at hw
  | succ n ih =>
    intro p hl hw
    by_cases hnd : p.Nodup
    · obtain ⟨c, hc⟩ := pathWeightE_isSome G p hw
      refine ⟨p, c, hw, rfl, rfl, hnd, fun v hv => hv, hc, ?_⟩
      intro cp hcp
      rw [hc] at hcp
      exact le_of_eq (Option.some.inj hcp)
    · obtain ⟨xs, x, ys, zs, hsplit⟩ := not_nodup_split p hnd
      subst hsplit
      have hpe : (xs ++ x :: ys) ++ x :: zs = xs ++ x :: (ys ++ x :: zs) := by
        simp
      have hw' : isWalk G (xs ++ x :: (ys ++ x :: zs)) = true := by
        rw [← hpe]
        exact hw
      have hw1 : isWalk G (xs ++ [x]) = true :=
        isWalk_dropLast G xs x (ys ++ x :: zs) hw'
      have hw2 : isWalk G (x :: zs) = true :=
        isWalk_suffix G (xs ++ x :: ys) (x :: zs) (by simp) hw
      have hsuf : isWalk G ((x :: ys) ++ x :: zs) = true :=
        isWalk_suffix G xs ((x :: ys) ++ x :: zs) (by simp) hw'
      have hwmid : isWalk G ((x :: ys) ++ [x]) = true :=
        isWalk_dropLast G (x :: ys) x zs hsuf
      have hlast : (xs ++ [x]).getLast? = some x := by
        rw [getLast?_append_right xs [x] (by simp)]
        simp
      have hwp' : isWalk G (xs ++ x :: zs) = true := by
        have h2 := isWalk_append G (xs ++ [x]) x zs hw1 hlast hw2
        rw [List.append_assoc] at h2
        exact h2
      have hlen : (xs ++ x :: zs).length ≤ n := by
        simp only [List.length_append, List.length_cons] at hl ⊢
        omega
      obtain ⟨q, cq, hqw, hqh, hql, hqnd, hqsub, hqc, hqle⟩ :=
        ih (xs ++ x :: zs) hlen hwp'
      refine ⟨q, cq, hqw, ?_, ?_, hqnd, ?_, hqc, ?_⟩
      · rw [hqh]
        cases xs with
        | nil => rfl
        | cons a as => rfl
      · rw [hql, getLast?_append_right xs (x :: zs) (by simp),
          getLast?_append_right (xs ++ x :: ys) (x :: zs) (by simp)]
      · intro v hv
        have hvp := hqsub v hv
        simp only [List.mem_append, List.mem_cons] at hvp ⊢
        tauto
      · intro cp hcp
        obtain ⟨a, ha⟩ := pathWeightE_isSome G _ hw1
        obtain ⟨b, hb⟩ := pathWeightE_isSome G _ hwmid
        obtain ⟨d, hd⟩ := pathWeightE_isSome G _ hw2
        have hb0 : 0 ≤ b := walkWeight_nonneg G hnn _ b hwmid hb
        have hcp' := hcp
        rw [hpe] at hcp'
        have hs2 : pathWeightE G (x :: (ys ++ x :: zs)) = some (b + d) := by
          have h3 := pathWeightE_split G (x :: ys) x zs
          rw [hb, hd] at h3
          exact h3
        rw [pathWeightE_split G xs x (ys ++ x :: zs), ha, hs2] at hcp'
        have hs3 : pathWeightE G (xs ++ x :: zs) = some (a + d) := by
          rw [pathWeightE_split G xs x zs, ha, hd]
          rfl
        have hcq := hqle (a + d) hs3
        simp only [eadd, Option.some.injEq] at hcp'
        omega

theorem simplePathsAux_sound (G : Graph) :
    ∀ (fuel : ℕ) (cur target : ℕ) (visited : List ℕ) (q : List ℕ),
      q ∈ simplePathsAux G fuel cur target visited →
      isWalk G q = true ∧ q.head? = some cur ∧ q.getLast? = some target := by
  intro fuel
  induction fuel with
  | zero => intro cur target visited q h; simp [simplePathsAux] at h
  | succ fuel ih =>
    intro cur target visited q h
    rw [simplePathsAux] at h
    by_cases hct : cur = target
    · rw [if_pos hct] at h
      simp only [List.mem_singleton] at h
      subst h
      exact ⟨rfl, rfl, by simp [hct]⟩
    · rw [if_neg hct] at h
      obtain ⟨L, hL, hqL⟩ := List.mem_flatten.mp h
      obtain ⟨v, hvf, hLeq⟩ := List.mem_map.mp hL
      subst hLeq
      obtain ⟨q', hq', hqeq⟩ := List.mem_map.mp hqL
      subst hqeq
      obtain ⟨hw', hh', hl'⟩ := ih v target (cur :: visited) q' hq'
      have hvn : v ∈ nbrs G cur := (List.mem_filter.mp hvf).1
      have hws := weightQ_isSome_of_mem_nbrs G cur v hvn
      cases q' with
      | nil => simp at hh'
      | cons d q'' =>
        simp only [List.head?_cons, Option.some.injEq] at hh'
        subst hh'
        refine ⟨?_, rfl, ?_⟩
        · simp only [isWalk, Bool.and_eq_true]
          exact ⟨hws, hw'⟩
        · rw [List.getLast?_cons_cons]
          exact hl'

theorem simplePathsAux_complete (G : Graph) :
    ∀ (fuel : ℕ) (q : List ℕ) (cur target : ℕ) (visited : List ℕ),
      isWalk G q = true → q.head? = some cur → q.getLast? = some target →
      q.Nodup → (∀ v ∈ q, v ∉ visited) → q.length ≤ fuel →
      q ∈ simplePathsAux G fuel cur target visited := by
  intro fuel
  induction fuel with
  | zero =>
    intro q cur target visited _ hh _ _ _ hlen
    rw [List.length_eq_zero.mp (Nat.le_zero.mp hlen)] at hh
    simp at hh
  | succ fuel ih =>
    intro q cur target visited hw hh hl hnd hdis hlen
    cases q with
    | nil => simp at hh
    | cons c q' =>
      simp only [List.head?_cons, Option.some.injEq] at hh
      subst hh
      rw [simplePathsAux]
      by_cases hct : c = target
      · rw [if_pos hct]
        cases q' with
        | nil => simp
        | cons d q'' =>
          exfalso
          have hlast : (d :: q'').getLast? = some target := by
            rw [← List.getLast?_cons_cons]
            exact hl
          have hmem : target ∈ d :: q'' := mem_of_getLast? _ target hlast
          rw [← hct] at hmem
          exact (List.nodup_cons.mp hnd).1 hmem
      · rw [if_neg hct]
        cases q' with
        | nil =>
          exfalso
          simp only [List.getLast?_singleton, Option.some.injEq] at hl
          exact hct hl
        | cons v q'' =>
          simp only [isWalk, Bool.and_eq_true] at hw
          have hvn : v ∈ nbrs G c := mem_nbrs_of_weightQ_isSome G c v hw.1
          have hvfilter :
              v ∈ (nbrs G c).filter (fun v => decide (¬ v ∈ c :: visited)) := by
            apply List.mem_filter.mpr
            refine ⟨hvn, ?_⟩
            simp only [decide_eq_true_eq, List.mem_cons, not_or]
            constructor
            · intro hveq
              exact (List.nodup_cons.mp hnd).1 (by rw [← hveq]; simp)
            · exact hdis v (by simp)
          have hrec : (v :: q'') ∈ simplePathsAux G fuel v target (c :: visited) := by
            apply ih
            · exact hw.2
            · rfl
            · rw [← List.getLast?_cons_cons]
              exact hl
            · exact (List.nodup_cons.mp hnd).2
            · intro u hu
              simp only [List.mem_cons, not_or]
              constructor
              · intro hue
                exact (List.nodup_cons.mp hnd).1 (by rw [← hue]; exact hu)
              · exact hdis u (List.mem_cons_of_mem c hu)
            · simp only [List.length_cons] at hlen ⊢
              omega
          apply List.mem_flatten.mpr
          refine ⟨(simplePathsAux G fuel v target (c :: visited)).map
            (fun q => c :: q), ?_, ?_⟩
          · exact List.mem_map.mpr ⟨v, hvfilter, rfl⟩
          · exact List.mem_map.mpr ⟨v :: q'', hrec, rfl⟩

theorem mem_allSimplePaths (G : Graph) (s t : ℕ) (q : List ℕ)
    (hw : isWalk G q = true) (hh : q.head? = some s) (hl : q.getLast? = some t)
    (hnd : q.Nodup) (hmem : ∀ v ∈ q, v ∈ G.nodes) :
    q ∈ allSimplePaths G s t := by
  apply simplePathsAux_complete G (G.nodes.length + 1) q s t [] hw hh hl hnd
    (by simp)
  have h1 : q.toFinset.card = q.length := List.toFinset_card_of_nodup hnd
  have h2 : q.toFinset ⊆ G.nodes.toFinset := by
    intro v hv
    exact List.mem_toFinset.mpr (hmem v (List.mem_toFinset.mp hv))
  have h3 := Finset.card_le_card h2
  have h4 := List.toFinset_card_le G.nodes
  omega

theorem leE_refl (x : EInt) : leE x x = true := by
  cases x <;> simp [leE, ltE]

theorem leE_trans (x y z : EInt) (h1 : leE x y = true) (h2 : leE y z = true) :
    leE x z = true := by
  cases x <;> cases y <;> cases z <;>
    simp [leE, ltE] at h1 h2 ⊢ <;> omega

theorem foldMin_le_acc (G : Graph) :
    ∀ (l : List (List ℕ)) (acc : EInt),
      leE (l.foldl (fun acc p =>
        if ltE (pathWeightE G p) acc then pathWeightE G p else acc) acc)
        acc = true := by
  intro l
  induction l with
  | nil => intro acc; exact leE_refl acc
  | cons a l ih =>
    intro acc
    have hstep : leE (if ltE (pathWeightE G a) acc then pathWeightE G a
        else acc) acc = true := by
      by_cases hlt : ltE (pathWeightE G a) acc = true
      · rw [if_pos hlt]
        cases hwa : pathWeightE G a <;> cases hacc : acc <;>
          rw [hwa, hacc] at hlt <;> simp [leE, ltE] at hlt ⊢ <;> omega
      · rw [if_neg hlt]
        exact leE_refl acc
    exact leE_trans _ _ _ (ih _) hstep

theorem foldMin_le_mem (G : Graph) :
    ∀ (l : List (List ℕ)) (acc : EInt) (q : List ℕ), q ∈ l →
      leE (l.foldl (fun acc p =>
        if ltE (pathWeightE G p) acc then pathWeightE G p else acc) acc)
        (pathWeightE G q) = true := by
  intro l
  induction l with
  | nil => intro acc q hq; simp at hq
  | cons a l ih =>
    intro acc q hq
    rcases List.mem_cons.mp hq with rfl | hq'
    · have hstep : leE (if ltE (pathWeightE G q) acc then pathWeightE G q
          else acc) (pathWeightE G q) = true := by
        by_cases hlt : ltE (pathWeightE G q) acc = true
        · rw [if_pos hlt]
          exact leE_refl _
        · rw [if_neg hlt]
          cases hwa : pathWeightE G q <;> cases hacc : acc <;>
            rw [hwa, hacc] at hlt <;> simp [leE, ltE] at hlt ⊢ <;> omega
      exact leE_trans _ _ _ (foldMin_le_acc G l _) hstep
    · exact ih _ q hq'

theorem shortestCost_le (G : Graph) (s t : ℕ) (q : List ℕ) (w : ℤ)
    (hq : q ∈ allSimplePaths G s t) (hw : pathWeightE G q = some w) :
    ∃ m, shortestCost G s t = some m ∧ m ≤ w := by
  have hle := foldMin_le_mem G (allSimplePaths G s t) none q hq
  rw [hw] at hle
  have hfold : shortestCost G s t =
      (allSimplePaths G s t).foldl (fun acc p =>
        if ltE (pathWeightE G p) acc then pathWeightE G p else acc) none := rfl
  rw [← hfold] at hle
  cases hm : shortestCost G s t with
  | none => rw [hm] at hle; simp [leE, ltE] at hle
  | some m =>
    rw [hm] at hle
    simp only [leE, ltE, Bool.not_eq_true', decide_eq_false_iff_not,
      not_lt] at hle
    exact ⟨m, rfl, hle⟩

theorem nxShortestPath_pick (G : Graph) :
    ∀ (l : List (List ℕ)) (acc : Option (List ℕ)) (p : List ℕ),
      l.foldl (fun acc p =>
        match acc with
        | none => some p
        | some q =>
          if ltE (pathWeightE G p) (pathWeightE G q) then some p else acc)
        acc = some p →
      acc = some p ∨ p ∈ l := by
  intro l
  induction l with
  | nil => intro acc p h; exact Or.inl h
  | cons a l ih =>
    intro acc p h
    rcases ih _ p h with hstep | hmem
    · cases acc with
      | none =>
        simp only [Option.some.injEq] at hstep
        exact Or.inr (by rw [← hstep]; simp)
      | some r =>
        dsimp only at hstep
        by_cases hlt : ltE (pathWeightE G a) (pathWeightE G r) = true
        · rw [if_pos hlt] at hstep
          simp only [Option.some.injEq] at hstep
          exact Or.inr (by rw [← hstep]; simp)
        · rw [if_neg hlt] at hstep
          exact Or.inl hstep
    · exact Or.inr (List.mem_cons_of_mem a hmem)

theorem nxShortestPath_sound (G : Graph) (a b : ℕ) (p : List ℕ)
    (h : nxShortestPath G a b = some p) :
    NonnegW G ∧ isWalk G p = true ∧ p.head? = some a ∧ p.getLast? = some b := by
  rw [nxShortestPath] at h
  by_cases hn : NonnegW G
  · rw [if_pos hn] at h
    have hm : p ∈ allSimplePaths G a b := by
      rcases nxShortestPath_pick G (allSimplePaths G a b) none p h with h1 | h2
      · exact absurd h1 (by simp)
      · exact h2
    exact ⟨hn, simplePathsAux_sound G (G.nodes.length + 1) a b [] p hm⟩
  · rw [if_neg hn] at h
    exact absurd h (by simp)

/-- the invariant of the TNR query's running best: any materialized path
came from a successful collaborator call (hence all weights are
non-negative) and is a walk from the source to the target whose recorded
cost is its weight. -/
def GoodBest (G : Graph) (s t : ℕ) (best : Option (List ℕ) × EInt) : Prop :=
  ∀ p, best.1 = some p → NonnegW G ∧ isWalk G p = true ∧ p.head? = some s ∧
    p.getLast? = some t ∧ best.2 = pathWeightE G p

theorem tnrStep_good (G : Graph) (tdist : ℕ → ℕ → EInt) (s t ts tt : ℕ)
    (ds dt : ℤ) (best : Option (List ℕ) × EInt) (hb : GoodBest G s t best) :
    GoodBest G s t (match tdist ts tt with
       | none => best
       | some inter =>
         if ltE (some (ds + inter + dt)) best.2 then
           match nxShortestPath G s ts, nxShortestPath G ts tt,
               nxShortestPath G tt t with
           | some p1, some p2, some p3 =>
             if ltE (pathWeightE G (p1 ++ p2.drop 1 ++ p3.drop 1)) best.2 then
               (some (p1 ++ p2.drop 1 ++ p3.drop 1),
                pathWeightE G (p1 ++ p2.drop 1 ++ p3.drop 1))
             else best
           | _, _, _ => best
         else best) := by
  cases htd : tdist ts tt with
  | none => exact hb
  | some inter =>
    dsimp only
    by_cases hlt : ltE (some (ds + inter + dt)) best.2 = true
    · rw [if_pos hlt]
      cases h1 : nxShortestPath G s ts with
      | none => exact hb
      | some p1 =>
        cases h2 : nxShortestPath G ts tt with
        | none => exact hb
        | some p2 =>
          cases h3 : nxShortestPath G tt t with
          | none => exact hb
          | some p3 =>
            dsimp only
            by_cases hlt2 :
                ltE (pathWeightE G (p1 ++ p2.drop 1 ++ p3.drop 1)) best.2 = true
            · rw [if_pos hlt2]
              intro p hp
              simp only [Option.some.injEq] at hp
              subst hp
              obtain ⟨hnn1, w1, hh1, hl1⟩ := nxShortestPath_sound G s ts p1 h1
              obtain ⟨hnn2, w2, hh2, hl2⟩ := nxShortestPath_sound G ts tt p2 h2
              obtain ⟨hnn3, w3, hh3, hl3⟩ := nxShortestPath_sound G tt t p3 h3
              obtain ⟨g1w, g1h, g1l⟩ := walk_glue G p1 p2 ts w1 w2 hl1 hh2
              obtain ⟨g2w, g2h, g2l⟩ :=
                walk_glue G (p1 ++ p2.drop 1) p3 tt g1w w3 (g1l.trans hl2) hh3
              refine ⟨hnn1, g2w, ?_, ?_, rfl⟩
              · rw [g2h, g1h]
                exact hh1
              · rw [g2l]
                exact hl3
            · rw [if_neg hlt2]
              exact hb
    · rw [if_neg hlt]
      exact hb

theorem tnrInner_good (G : Graph) (tdist : ℕ → ℕ → EInt) (s t ts : ℕ)
    (ds : ℤ) :
    ∀ (l : List (ℕ × ℤ)) (best : Option (List ℕ) × EInt),
      GoodBest G s t best →
      GoodBest G s t (tnrInner G tdist s t ts ds l best) := by
  intro l
  induction l with
  | nil => intro best hb; exact hb
  | cons a l ih =>
    intro best hb
    obtain ⟨tt, dt⟩ := a
    rw [tnrInner]
    exact ih _ (tnrStep_good G tdist s t ts tt ds dt best hb)

theorem tnrOuter_good (G : Graph) (tdist : ℕ → ℕ → EInt) (s t : ℕ)
    (tAcc : List (ℕ × ℤ)) :
    ∀ (l : List (ℕ × ℤ)) (best : Option (List ℕ) × EInt),
      GoodBest G s t best →
      GoodBest G s t (tnrOuter G tdist s t tAcc l best) := by
  intro l
  induction l with
  | nil => intro best hb; exact hb
  | cons a l ih =>
    intro best hb
    obtain ⟨ts, ds⟩ := a
    rw [tnrOuter]
    exact ih _ (tnrInner_good G tdist s t ts ds tAcc best hb)

theorem goodBest_result (G : Graph) (s t : ℕ) (best : Option (List ℕ) × EInt)
    (hgood : GoodBest G s t best) (p : List ℕ) (c : EInt)
    (h : (match best.1 with
          | none => none
          | some q => some (q, best.2)) = some (p, c)) :
    NonnegW G ∧ isWalk G p = true ∧ p.head? = some s ∧ p.getLast? = some t ∧
      c = pathWeightE G p := by
  cases hb : best.1 with
  | none => rw [hb] at h; simp at h
  | some q =>
    rw [hb] at h
    simp only [Option.some.injEq, Prod.mk.injEq] at h
    obtain ⟨hnn, hw, hh, hl, he⟩ := hgood q hb
    rw [← h.1, ← h.2]
    exact ⟨hnn, hw, hh, hl, he⟩

theorem tnr_query_sound (idx : TransitNodeIndex) (s t : ℕ) (p : List ℕ)
    (c : EInt) (h : query_shortest_path_tnr idx s t = some (p, c)) :
    s ∈ idx.Gidx.nodes ∧ t ∈ idx.Gidx.nodes ∧ NonnegW idx.Gidx ∧
      isWalk idx.Gidx p = true ∧
      p.head? = some s ∧ p.getLast? = some t ∧ c = pathWeightE idx.Gidx p := by
  rw [query_shortest_path_tnr] at h
  by_cases hg : ¬ (s ∈ idx.Gidx.nodes ∧ t ∈ idx.Gidx.nodes)
  · rw [if_pos hg] at h
    exact absurd h (by simp)
  · rw [if_neg hg] at h
    rw [not_not] at hg
    simp only at h
    have hinit : GoodBest idx.Gidx s t
        (nxShortestPath idx.Gidx s t,
          match nxShortestPath idx.Gidx s t with
          | none => none
          | some p0 => pathWeightE idx.Gidx p0) := by
      intro q hq
      simp only at hq
      obtain ⟨hnn, hw, hh, hl⟩ := nxShortestPath_sound idx.Gidx s t q hq
      refine ⟨hnn, hw, hh, hl, ?_⟩
      simp only [hq]
    have hgood : GoodBest idx.Gidx s t
        (if idx.access s ≠ [] ∧ idx.access t ≠ [] then
          tnrOuter idx.Gidx idx.tdist s t (idx.access t) (idx.access s)
            (nxShortestPath idx.Gidx s t,
              match nxShortestPath idx.Gidx s t with
              | none => none
              | some p0 => pathWeightE idx.Gidx p0)
        else
          (nxShortestPath idx.Gidx s t,
            match nxShortestPath idx.Gidx s t with
            | none => none
            | some p0 => pathWeightE idx.Gidx p0)) := by
      by_cases hc : idx.access s ≠ [] ∧ idx.access t ≠ []
      · rw [if_pos hc]
        exact tnrOuter_good idx.Gidx idx.tdist s t _ _ _ hinit
      · rw [if_neg hc]
        exact hinit
    exact ⟨hg.1, hg.2, goodBest_result idx.Gidx s t _ hgood p c h⟩

/-- C8: on graphs whose edges join listed nodes, whenever
`query_shortest_path_tnr` returns a result, the returned cost is the
weight of an actual walk from source to target and is greater than or
equal to the true shortest-path cost — TNR may overestimate but never
underestimates.  (A returned result forces the Dijkstra collaborators'
contract domain — non-negative weights — since on a negative-weight graph
every collaborator call is outside the contract and the query yields no
result, matching the library's raised error.) -/
theorem C8_tnr_never_underestimates (idx : TransitNodeIndex)
    (s t : ℕ) (p : List ℕ) (c : EInt)
    (hwf : edgesInNodes idx.Gidx)
    (hq : query_shortest_path_tnr idx s t = some (p, c)) :
    ∃ m cv, shortestCost idx.Gidx s t = some m ∧ c = some cv ∧ m ≤ cv := by
  obtain ⟨hs, ht, hnn, hw, hh, hl, hc⟩ := tnr_query_sound idx s t p c hq
  obtain ⟨cv, hcv⟩ := pathWeightE_isSome idx.Gidx p hw
  obtain ⟨q, cq, hqw, hqh, hql, hqnd, hqsub, hqc, hqle⟩ :=
    walk_to_simple idx.Gidx hnn p.length p le_rfl hw
  have hqmem : ∀ v ∈ q, v ∈ idx.Gidx.nodes := by
    intro v hv
    rcases walk_mem_nodes_or idx.Gidx hwf p hw v (hqsub v hv) with h1 | h1
    · exact h1
    · rw [h1] at hh
      simp only [List.head?_cons, Option.some.injEq] at hh
      rw [hh]
      exact hs
  have hqall : q ∈ allSimplePaths idx.Gidx s t :=
    mem_allSimplePaths idx.Gidx s t q hqw (by rw [hqh]; exact hh)
      (by rw [hql]; exact hl) hqnd hqmem
  obtain ⟨m, hm, hmle⟩ := shortestCost_le idx.Gidx s t q cq hqall hqc
  refine ⟨m, cv, hm, by rw [hc]; exact hcv, ?_⟩
  exact le_trans hmle (hqle cv hcv)

/-- witness for C8: on the five-node graph `g9` with the transit index
built with `k = 2`, `max_access = 2`, the query `(A, D)` returns cost 5
and the theorem yields the ground-truth bound. -/
theorem C8_witness :
    (edgesInNodes g9 ∧
      query_shortest_path_tnr (build_transit_index g9 2 2 none) 0 3 =
        some ([0, 1, 2, 3], some 5)) ∧
    ∃ m cv, shortestCost g9 0 3 = some m ∧ (some 5 : EInt) = some cv ∧
      m ≤ cv := by
  refine ⟨⟨by decide, by decide⟩, ?_⟩
  exact C8_tnr_never_underestimates (build_transit_index g9 2 2 none)
    0 3 [0, 1, 2, 3] (some 5) (by decide) (by decide)

/-! ## Yen's algorithm (`src/algorithms/Yen.py`)

`SP_with_bans` runs a lazy Dijkstra over a `FibonacciHeap` of
`(dist, counter, node)` triples (compared as Python tuples), breaking as
soon as the goal is popped live, and reconstructs the path by following
the `parent` map.  Loops that the Python code would not exit (or index
errors it would raise) are modelled by an outer `none`; the Python `None`
return is the inner `none`. -/

/-- Python tuple `<` on Dijkstra heap entries `(dist, counter, node)`. -/
def ltTriple (a b : ℤ × ℕ × ℕ) : Bool :=
  if a.1 < b.1 then true
  else if b.1 < a.1 then false
  else if a.2.1 < b.2.1 then true
  else if b.2.1 < a.2.1 then false
  else decide (a.2.2 < b.2.2)

/-- Python list `<` (lexicographic). -/
def ltList : List ℕ → List ℕ → Bool
  | [], [] => false
  | [], _ :: _ => true
  | _ :: _, [] => false
  | a :: xs, b :: ys =>
    if a < b then true else if b < a then false else ltList xs ys

/-- Python tuple `<` on candidate heap entries `(cost, tie, path)`
(`inf` costs compare greater than finite ones). -/
def ltB (a b : EInt × ℕ × List ℕ) : Bool :=
  if ltE a.1 b.1 then true
  else if ltE b.1 a.1 then false
  else if a.2.1 < b.2.1 then true
  else if b.2.1 < a.2.1 then false
  else ltList a.2.2 b.2.2

/-- the mutable state of `SP_with_bans`: the `dist` dict (`none` = absent,
read with default `inf`), the `parent` dict, the Fibonacci heap and the
push `counter`. -/
structure SPState where
  dist : ℕ → EInt
  parent : ℕ → Option ℕ
  pq : FibHeap (ℤ × ℕ × ℕ)
  counter : ℕ

/-- the `for v in G.neighbors(u)` relaxation loop of `SP_with_bans`:
skip banned nodes and banned edges, and on a strict improvement record
`dist`, `parent` and push. -/
def relaxNbrs (G : Graph) (bN : List ℕ) (bE : List (ℕ × ℕ)) (u : ℕ)
    (d : ℤ) : List ℕ → SPState → SPState
  | [], st => st
  | v :: rest, st =>
    relaxNbrs G bN bE u d rest
      (if v ∈ bN then st
       else if (u, v) ∈ bE then st
       else
         match weightQ G u v with
         | none => st
         | some w =>
           if ltE (some (d + w)) (st.dist v) then
             ⟨upd st.dist v (some (d + w)), upd st.parent v (some u),
              FibHeap.push ltTriple st.pq (d + w, st.counter, v),
              st.counter + 1⟩
           else st)

/-- the `while not pq.is_empty()` loop of `SP_with_bans` (fuel-bounded;
`none` models a run the Python loop does not finish). -/
def spLoopF (G : Graph) (bN : List ℕ) (bE : List (ℕ × ℕ)) (goal : ℕ) :
    ℕ → SPState → Option SPState
  | 0, _ => none
  | Nat.succ fuel, st =>
    if st.pq.isEmpty then some st
    else
      match FibHeap.pop ltTriple st.pq with
      | (none, _) => none
      | (some dcu, pq') =>
        if ltE (st.dist dcu.2.2) (some dcu.1) then
          spLoopF G bN bE goal fuel ⟨st.dist, st.parent, pq', st.counter⟩
        else if dcu.2.2 = goal then some ⟨st.dist, st.parent, pq', st.counter⟩
        else if dcu.2.2 ∈ bN then
          spLoopF G bN bE goal fuel ⟨st.dist, st.parent, pq', st.counter⟩
        else
          spLoopF G bN bE goal fuel
            (relaxNbrs G bN bE dcu.2.2 dcu.1 (nbrs G dcu.2.2)
              ⟨st.dist, st.parent, pq', st.counter⟩)

/-- the path-reconstruction loop of `SP_with_bans` (the accumulator is
kept in final order by prepending; the outer `none` is a loop the Python
`while cur != start` would not exit, the inner `none` a missing parent). -/
def buildPathF (parent : ℕ → Option ℕ) (start : ℕ) :
    ℕ → ℕ → List ℕ → Option (Option (List ℕ))
  | 0, _, _ => none
  | Nat.succ fuel, cur, acc =>
    if cur = start then some (some acc)
    else
      match parent cur with
      | none => some none
      | some c => buildPathF parent start fuel c (c :: acc)

/-- `SP_with_bans` (the outer `none` models divergence, the inner the
Python `None` return). -/
def SP_with_bans (G : Graph) (fuel : ℕ) (start goal : ℕ)
    (bN : List ℕ) (bE : List (ℕ × ℕ)) : Option (Option (List ℕ × ℤ)) :=
  if start ∈ bN ∨ goal ∈ bN then some none
  else
    match spLoopF G bN bE goal fuel
        ⟨upd (fun _ => none) start (some 0), fun _ => none,
          FibHeap.push ltTriple FibHeap.empty (0, 0, start), 1⟩ with
    | none => none
    | some st =>
      match st.dist goal with
      | none => some none
      | some dg =>
        match buildPathF st.parent start fuel goal [goal] with
        | none => none
        | some none => some none
        | some (some p) => some (some (p, dg))

/-- the `banned_edges` set built for a spur index `i` and root path
(`none` models the `p[i + 1]` index error). -/
def bannedEdgesFor (G : Graph) (A : List (List ℕ × EInt)) (i : ℕ)
    (root : List ℕ) : Option (List (ℕ × ℕ)) :=
  A.foldr
    (fun pc acc =>
      match acc with
      | none => none
      | some es =>
        if i < pc.1.length ∧ pc.1.take (i + 1) = root then
          match pc.1.get? i, pc.1.get? (i + 1) with
          | some u, some v =>
            some ((if G.directed then [(u, v)] else [(u, v), (v, u)]) ++ es)
          | _, _ => none
        else some es)
    (some [])

/-- the candidate state of `yen`: the `B` heap, the `cand_seen` set and
the `tie` counter. -/
structure YState where
  B : FibHeap (EInt × ℕ × List ℕ)
  cand : List (List ℕ)
  tie : ℕ

/-- one spur iteration of `yen`'s inner `for i in range(n - 1)` loop. -/
def spurStep (G : Graph) (fuel : ℕ) (target : ℕ) (A : List (List ℕ × EInt))
    (last : List ℕ) (i : ℕ) (st : YState) : Option YState :=
  match last.get? i with
  | none => none
  | some spur_node =>
    match bannedEdgesFor G A i (last.take (i + 1)) with
    | none => none
    | some bE =>
      match SP_with_bans G fuel spur_node target
          (last.take (i + 1)).dropLast bE with
      | none => none
      | some none => some st
      | some (some sp) =>
        if (last.take (i + 1)).dropLast ++ sp.1 ∈ st.cand then some st
        else
          some ⟨FibHeap.push ltB st.B
              (eadd (pathWeightE G (last.take (i + 1))) (some sp.2), st.tie,
                (last.take (i + 1)).dropLast ++ sp.1),
            ((last.take (i + 1)).dropLast ++ sp.1) :: st.cand, st.tie + 1⟩

def spurLoop (G : Graph) (fuel : ℕ) (target : ℕ) (A : List (List ℕ × EInt))
    (last : List ℕ) : List ℕ → YState → Option YState
  | [], st => some st
  | i :: rest, st =>
    match spurStep G fuel target A last i st with
    | none => none
    | some st' => spurLoop G fuel target A last rest st'

/-- the `for _ in range(1, K)` loop of `yen`. -/
def yenIter (G : Graph) (fuel : ℕ) (target : ℕ) :
    ℕ → List (List ℕ × EInt) → YState → Option (List (List ℕ × EInt))
  | 0, A, _ => some A
  | Nat.succ k, A, st =>
    match A.getLast? with
    | none => none
    | some lastPC =>
      match spurLoop G fuel target A lastPC.1
          (List.range (lastPC.1.length - 1)) st with
      | none => none
      | some st' =>
        if st'.B.isEmpty then some A
        else
          match FibHeap.pop ltB st'.B with
          | (none, _) => none
          | (some ckp, B') =>
            yenIter G fuel target k (A ++ [(ckp.2.2, ckp.1)])
              ⟨B', st'.cand, st'.tie⟩

/-- `yen` (costs are kept extended; `none` models a run the Python code
does not complete normally). -/
def yen (G : Graph) (fuel : ℕ) (source target : ℕ) (K : ℕ) :
    Option (List (List ℕ × EInt)) :=
  if source = target then some [([source], some 0)]
  else
    match SP_with_bans G fuel source target [] [] with
    | none => none
    | some none => some []
    | some (some first) =>
      yenIter G fuel target (K - 1) [(first.1, some first.2)]
        ⟨FibHeap.empty, [], 0⟩

/-- the directed graph of the C7 counterexample: `0 → 2` weight 1,
`0 → 1` weight 10, `1 → 2` weight -10. -/
def gW7 : Graph := ⟨true, [0, 1, 2], [(0, 2, 1), (0, 1, 10), (1, 2, -10)]⟩

/-- C7 is false as stated: with `K = 2` on `gW7`, yen returns the paths
`[0, 2]` (cost 1) and then `[0, 1, 2]` (cost 0) — the reported costs are
strictly decreasing in list index, because `SP_with_bans` breaks on the
first pop of the goal and so misses the cheaper path on the negative
edge until the spur round. -/
theorem C7_counterexample :
    yen gW7 20 0 2 2 = some [([0, 2], some 1), ([0, 1, 2], some 0)] ∧
    ltE (some 0) (some 1) = true := by decide

/-! ### The value multiset of a Fibonacci heap -/

mutual

/-- all values held in a Fibonacci tree. -/
def FibTree.vals {V : Type} : FibTree V → List V
  | .node v c _ => v :: FibTree.valsL c

/-- all values held in a list of Fibonacci trees. -/
def FibTree.valsL {V : Type} : List (FibTree V) → List V
  | [] => []
  | t :: ts => t.vals ++ FibTree.valsL ts

end

theorem valsL_append {V : Type} :
    ∀ (xs ys : List (FibTree V)),
      FibTree.valsL (xs ++ ys) = FibTree.valsL xs ++ FibTree.valsL ys := by
  intro xs ys
  induction xs with
  | nil => simp [FibTree.valsL]
  | cons t ts ih => simp [FibTree.valsL, ih]

theorem vals_addAtEnd {V : Type} (x y : FibTree V) :
    (x.addAtEnd y).vals = x.vals ++ y.vals := by
  cases x with
  | node v c o =>
    simp [FibTree.addAtEnd, FibTree.vals, valsL_append, FibTree.valsL]

/-- the values of an optional tree. -/
def optVals {V : Type} : Option (FibTree V) → List V
  | none => []
  | some t => t.vals

/-- the values held in an `aux` array. -/
def valsO {V : Type} (aux : List (Option (FibTree V))) : List V :=
  FibTree.valsL (aux.filterMap id)

theorem valsO_nil {V : Type} : valsO ([] : List (Option (FibTree V))) = [] :=
  rfl

theorem valsO_cons {V : Type} (o : Option (FibTree V))
    (aux : List (Option (FibTree V))) :
    valsO (o :: aux) = optVals o ++ valsO aux := by
  cases o <;> simp [valsO, optVals, List.filterMap_cons, FibTree.valsL]

theorem valsO_append {V : Type} (a b : List (Option (FibTree V))) :
    valsO (a ++ b) = valsO a ++ valsO b := by
  simp [valsO, List.filterMap_append, valsL_append]

theorem valsO_replicate_none {V : Type} (n : ℕ) :
    valsO (List.replicate n (none : Option (FibTree V))) = [] := by
  induction n with
  | zero => rfl
  | succ m ih => simp [List.replicate, valsO_cons, ih, optVals]

theorem valsO_set {V : Type} :
    ∀ (aux : List (Option (FibTree V))) (i : ℕ), i < aux.length →
      ∀ (v : Option (FibTree V)),
      (↑(valsO (aux.set i v)) + ↑(optVals (aux.getD i none)) : Multiset V) =
        ↑(valsO aux) + ↑(optVals v) := by
  intro aux
  induction aux with
  | nil => intro i hi; simp at hi
  | cons a rest ih =>
    intro i hi v
    cases i with
    | zero =>
      have hset : (a :: rest).set 0 v = v :: rest := rfl
      have hD : (a :: rest).getD 0 none = a := by simp [List.getD]
      rw [hset, hD, valsO_cons, valsO_cons]
      simp only [← Multiset.coe_add]
      simp only [add_comm, add_left_comm, add_assoc, Multiset.coe_add,
        Multiset.coe_eq_coe]
      rw [← List.append_assoc, ← List.append_assoc]
      exact List.Perm.append_right _ List.perm_append_comm
    | succ j =>
      have hj : j < rest.length := by simpa using hi
      have hrec := ih j hj v
      have hset : (a :: rest).set (j + 1) v = a :: rest.set j v := rfl
      have hD : (a :: rest).getD (j + 1) none = rest.getD j none := by
        simp [List.getD]
      rw [hset, hD, valsO_cons, valsO_cons]
      simp only [← Multiset.coe_add]
      rw [add_assoc, hrec, ← add_assoc]

theorem auxSet_lt {T : Type} (aux : List (Option T)) (i : ℕ)
    (hi : i < aux.length) (v : Option T) : auxSet aux i v = aux.set i v := by
  rw [auxSet, show i + 1 - aux.length = 0 by omega]
  simp [List.replicate]

theorem valsO_auxSet {V : Type} (aux : List (Option (FibTree V))) (i : ℕ)
    (v : Option (FibTree V)) :
    (↑(valsO (auxSet aux i v)) + ↑(optVals (auxGet aux i)) : Multiset V) =
      ↑(valsO aux) + ↑(optVals v) := by
  by_cases hi : i < aux.length
  · rw [auxSet_lt aux i hi v, auxGet]
    exact valsO_set aux i hi v
  · push_neg at hi
    have hg : auxGet aux i = none := by
      rw [auxGet, List.getD_eq_default _ _ hi]
    rw [hg, auxSet]
    have hlen : i < (aux ++ List.replicate (i + 1 - aux.length) none).length := by
      simp [List.length_replicate]
      omega
    have hD : (aux ++ List.replicate (i + 1 - aux.length) none).getD i none =
        none := by
      rw [List.getD_eq_getElem?_getD, List.getElem?_append_right (by omega)]
      simp only [List.getElem?_replicate]
      rw [if_pos (by omega)]
      rfl
    have := valsO_set (aux ++ List.replicate (i + 1 - aux.length) none) i
      hlen v
    rw [hD] at this
    rw [valsO_append, valsO_replicate_none, List.append_nil] at this
    simpa [optVals] using this

theorem valsO_insertAuxF {V : Type} (ltV : V → V → Bool) :
    ∀ (fuel : ℕ) (aux : List (Option (FibTree V))) (x : FibTree V) (ord : ℕ),
      countSome aux < fuel →
      (↑(valsO (insertAuxF ltV fuel aux x ord)) : Multiset V) =
        ↑(valsO aux) + ↑x.vals := by
  intro fuel
  induction fuel with
  | zero => intro aux x ord h; omega
  | succ fuel ih =>
    intro aux x ord h
    rw [insertAuxF]
    cases hg : auxGet aux ord with
    | none =>
      have := valsO_auxSet aux ord (some x)
      rw [hg] at this
      simpa [optVals] using this
    | some y =>
      have hcnt := countSome_auxSet_none aux ord y hg
      have hrec := ih (auxSet aux ord none)
        ((if ltV y.value x.value then (y, x) else (x, y)).1.addAtEnd
          (if ltV y.value x.value then (y, x) else (x, y)).2) (ord + 1)
        (by omega)
      rw [hrec]
      have hset := valsO_auxSet aux ord none
      rw [hg] at hset
      simp only [optVals] at hset
      rw [show ((↑([] : List V)) : Multiset V) = 0 from rfl, add_zero] at hset
      have hvals : (↑((if ltV y.value x.value then (y, x)
          else (x, y)).1.addAtEnd
            (if ltV y.value x.value then (y, x) else (x, y)).2).vals :
          Multiset V) = ↑x.vals + ↑y.vals := by
        by_cases hlt : ltV y.value x.value = true
        · rw [if_pos hlt]
          simp only [vals_addAtEnd, ← Multiset.coe_add]
          exact add_comm _ _
        · rw [if_neg hlt]
          simp only [vals_addAtEnd, ← Multiset.coe_add]
      rw [hvals]
      have : (↑(valsO (auxSet aux ord none)) : Multiset V) + ↑y.vals =
          ↑(valsO aux) := hset
      calc (↑(valsO (auxSet aux ord none)) : Multiset V) +
            (↑x.vals + ↑y.vals)
          = (↑(valsO (auxSet aux ord none)) + ↑y.vals) + ↑x.vals := by
            rw [add_assoc, add_comm (↑x.vals : Multiset V) _, ← add_assoc]
        _ = ↑(valsO aux) + ↑x.vals := by rw [this]

theorem valsO_consolidateLoop {V : Type} (ltV : V → V → Bool) :
    ∀ (ts : List (FibTree V)) (aux : List (Option (FibTree V))),
      (↑(valsO (consolidateLoop ltV ts aux)) : Multiset V) =
        ↑(valsO aux) + ↑(FibTree.valsL ts) := by
  intro ts
  induction ts with
  | nil => intro aux; simp [consolidateLoop, FibTree.valsL]
  | cons x rest ih =>
    intro aux
    rw [consolidateLoop, ih, insertAux,
      valsO_insertAuxF ltV (countSome aux + 1) aux x x.order (by omega)]
    show (↑(valsO aux) : Multiset V) + ↑x.vals + ↑(FibTree.valsL rest) =
      ↑(valsO aux) + ↑(FibTree.valsL (x :: rest))
    have : FibTree.valsL (x :: rest) = x.vals ++ FibTree.valsL rest := rfl
    rw [this, ← Multiset.coe_add, add_assoc]

theorem valsL_consolidate {V : Type} (ltV : V → V → Bool)
    (ts : List (FibTree V)) (count : ℕ) :
    (↑(FibTree.valsL (consolidate ltV ts count).1) : Multiset V) =
      ↑(FibTree.valsL ts) := by
  show (↑(valsO (consolidateLoop ltV ts
    (List.replicate (floorLog2 count + 1) none))) : Multiset V) = _
  rw [valsO_consolidateLoop, valsO_replicate_none]
  simp

theorem valsL_eraseIdx {V : Type} :
    ∀ (l : List (FibTree V)) (i : ℕ) (t : FibTree V), l.get? i = some t →
      (↑(FibTree.valsL l) : Multiset V) =
        ↑t.vals + ↑(FibTree.valsL (l.eraseIdx i)) := by
  intro l
  induction l with
  | nil => intro i t h; simp at h
  | cons a rest ih =>
    intro i t h
    cases i with
    | zero =>
      simp only [List.get?] at h
      injection h with h
      subst h
      rfl
    | succ j =>
      simp only [List.get?] at h
      have hrec := ih j t h
      show (↑(a.vals ++ FibTree.valsL rest) : Multiset V) =
        ↑t.vals + ↑(a.vals ++ FibTree.valsL (rest.eraseIdx j))
      simp only [← Multiset.coe_add]
      rw [hrec]
      rw [← add_assoc, add_comm (↑a.vals : Multiset V) _, add_assoc]

theorem fibHeap_push_vals {V : Type} (ltV : V → V → Bool) (h : FibHeap V)
    (v : V) :
    (↑(FibTree.valsL (FibHeap.push ltV h v).trees) : Multiset V) =
      v ::ₘ ↑(FibTree.valsL h.trees) := by
  have htr : (FibHeap.push ltV h v).trees = h.trees ++ [.node v [] 0] := rfl
  have h2 : FibTree.valsL [FibTree.node v [] 0] = [v] := by
    simp [FibTree.valsL, FibTree.vals]
  rw [htr, valsL_append, h2, Multiset.cons_coe, Multiset.coe_eq_coe]
  exact List.perm_append_singleton v _

theorem vals_eq_value_valsL {V : Type} (t : FibTree V) :
    t.vals = t.value :: FibTree.valsL t.child := by
  cases t with
  | node v c o => simp [FibTree.vals, FibTree.value, FibTree.child]

theorem fibHeap_pop_vals {V : Type} (ltV : V → V → Bool) (h : FibHeap V)
    (v : V) (h' : FibHeap V) (hp : FibHeap.pop ltV h = (some v, h')) :
    (↑(FibTree.valsL h.trees) : Multiset V) =
      v ::ₘ ↑(FibTree.valsL h'.trees) := by
  rw [FibHeap.pop] at hp
  cases hl : h.least with
  | none => rw [hl] at hp; simp at hp
  | some i =>
    rw [hl] at hp
    dsimp only at hp
    cases hg : h.trees.get? i with
    | none => rw [hg] at hp; simp at hp
    | some smallest =>
      rw [hg] at hp
      dsimp only at hp
      have hi : i < h.trees.length := (List.get?_eq_some.mp hg).1
      have hg1 : (h.trees ++ smallest.child).get? i = some smallest := by
        rw [List.get?_append hi]
        exact hg
      have hmain := valsL_eraseIdx (h.trees ++ smallest.child) i smallest hg1
      rw [valsL_append, vals_eq_value_valsL] at hmain
      have hkey : (↑(FibTree.valsL h.trees) : Multiset V) =
          smallest.value ::ₘ
            ↑(FibTree.valsL ((h.trees ++ smallest.child).eraseIdx i)) := by
        have hstep : (↑(FibTree.valsL h.trees) : Multiset V) +
            ↑(FibTree.valsL smallest.child) =
            (smallest.value ::ₘ
              ↑(FibTree.valsL ((h.trees ++ smallest.child).eraseIdx i))) +
              ↑(FibTree.valsL smallest.child) := by
          rw [← Multiset.coe_add] at hmain
          rw [hmain, ← Multiset.cons_coe]
          rw [Multiset.cons_add, Multiset.cons_add,
            add_comm (↑(FibTree.valsL smallest.child) : Multiset V)]
        exact add_right_cancel hstep
      by_cases he :
          ((h.trees ++ smallest.child).eraseIdx i).isEmpty = true
      · rw [if_pos he] at hp
        simp only [Prod.mk.injEq, Option.some.injEq] at hp
        have ht2 : (h.trees ++ smallest.child).eraseIdx i = [] :=
          List.isEmpty_iff.mp he
        rw [ht2] at hkey
        rw [← hp.2, ← hp.1]
        exact hkey
      · rw [if_neg he] at hp
        simp only [Prod.mk.injEq, Option.some.injEq] at hp
        rw [← hp.2, ← hp.1]
        show (↑(FibTree.valsL h.trees) : Multiset V) = smallest.value ::ₘ
          ↑(FibTree.valsL
            (consolidate ltV ((h.trees ++ smallest.child).eraseIdx i)
              h.count).1)
        rw [valsL_consolidate]
        exact hkey

/-! ### Paths reconstructed from a parent map are simple -/

/-- consecutive entries of the list are parent links. -/
def isParentChain (parent : ℕ → Option ℕ) : List ℕ → Prop
  | [] => True
  | [_] => True
  | a :: b :: t => parent b = some a ∧ isParentChain parent (b :: t)

theorem buildPathF_sound (parent : ℕ → Option ℕ) (start : ℕ) :
    ∀ (fuel : ℕ) (cur : ℕ) (rest : List ℕ) (p : List ℕ),
      buildPathF parent start fuel cur (cur :: rest) = some (some p) →
      isParentChain parent (cur :: rest) → (∀ x ∈ rest, x ≠ start) →
      ∃ ys, p = start :: ys ∧ (∀ x ∈ ys, x ≠ start) ∧
        isParentChain parent p ∧ p.getLast? = (cur :: rest).getLast? := by
  intro fuel
  induction fuel with
  | zero => intro cur rest p h _ _; simp [buildPathF] at h
  | succ fuel ih =>
    intro cur rest p h hchain hrest
    rw [buildPathF] at h
    by_cases hcs : cur = start
    · rw [if_pos hcs] at h
      simp only [Option.some.injEq] at h
      subst h
      subst hcs
      exact ⟨rest, rfl, hrest, hchain, rfl⟩
    · rw [if_neg hcs] at h
      cases hpar : parent cur with
      | none => rw [hpar] at h; simp at h
      | some c =>
        rw [hpar] at h
        have hch : isParentChain parent (c :: cur :: rest) := ⟨hpar, hchain⟩
        have hr : ∀ x ∈ cur :: rest, x ≠ start := by
          intro x hx
          rcases List.mem_cons.mp hx with rfl | hx'
          · exact hcs
          · exact hrest x hx'
        obtain ⟨ys, h1, h2, h3, h4⟩ := ih c (cur :: rest) p h hch hr
        refine ⟨ys, h1, h2, h3, ?_⟩
        rw [h4, List.getLast?_cons_cons]

theorem parentChain_get (parent : ℕ → Option ℕ) :
    ∀ (l : List ℕ) (i : ℕ) (h : i + 1 < l.length),
      isParentChain parent l →
      parent (l.get ⟨i + 1, h⟩) = some (l.get ⟨i, by omega⟩) := by
  intro l
  induction l with
  | nil => intro i h; simp at h
  | cons a rest ihl =>
    intro i h hc
    cases rest with
    | nil => simp at h
    | cons b t =>
      cases i with
      | zero => exact hc.1
      | succ j =>
        have hj : j + 1 < (b :: t).length := by simpa using h
        exact ihl j hj hc.2

theorem parentChain_nodup (parent : ℕ → Option ℕ) (start : ℕ) (ys : List ℕ)
    (hc : isParentChain parent (start :: ys)) (hys : ∀ x ∈ ys, x ≠ start) :
    (start :: ys).Nodup := by
  have key : ∀ (i : ℕ), ∀ (j : ℕ) (hi : i < (start :: ys).length)
      (hj : j < (start :: ys).length), i < j →
      (start :: ys).get ⟨i, hi⟩ = (start :: ys).get ⟨j, hj⟩ → False := by
    intro i
    induction i with
    | zero =>
      intro j hi hj hij heq
      cases j with
      | zero => omega
      | succ k =>
        have hk : k < ys.length := by simpa using hj
        have hmem : ys.get ⟨k, hk⟩ ∈ ys := List.get_mem ys k hk
        have hget : (start :: ys).get ⟨k + 1, hj⟩ = ys.get ⟨k, hk⟩ := rfl
        have hstart : (start :: ys).get ⟨0, hi⟩ = start := rfl
        rw [hget, hstart] at heq
        exact hys _ hmem heq.symm
    | succ m ih =>
      intro j hi hj hij heq
      cases j with
      | zero => omega
      | succ n =>
        have h1 := parentChain_get parent (start :: ys) m hi hc
        have h2 := parentChain_get parent (start :: ys) n hj hc
        rw [heq] at h1
        rw [h2] at h1
        exact ih n (by omega) (by omega) (by omega) (Option.some.inj h1).symm
  rw [List.nodup_iff_injective_get]
  intro a b hab
  rcases lt_trichotomy a.1 b.1 with hlt | heq | hgt
  · exact absurd (key a.1 b.1 a.2 b.2 hlt (by
      have ha : (⟨a.1, a.2⟩ : Fin (start :: ys).length) = a := rfl
      have hb : (⟨b.1, b.2⟩ : Fin (start :: ys).length) = b := rfl
      rw [ha, hb]
      exact hab)) (fun f => f)
  · exact Fin.ext heq
  · exact absurd (key b.1 a.1 b.2 a.2 hgt (by
      have ha : (⟨a.1, a.2⟩ : Fin (start :: ys).length) = a := rfl
      have hb : (⟨b.1, b.2⟩ : Fin (start :: ys).length) = b := rfl
      rw [ha, hb]
      exact hab.symm)) (fun f => f)

/-- the invariant of the `parent` map of `SP_with_bans`: a parent link is
only recorded for an unbanned node over an unbanned edge. -/
def ParentInv (bN : List ℕ) (bE : List (ℕ × ℕ))
    (parent : ℕ → Option ℕ) : Prop :=
  ∀ v u, parent v = some u → v ∉ bN ∧ (u, v) ∉ bE

theorem relaxNbrs_parentInv (G : Graph) (bN : List ℕ) (bE : List (ℕ × ℕ))
    (u : ℕ) (d : ℤ) :
    ∀ (vs : List ℕ) (st : SPState), ParentInv bN bE st.parent →
      ParentInv bN bE (relaxNbrs G bN bE u d vs st).parent := by
  intro vs
  induction vs with
  | nil => intro st h; exact h
  | cons v rest ih =>
    intro st h
    rw [relaxNbrs]
    apply ih
    by_cases h1 : v ∈ bN
    · rw [if_pos h1]; exact h
    · rw [if_neg h1]
      by_cases h2 : (u, v) ∈ bE
      · rw [if_pos h2]; exact h
      · rw [if_neg h2]
        cases hw : weightQ G u v with
        | none => exact h
        | some w =>
          dsimp only
          by_cases h3 : ltE (some (d + w)) (st.dist v) = true
          · rw [if_pos h3]
            intro v2 u2 hp
            have hp' : upd st.parent v (some u) v2 = some u2 := hp
            rw [upd] at hp'
            by_cases hv2 : v2 = v
            · rw [if_pos hv2] at hp'
              injection hp' with hp'
              rw [hv2, ← hp']
              exact ⟨h1, h2⟩
            · rw [if_neg hv2] at hp'
              exact h v2 u2 hp'
          · rw [if_neg h3]; exact h

theorem spLoopF_parentInv (G : Graph) (bN : List ℕ) (bE : List (ℕ × ℕ))
    (goal : ℕ) :
    ∀ (fuel : ℕ) (st st' : SPState),
      spLoopF G bN bE goal fuel st = some st' →
      ParentInv bN bE st.parent → ParentInv bN bE st'.parent := by
  intro fuel
  induction fuel with
  | zero => intro st st' h; simp [spLoopF] at h
  | succ fuel ih =>
    intro st st' h hinv
    rw [spLoopF] at h
    by_cases he : st.pq.isEmpty = true
    · rw [if_pos he] at h
      injection h with h
      rw [← h]
      exact hinv
    · rw [if_neg he] at h
      cases hpop : FibHeap.pop ltTriple st.pq with
      | mk ov pq' =>
        rw [hpop] at h
        cases ov with
        | none => simp at h
        | some dcu =>
          dsimp only at h
          by_cases h1 : ltE (st.dist dcu.2.2) (some dcu.1) = true
          · rw [if_pos h1] at h
            exact ih _ st' h hinv
          · rw [if_neg h1] at h
            by_cases h2 : dcu.2.2 = goal
            · rw [if_pos h2] at h
              injection h with h
              rw [← h]
              exact hinv
            · rw [if_neg h2] at h
              by_cases h3 : dcu.2.2 ∈ bN
              · rw [if_pos h3] at h
                exact ih _ st' h hinv
              · rw [if_neg h3] at h
                exact ih _ st' h
                  (relaxNbrs_parentInv G bN bE dcu.2.2 dcu.1 _ _ hinv)

theorem parentChain_mem_parent (parent : ℕ → Option ℕ) :
    ∀ (l : List ℕ) (a x : ℕ), isParentChain parent (a :: l) → x ∈ l →
      ∃ u, parent x = some u := by
  intro l
  induction l with
  | nil => intro a x _ hx; simp at hx
  | cons b t ih =>
    intro a x hc hx
    rcases List.mem_cons.mp hx with rfl | hx'
    · exact ⟨a, hc.1⟩
    · exact ih b x hc.2 hx'

theorem SP_with_bans_sound (G : Graph) (fuel : ℕ) (start goal : ℕ)
    (bN : List ℕ) (bE : List (ℕ × ℕ)) (p : List ℕ) (c : ℤ)
    (h : SP_with_bans G fuel start goal bN bE = some (some (p, c))) :
    p.Nodup ∧ p.head? = some start ∧ p.getLast? = some goal ∧
      (∀ x ∈ p, x ∉ bN) ∧
      (∀ b, p.get? 1 = some b → (start, b) ∉ bE) := by
  rw [SP_with_bans] at h
  by_cases hb : start ∈ bN ∨ goal ∈ bN
  · rw [if_pos hb] at h
    simp at h
  · rw [if_neg hb] at h
    push_neg at hb
    cases hloop : spLoopF G bN bE goal fuel
        ⟨upd (fun _ => none) start (some 0), fun _ => none,
          FibHeap.push ltTriple FibHeap.empty (0, 0, start), 1⟩ with
    | none => rw [hloop] at h; simp at h
    | some st =>
      rw [hloop] at h
      dsimp only at h
      cases hd : st.dist goal with
      | none => rw [hd] at h; simp at h
      | some dg =>
        rw [hd] at h
        dsimp only at h
        cases hbuild : buildPathF st.parent start fuel goal [goal] with
        | none => rw [hbuild] at h; simp at h
        | some op =>
          rw [hbuild] at h
          cases op with
          | none => simp at h
          | some p0 =>
            simp only [Option.some.injEq, Prod.mk.injEq] at h
            obtain ⟨hp0, _⟩ := h
            subst hp0
            have hinv : ParentInv bN bE st.parent := by
              apply spLoopF_parentInv G bN bE goal fuel _ st hloop
              intro v u hp
              simp at hp
            obtain ⟨ys, hys1, hys2, hys3, hys4⟩ :=
              buildPathF_sound st.parent start fuel goal [] p0 hbuild
                trivial (by simp)
            subst hys1
            refine ⟨parentChain_nodup st.parent start ys hys3 hys2,
              rfl, hys4, ?_, ?_⟩
            · intro x hx
              rcases List.mem_cons.mp hx with rfl | hx'
              · exact hb.1
              · obtain ⟨u, hu⟩ := parentChain_mem_parent st.parent ys start x
                  hys3 hx'
                exact (hinv x u hu).1
            · intro b hbnd
              cases ys with
              | nil => simp at hbnd
              | cons b2 t =>
                have hb2 : b2 = b := by
                  simpa using hbnd
                subst hb2
                exact (hinv b2 start hys3.1).2

theorem getLast?_mem {α : Type} :
    ∀ (l : List α) (x : α), l.getLast? = some x → x ∈ l := by
  intro l
  induction l with
  | nil => intro x h; simp at h
  | cons a t ih =>
    intro x h
    cases t with
    | nil =>
      simp only [List.getLast?_singleton, Option.some.injEq] at h
      simp [h]
    | cons b t2 =>
      rw [List.getLast?_cons_cons] at h
      exact List.mem_cons_of_mem a (ih x h)

theorem getLast?_cons_ne_nil {α : Type} (a : α) (l : List α) (h : l ≠ []) :
    (a :: l).getLast? = l.getLast? := by
  cases l with
  | nil => exact absurd rfl h
  | cons b t => rw [List.getLast?_cons_cons]

theorem take_getLast? :
    ∀ (l : List ℕ) (i : ℕ), i < l.length →
      (l.take (i + 1)).getLast? = l.get? i := by
  intro l
  induction l with
  | nil => intro i h; simp at h
  | cons a t ih =>
    intro i h
    cases i with
    | zero => rfl
    | succ j =>
      have hj : j < t.length := by simpa using h
      have ht : t ≠ [] := by
        intro he
        rw [he] at hj
        simp at hj
      have htk : t.take (j + 1) ≠ [] := by
        cases t with
        | nil => exact absurd rfl ht
        | cons c r => simp [List.take]
      show (a :: t.take (j + 1)).getLast? = t.get? j
      rw [getLast?_cons_ne_nil a _ htk]
      exact ih j hj

theorem dropLast_append_getLast?_eq :
    ∀ (l : List ℕ) (z : ℕ), l.getLast? = some z → l.dropLast ++ [z] = l := by
  intro l
  induction l with
  | nil => intro z h; simp at h
  | cons a t ih =>
    intro z h
    cases t with
    | nil =>
      simp only [List.getLast?_singleton, Option.some.injEq] at h
      rw [h]
      rfl
    | cons b t2 =>
      rw [List.getLast?_cons_cons] at h
      have := ih z h
      show a :: ((b :: t2).dropLast ++ [z]) = a :: (b :: t2)
      rw [this]

/-- one unfolding step of `bannedEdgesFor`. -/
theorem bannedEdgesFor_cons (G : Graph) (i : ℕ) (root : List ℕ)
    (qc : List ℕ × EInt) (A : List (List ℕ × EInt)) :
    bannedEdgesFor G (qc :: A) i root =
      match bannedEdgesFor G A i root with
      | none => none
      | some es =>
        if i < qc.1.length ∧ qc.1.take (i + 1) = root then
          match qc.1.get? i, qc.1.get? (i + 1) with
          | some u, some v =>
            some ((if G.directed then [(u, v)] else [(u, v), (v, u)]) ++ es)
          | _, _ => none
        else some es := rfl

theorem bannedEdgesFor_mem (G : Graph) (i : ℕ) (root : List ℕ) :
    ∀ (A : List (List ℕ × EInt)) (bE : List (ℕ × ℕ)),
      bannedEdgesFor G A i root = some bE →
      ∀ pc ∈ A, i < pc.1.length → pc.1.take (i + 1) = root →
      ∃ u v, pc.1.get? i = some u ∧ pc.1.get? (i + 1) = some v ∧
        (u, v) ∈ bE := by
  intro A
  induction A with
  | nil => intro bE _ pc hpc; simp at hpc
  | cons qc A' ih =>
    intro bE h pc hpc hlen htake
    rw [bannedEdgesFor_cons] at h
    cases hA' : bannedEdgesFor G A' i root with
    | none => rw [hA'] at h; simp at h
    | some es =>
      rw [hA'] at h
      dsimp only at h
      rcases List.mem_cons.mp hpc with rfl | hpc'
      · rw [if_pos ⟨hlen, htake⟩] at h
        cases hu : pc.1.get? i with
        | none =>
          exfalso
          rw [List.get?_eq_none] at hu
          omega
        | some u =>
          rw [hu] at h
          cases hv : pc.1.get? (i + 1) with
          | none => rw [hv] at h; simp at h
          | some v =>
            rw [hv] at h
            simp only [Option.some.injEq] at h
            refine ⟨u, v, rfl, rfl, ?_⟩
            rw [← h]
            apply List.mem_append_left
            by_cases hd : G.directed = true
            · rw [if_pos hd]; simp
            · rw [if_neg hd]; simp
      · have hsub : ∀ e ∈ es, e ∈ bE := by
          by_cases hc : i < qc.1.length ∧ qc.1.take (i + 1) = root
          · rw [if_pos hc] at h
            cases hu : qc.1.get? i with
            | none => rw [hu] at h; simp at h
            | some u =>
              rw [hu] at h
              cases hv : qc.1.get? (i + 1) with
              | none => rw [hv] at h; simp at h
              | some v =>
                rw [hv] at h
                simp only [Option.some.injEq] at h
                intro e he
                rw [← h]
                exact List.mem_append_right _ he
          · rw [if_neg hc] at h
            simp only [Option.some.injEq] at h
            intro e he
            rw [← h]
            exact he
        obtain ⟨u, v, h1, h2, h3⟩ := ih es hA' pc hpc' hlen htake
        exact ⟨u, v, h1, h2, hsub _ h3⟩

/-- the invariant of `yen`'s main loop: paths in `A` are simple and
pairwise distinct; every candidate in `B` is a simple path recorded in
`cand_seen`, differs from every path of `A`, and occurs at most once. -/
def YenInv (A : List (List ℕ × EInt)) (st : YState) : Prop :=
  (∀ pc ∈ A, pc.1.Nodup) ∧
  List.Pairwise (fun pc qc => pc.1 ≠ qc.1) A ∧
  (∀ v ∈ FibTree.valsL st.B.trees,
    v.2.2.Nodup ∧ (∀ pc ∈ A, pc.1 ≠ v.2.2) ∧ v.2.2 ∈ st.cand) ∧
  (∀ p : List ℕ,
    Multiset.countP (fun v => v.2.2 = p)
      (↑(FibTree.valsL st.B.trees) : Multiset (EInt × ℕ × List ℕ)) ≤ 1)

theorem spurStep_inv (G : Graph) (fuel target : ℕ)
    (A : List (List ℕ × EInt)) (last : List ℕ) (i : ℕ) (st st' : YState)
    (h : spurStep G fuel target A last i st = some st')
    (hlast : last.Nodup) (hinv : YenInv A st) : YenInv A st' := by
  rw [spurStep] at h
  cases hsn : last.get? i with
  | none => rw [hsn] at h; simp at h
  | some spur_node =>
    rw [hsn] at h
    dsimp only at h
    cases hbe : bannedEdgesFor G A i (last.take (i + 1)) with
    | none => rw [hbe] at h; simp at h
    | some bE =>
      rw [hbe] at h
      dsimp only at h
      cases hsp : SP_with_bans G fuel spur_node target
          (last.take (i + 1)).dropLast bE with
      | none => rw [hsp] at h; simp at h
      | some osp =>
        rw [hsp] at h
        cases osp with
        | none =>
          injection h with h
          rw [← h]
          exact hinv
        | some sp =>
          dsimp only at h
          by_cases hmem : (last.take (i + 1)).dropLast ++ sp.1 ∈ st.cand
          · rw [if_pos hmem] at h
            injection h with h
            rw [← h]
            exact hinv
          · rw [if_neg hmem] at h
            injection h with h
            obtain ⟨hspN, hspH, hspL, hspBN, hspE⟩ :=
              SP_with_bans_sound G fuel spur_node target
                (last.take (i + 1)).dropLast bE sp.1 sp.2 (by rw [hsp])
            obtain ⟨hlen_i, _⟩ := List.get?_eq_some.mp hsn
            have hrootlen : (last.take (i + 1)).length = i + 1 := by
              rw [List.length_take]
              omega
            have hrootlast : (last.take (i + 1)).getLast? = some spur_node := by
              rw [take_getLast? last i hlen_i]
              exact hsn
            have hrootN : (last.take (i + 1)).Nodup :=
              (List.take_sublist (i + 1) last).nodup hlast
            have hdle : (last.take (i + 1)).dropLast ++ [spur_node] =
                last.take (i + 1) :=
              dropLast_append_getLast?_eq _ spur_node hrootlast
            have hdlen : (last.take (i + 1)).dropLast.length = i := by
              rw [List.length_dropLast, hrootlen]
              omega
            have hspne : sp.1 ≠ [] := by
              intro he
              rw [he] at hspH
              simp at hspH
            have htake1 : sp.1.take 1 = [spur_node] := by
              cases hq : sp.1 with
              | nil => exact absurd hq hspne
              | cons a tl =>
                rw [hq] at hspH
                simp only [List.head?_cons, Option.some.injEq] at hspH
                rw [hspH]
                rfl
            have hget0 : sp.1.get? 0 = some spur_node := by
              rw [List.get?_zero]
              exact hspH
            have hdltake : (last.take (i + 1)).dropLast.take (i + 1) =
                (last.take (i + 1)).dropLast :=
              List.take_of_length_le (by rw [hdlen]; omega)
            have htotTake :
                ((last.take (i + 1)).dropLast ++ sp.1).take (i + 1) =
                  last.take (i + 1) := by
              rw [List.take_append_eq_append_take, hdltake, hdlen,
                show i + 1 - i = 1 by omega, htake1]
              exact hdle
            have htotGet_i :
                ((last.take (i + 1)).dropLast ++ sp.1).get? i =
                  some spur_node := by
              rw [List.get?_append_right hdlen.le, hdlen]
              simpa using hget0
            have htotGet_i1 :
                ((last.take (i + 1)).dropLast ++ sp.1).get? (i + 1) =
                  sp.1.get? 1 := by
              rw [List.get?_append_right (by rw [hdlen]; omega), hdlen,
                show i + 1 - i = 1 by omega]
            have htotlen : i + 1 ≤
                ((last.take (i + 1)).dropLast ++ sp.1).length := by
              rw [List.length_append, hdlen]
              have : 0 < sp.1.length := List.length_pos.mpr hspne
              omega
            have hban : ∀ pc ∈ A,
                pc.1 ≠ (last.take (i + 1)).dropLast ++ sp.1 := by
              intro pc hpc heq
              obtain ⟨u, v, hu, hv, hmemE⟩ :=
                bannedEdgesFor_mem G i (last.take (i + 1)) A bE hbe pc hpc
                  (by rw [heq]; omega) (by rw [heq]; exact htotTake)
              rw [heq, htotGet_i] at hu
              rw [heq, htotGet_i1] at hv
              injection hu with hu
              rw [← hu] at hmemE
              exact hspE v hv hmemE
            have htotN : ((last.take (i + 1)).dropLast ++ sp.1).Nodup := by
              apply List.Nodup.append
              · exact (List.dropLast_sublist _).nodup hrootN
              · exact hspN
              · intro a ha1 ha2
                exact hspBN a ha2 ha1
            obtain ⟨inv1, inv2, inv3, inv4⟩ := hinv
            have hperm := fibHeap_push_vals ltB st.B
              (eadd (pathWeightE G (last.take (i + 1))) (some sp.2), st.tie,
                (last.take (i + 1)).dropLast ++ sp.1)
            rw [← h]
            refine ⟨inv1, inv2, ?_, ?_⟩
            · intro v hv
              have hvm : v ∈ ((eadd (pathWeightE G (last.take (i + 1)))
                  (some sp.2), st.tie,
                  (last.take (i + 1)).dropLast ++ sp.1) ::ₘ
                    ↑(FibTree.valsL st.B.trees)) := by
                rw [← hperm]
                exact Multiset.mem_coe.mpr hv
              rcases Multiset.mem_cons.mp hvm with rfl | hvold
              · exact ⟨htotN, hban, by simp⟩
              · have hold := inv3 v (Multiset.mem_coe.mp hvold)
                exact ⟨hold.1, hold.2.1, List.mem_cons_of_mem _ hold.2.2⟩
            · intro p
              rw [hperm, Multiset.countP_cons]
              by_cases hp : (last.take (i + 1)).dropLast ++ sp.1 = p
              · have hzero : Multiset.countP (fun v => v.2.2 = p)
                    (↑(FibTree.valsL st.B.trees) :
                      Multiset (EInt × ℕ × List ℕ)) = 0 := by
                  by_contra hnz
                  have hpos : 0 < Multiset.countP (fun v => v.2.2 = p)
                      (↑(FibTree.valsL st.B.trees) :
                        Multiset (EInt × ℕ × List ℕ)) :=
                    Nat.pos_of_ne_zero hnz
                  obtain ⟨a, ha, hap⟩ := Multiset.countP_pos.mp hpos
                  have := (inv3 a (Multiset.mem_coe.mp ha)).2.2
                  rw [hap, ← hp] at this
                  exact hmem this
                rw [hzero]
                rw [if_pos hp]
              · rw [if_neg (by simpa using hp)]
                simpa using inv4 p

theorem spurLoop_inv (G : Graph) (fuel target : ℕ)
    (A : List (List ℕ × EInt)) (last : List ℕ) (hlast : last.Nodup) :
    ∀ (idxs : List ℕ) (st st' : YState),
      spurLoop G fuel target A last idxs st = some st' →
      YenInv A st → YenInv A st' := by
  intro idxs
  induction idxs with
  | nil =>
    intro st st' h hinv
    injection h with h
    rw [← h]
    exact hinv
  | cons i rest ih =>
    intro st st' h hinv
    rw [spurLoop] at h
    cases hs : spurStep G fuel target A last i st with
    | none => rw [hs] at h; simp at h
    | some st1 =>
      rw [hs] at h
      exact ih st1 st' h
        (spurStep_inv G fuel target A last i st st1 hs hlast hinv)

theorem yenIter_inv (G : Graph) (fuel target : ℕ) :
    ∀ (k : ℕ) (A : List (List ℕ × EInt)) (st : YState)
      (A' : List (List ℕ × EInt)),
      yenIter G fuel target k A st = some A' →
      YenInv A st →
      (∀ pc ∈ A', pc.1.Nodup) ∧
        List.Pairwise (fun pc qc => pc.1 ≠ qc.1) A' := by
  intro k
  induction k with
  | zero =>
    intro A st A' h hinv
    injection h with h
    rw [← h]
    exact ⟨hinv.1, hinv.2.1⟩
  | succ k ih =>
    intro A st A' h hinv
    rw [yenIter] at h
    cases hlp : A.getLast? with
    | none => rw [hlp] at h; simp at h
    | some lastPC =>
      rw [hlp] at h
      dsimp only at h
      cases hloop : spurLoop G fuel target A lastPC.1
          (List.range (lastPC.1.length - 1)) st with
      | none => rw [hloop] at h; simp at h
      | some st1 =>
        rw [hloop] at h
        dsimp only at h
        have hlastmem : lastPC ∈ A := getLast?_mem A lastPC hlp
        have hinv1 := spurLoop_inv G fuel target A lastPC.1
          (hinv.1 lastPC hlastmem) _ st st1 hloop hinv
        by_cases hbe : st1.B.isEmpty = true
        · rw [if_pos hbe] at h
          injection h with h
          rw [← h]
          exact ⟨hinv1.1, hinv1.2.1⟩
        · rw [if_neg hbe] at h
          cases hpop : FibHeap.pop ltB st1.B with
          | mk ov B2 =>
            rw [hpop] at h
            cases ov with
            | none => simp at h
            | some ckp =>
              dsimp only at h
              obtain ⟨inv1, inv2, inv3, inv4⟩ := hinv1
              have hperm := fibHeap_pop_vals ltB st1.B ckp B2 hpop
              have hckp : ckp ∈ FibTree.valsL st1.B.trees := by
                have hm : ckp ∈ (↑(FibTree.valsL st1.B.trees) :
                    Multiset (EInt × ℕ × List ℕ)) := by
                  rw [hperm]
                  exact Multiset.mem_cons_self _ _
                exact Multiset.mem_coe.mp hm
              obtain ⟨hckpN, hckpA, hckpC⟩ := inv3 ckp hckp
              have hcount0 : Multiset.countP (fun v => v.2.2 = ckp.2.2)
                  (↑(FibTree.valsL B2.trees) :
                    Multiset (EInt × ℕ × List ℕ)) = 0 := by
                have h1 := inv4 ckp.2.2
                rw [hperm, Multiset.countP_cons, if_pos rfl] at h1
                omega
              apply ih (A ++ [(ckp.2.2, ckp.1)]) ⟨B2, st1.cand, st1.tie⟩ A' h
              refine ⟨?_, ?_, ?_, ?_⟩
              · intro pc hpc
                rcases List.mem_append.mp hpc with h1 | h1
                · exact inv1 pc h1
                · simp only [List.mem_singleton] at h1
                  rw [h1]
                  exact hckpN
              · rw [List.pairwise_append]
                refine ⟨inv2, by simp, ?_⟩
                intro a ha b hb
                simp only [List.mem_singleton] at hb
                rw [hb]
                exact hckpA a ha
              · intro v hv
                have hvB : v ∈ FibTree.valsL st1.B.trees := by
                  have hm : v ∈ (↑(FibTree.valsL st1.B.trees) :
                      Multiset (EInt × ℕ × List ℕ)) := by
                    rw [hperm]
                    exact Multiset.mem_cons_of_mem (Multiset.mem_coe.mpr hv)
                  exact Multiset.mem_coe.mp hm
                obtain ⟨hvN, hvA, hvC⟩ := inv3 v hvB
                refine ⟨hvN, ?_, hvC⟩
                intro pc hpc
                rcases List.mem_append.mp hpc with h1 | h1
                · exact hvA pc h1
                · simp only [List.mem_singleton] at h1
                  rw [h1]
                  intro heq
                  have hpos : 0 < Multiset.countP (fun w => w.2.2 = ckp.2.2)
                      (↑(FibTree.valsL B2.trees) :
                        Multiset (EInt × ℕ × List ℕ)) := by
                    apply Multiset.countP_pos.mpr
                    exact ⟨v, Multiset.mem_coe.mpr hv, heq.symm⟩
                  omega
              · intro p
                have h1 := inv4 p
                rw [hperm, Multiset.countP_cons] at h1
                show Multiset.countP (fun v => v.2.2 = p)
                  (↑(FibTree.valsL B2.trees) :
                    Multiset (EInt × ℕ × List ℕ)) ≤ 1
                omega

/-- C7 is corrected: the cost-monotonicity part of the claim is false
(see the counterexample), but every run of `yen` that completes returns
only loopless paths, pairwise distinct as node sequences, for every
graph, source, target and K. -/
theorem C7_yen_loopless_distinct (G : Graph) (fuel source target K : ℕ)
    (A : List (List ℕ × EInt)) (h : yen G fuel source target K = some A) :
    (∀ pc ∈ A, pc.1.Nodup) ∧
      List.Pairwise (fun pc qc => pc.1 ≠ qc.1) A := by
  rw [yen] at h
  by_cases hst : source = target
  · rw [if_pos hst] at h
    injection h with h
    rw [← h]
    constructor
    · intro pc hpc
      simp only [List.mem_singleton] at hpc
      rw [hpc]
      simp
    · simp
  · rw [if_neg hst] at h
    cases hsp : SP_with_bans G fuel source target [] [] with
    | none => rw [hsp] at h; simp at h
    | some osp =>
      rw [hsp] at h
      cases osp with
      | none =>
        injection h with h
        rw [← h]
        simp
      | some first =>
        dsimp only at h
        obtain ⟨hfN, _, _, _, _⟩ :=
          SP_with_bans_sound G fuel source target [] [] first.1 first.2
            (by rw [hsp])
        apply yenIter_inv G fuel target (K - 1) [(first.1, some first.2)]
          ⟨FibHeap.empty, [], 0⟩ A h
        refine ⟨?_, by simp, ?_, ?_⟩
        · intro pc hpc
          simp only [List.mem_singleton] at hpc
          rw [hpc]
          exact hfN
        · intro v hv
          simp [FibHeap.empty, FibTree.valsL] at hv
        · intro p
          show Multiset.countP (fun v => v.2.2 = p)
            (↑(FibTree.valsL ([] : List (FibTree (EInt × ℕ × List ℕ)))) :
              Multiset (EInt × ℕ × List ℕ)) ≤ 1
          simp [FibTree.valsL]

/-- witness for the amended C7: the counterexample run itself returns
two loopless, distinct paths. -/
theorem C7_witness :
    yen gW7 20 0 2 2 = some [([0, 2], some 1), ([0, 1, 2], some 0)] ∧
    (∀ pc ∈ [([0, 2], (some 1 : EInt)), ([0, 1, 2], some 0)], pc.1.Nodup) ∧
    List.Pairwise (fun pc qc => pc.1 ≠ qc.1)
      [([0, 2], (some 1 : EInt)), ([0, 1, 2], some 0)] := by
  refine ⟨by decide, ?_⟩
  exact C7_yen_loopless_distinct gW7 20 0 2 2
    [([0, 2], (some 1 : EInt)), ([0, 1, 2], some 0)] (by decide)

/-! ## LPA* (`src/algorithms/LPAs.py`): the queue holds exactly the
locally-inconsistent nodes -/

theorem eq_of_leEP_leEP {a b : EInt} (h1 : leEP a b) (h2 : leEP b a) :
    a = b := by
  cases a <;> cases b <;> simp_all [leEP, ltE] <;> omega

theorem ltE_of_leEP_ne {a b : EInt} (h1 : leEP a b) (h2 : a ≠ b) :
    ltE a b = true := by
  cases a <;> cases b <;> simp_all [leEP, ltE] <;> omega

theorem ltE_asymm {a b : EInt} (h : ltE a b = true) : ltE b a = false := by
  cases a <;> cases b <;> simp_all [ltE] <;> omega

/-- Python `min` of two extended values (keeps the first on ties). -/
def minE (a b : EInt) : EInt := if ltE b a then b else a

theorem minE_le_left (a b : EInt) : leEP (minE a b) a := by
  rw [minE]
  by_cases h : ltE b a = true
  · rw [if_pos h]
    exact leEP_of_ltE h
  · rw [if_neg h]
    exact leEP_refl a

theorem minE_le_right (a b : EInt) : leEP (minE a b) b := by
  rw [minE]
  by_cases h : ltE b a = true
  · rw [if_pos h]
    exact leEP_refl b
  · rw [if_neg h]
    exact (Bool.not_eq_true _).mp h

theorem minE_eq_or (a b : EInt) : minE a b = a ∨ minE a b = b := by
  rw [minE]
  by_cases h : ltE b a = true
  · rw [if_pos h]; exact Or.inr rfl
  · rw [if_neg h]; exact Or.inl rfl

theorem minE_mono {a b c d : EInt} (h1 : leEP a c) (h2 : leEP b d) :
    leEP (minE a b) (minE c d) := by
  rcases minE_eq_or c d with h | h <;> rw [h]
  · exact leEP_trans (minE_le_left a b) h1
  · exact leEP_trans (minE_le_right a b) h2

/-- `g_val(s) + w(s, u)` (`inf` absorbs). -/
def eaddW (x : EInt) (w : Option ℤ) : EInt :=
  match x, w with
  | some a, some b => some (a + b)
  | _, _ => none

theorem eaddW_mono {x y : EInt} (w : Option ℤ) (h : leEP x y) :
    leEP (eaddW x w) (eaddW y w) := by
  cases x <;> cases y <;> cases w <;> simp_all [eaddW, leEP, ltE] <;> omega

/-- an item is live in the heap (it is a key of the `finder` dict). -/
def liveAt {P : Type} (heap : List (Entry P)) (u : ℕ) : Prop :=
  ∃ e ∈ heap, e.tag = some u

/-- each item has at most one live entry (the `finder` well-formedness). -/
def PQWF {P : Type} (heap : List (Entry P)) : Prop :=
  ∀ u, (liveList heap).countP (fun e => e.tag = some u) ≤ 1

theorem liveAt_liveList {P : Type} (heap : List (Entry P)) (u : ℕ) :
    liveAt heap u ↔ ∃ e ∈ liveList heap, e.tag = some u := by
  constructor
  · rintro ⟨e, he, ht⟩
    exact ⟨e, List.mem_filter.mpr ⟨he, by simp [ht]⟩, ht⟩
  · rintro ⟨e, he, ht⟩
    exact ⟨e, (List.mem_filter.mp he).1, ht⟩

theorem liveAt_countP {P : Type} (heap : List (Entry P)) (u : ℕ) :
    liveAt heap u ↔
      0 < (liveList heap).countP (fun e => e.tag = some u) := by
  rw [liveAt_liveList, List.countP_pos]
  simp

theorem push_liveAt {P : Type} [DecidableEq P] (s : LazyPQ P) (item : ℕ)
    (pri : P) (v : ℕ) :
    liveAt (LazyPQ.push s item pri).heap v ↔ v = item ∨ liveAt s.heap v := by
  constructor
  · rintro ⟨e, he, ht⟩
    rcases List.mem_append.mp he with hm | hm
    · obtain ⟨e0, he0, hmap⟩ := List.mem_map.mp hm
      by_cases h0 : e0.tag = some item
      · rw [if_pos h0] at hmap
        rw [← hmap] at ht
        simp at ht
      · rw [if_neg h0] at hmap
        right
        exact ⟨e0, he0, by rw [hmap]; exact ht⟩
    · simp only [List.mem_singleton] at hm
      rw [hm] at ht
      simp only [Option.some.injEq] at ht
      exact Or.inl ht.symm
  · intro h
    rcases h with rfl | ⟨e, he, ht⟩
    · exact ⟨⟨pri, some v⟩, List.mem_append_right _ (by simp), rfl⟩
    · by_cases hv : v = item
      · exact ⟨⟨pri, some item⟩, List.mem_append_right _ (by simp),
          by rw [hv]⟩
      · refine ⟨{ e with tag := e.tag }, ?_, ht⟩
        apply List.mem_append_left
        apply List.mem_map.mpr
        refine ⟨e, he, ?_⟩
        rw [if_neg (by rw [ht]; simp [hv])]

theorem liveList_append {P : Type} (a b : List (Entry P)) :
    liveList (a ++ b) = liveList a ++ liveList b := by
  simp [liveList, List.filter_append]

theorem liveList_cons {P : Type} (e : Entry P) (l : List (Entry P)) :
    liveList (e :: l) =
      if e.tag.isSome then e :: liveList l else liveList l := by
  simp [liveList, List.filter_cons]

theorem countP_live_tombstone {P : Type} [DecidableEq P] (item u : ℕ) :
    ∀ (l : List (Entry P)),
      (liveList (l.map fun e =>
        if e.tag = some item then { e with tag := none } else e)).countP
        (fun e => e.tag = some u) ≤
      (liveList l).countP (fun e => e.tag = some u) := by
  intro l
  induction l with
  | nil => simp [liveList]
  | cons e rest ih =>
    simp only [List.map_cons]
    by_cases h0 : e.tag = some item
    · rw [if_pos h0, liveList_cons, liveList_cons,
        if_neg (by simp), if_pos (by rw [h0]; simp), List.countP_cons]
      omega
    · rw [if_neg h0, liveList_cons, liveList_cons]
      cases hs : e.tag.isSome with
      | false =>
        rw [if_neg (by simp [hs]), if_neg (by simp [hs])]
        exact ih
      | true =>
        rw [if_pos (by simp [hs]), if_pos (by simp [hs]),
          List.countP_cons, List.countP_cons]
        omega

theorem push_PQWF {P : Type} [DecidableEq P] (s : LazyPQ P) (item : ℕ)
    (pri : P) (h : PQWF s.heap) : PQWF (LazyPQ.push s item pri).heap := by
  intro u
  show ((liveList ((s.heap.map fun e =>
    if e.tag = some item then { e with tag := none } else e) ++
    [⟨pri, some item⟩])).countP (fun e => e.tag = some u)) ≤ 1
  rw [liveList_append, List.countP_append]
  have ha := countP_live_tombstone item u s.heap
  by_cases hu : u = item
  · have hz : (liveList (s.heap.map fun e =>
        if e.tag = some item then { e with tag := none } else e)).countP
        (fun e => e.tag = some u) = 0 := by
      rw [List.countP_eq_zero]
      intro e he
      obtain ⟨e0, he0, hmap⟩ := List.mem_map.mp
        ((List.mem_filter.mp he).1)
      by_cases h0 : e0.tag = some item
      · rw [if_pos h0] at hmap
        have hlv := (List.mem_filter.mp he).2
        rw [← hmap] at hlv
        simp at hlv
      · rw [if_neg h0] at hmap
        rw [← hmap]
        simp only [decide_eq_true_eq]
        rw [hu]
        exact h0
    have hb : (liveList [(⟨pri, some item⟩ : Entry P)]).countP
        (fun e => e.tag = some u) ≤ 1 := by
      have hl : liveList [(⟨pri, some item⟩ : Entry P)] =
          [(⟨pri, some item⟩ : Entry P)] := by simp [liveList]
      rw [hl, List.countP_cons]
      simp only [List.countP_nil]
      split <;> omega
    omega
  · have hb0 : (liveList [(⟨pri, some item⟩ : Entry P)]).countP
        (fun e => e.tag = some u) = 0 := by
      simp [liveList, hu]
      exact fun h2 => hu h2.symm
    have hle := h u
    omega

theorem pop_liveAt {P : Type} [DecidableEq P] (ltP : P → P → Bool)
    (s : LazyPQ P) (k : P) (u : ℕ) (s' : LazyPQ P)
    (h : LazyPQ.pop ltP s = .ok ((k, u), s')) (hwf : PQWF s.heap) :
    liveAt s.heap u ∧ ¬ liveAt s'.heap u ∧
      (∀ v, v ≠ u → (liveAt s'.heap v ↔ liveAt s.heap v)) ∧
      PQWF s'.heap := by
  rw [LazyPQ.pop] at h
  cases hp : LazyPQ.popLoop ltP s.heap with
  | none => rw [hp] at h; simp at h
  | some pr =>
    rw [hp] at h
    obtain ⟨⟨p, i⟩, rest⟩ := pr
    simp only [Except.ok.injEq, Prod.mk.injEq] at h
    obtain ⟨⟨hk, hi⟩, hs⟩ := h
    obtain ⟨hmem, _, hperm⟩ := popLoop_struct ltP s.heap p i rest hp
    have hcu := hperm.countP_eq (fun e => decide (e.tag = some i))
    rw [List.countP_cons, if_pos (by simp)] at hcu
    have hwfu := hwf i
    have c1 : liveAt s.heap i := ⟨⟨p, some i⟩, hmem, rfl⟩
    have c2 : ¬ liveAt rest i := by
      rw [liveAt_countP]
      simp only [liveList] at hcu hwfu ⊢
      omega
    have c3 : ∀ v, v ≠ i → (liveAt rest v ↔ liveAt s.heap v) := by
      intro v hv
      have hcv := hperm.countP_eq (fun e => decide (e.tag = some v))
      rw [List.countP_cons, if_neg (by simp [Ne.symm hv])] at hcv
      rw [liveAt_countP, liveAt_countP]
      simp only [liveList] at hcv ⊢
      omega
    have c4 : PQWF rest := by
      intro v
      have hcv := hperm.countP_eq (fun e => decide (e.tag = some v))
      rw [List.countP_cons] at hcv
      have hwfv := hwf v
      show (liveList rest).countP (fun e => e.tag = some v) ≤ 1
      split at hcv <;> omega
    rw [← hi, ← hs]
    exact ⟨c1, c2, c3, c4⟩

/-! the LPA* search (`lpa_star` lines 113-132 with its helpers; the
heuristic is abstracted as `hf u = heuristic(u, target)`, zero by
default in the source). -/

/-- Python tuple `<` on keys `(m + h, m)`. -/
def ltKey (a b : EInt × EInt) : Bool :=
  if ltE a.1 b.1 then true
  else if ltE b.1 a.1 then false
  else ltE a.2 b.2

/-- predecessor iteration (`G.predecessors(u)` when directed, else
`G.neighbors(u)`). -/
def predsL (G : Graph) (u : ℕ) : List ℕ :=
  if G.directed then
    G.edges.filterMap (fun e => if e.2.1 = u then some e.1 else none)
  else nbrs G u

/-- `rhs[u] = min((g_val(s) + w(s, u) for s in preds(u)), default=INF)`. -/
def computeRhs (G : Graph) (g : ℕ → EInt) (u : ℕ) : EInt :=
  (predsL G u).foldl (fun acc s => minE acc (eaddW (g s) (weightQ G s u)))
    none

/-- `calculate_key`. -/
def calcKey (hf : ℕ → ℤ) (g rhs : ℕ → EInt) (u : ℕ) : EInt × EInt :=
  (addE (minE (g u) (rhs u)) (hf u), minE (g u) (rhs u))

/-- the mutable state of the search: the `g` and `rhs` dicts (`none` =
absent = `INF`) and the queue. -/
structure LState where
  g : ℕ → EInt
  rhs : ℕ → EInt
  pq : LazyPQ (EInt × EInt)

/-- `update_vertex`. -/
def update_vertex (G : Graph) (hf : ℕ → ℤ) (source u : ℕ)
    (st : LState) : LState :=
  let rhs' := if u ≠ source then upd st.rhs u (computeRhs G st.g u)
    else st.rhs
  if rhs' u ≠ st.g u then
    ⟨st.g, rhs', LazyPQ.push st.pq u (calcKey hf st.g rhs' u)⟩
  else ⟨st.g, rhs', st.pq⟩

/-- the `for s in succs(u): update_vertex(s, pq)` loop, also emitting the
state after each `update_vertex` call. -/
def updateSuccsT (G : Graph) (hf : ℕ → ℤ) (source : ℕ) :
    List ℕ → LState → LState × List LState
  | [], st => (st, [])
  | s :: rest, st =>
    let st1 := update_vertex G hf source s st
    let r := updateSuccsT G hf source rest st1
    (r.1, st1 :: r.2)

/-- `pq_top_key` (pops a live entry and re-pushes it with its current
key; `none` models the unreachable `KeyError`). -/
def pq_top_key (hf : ℕ → ℤ) (st : LState) :
    Option ((EInt × EInt) × LazyPQ (EInt × EInt)) :=
  if st.pq.isEmpty then some ((none, none), st.pq)
  else
    match LazyPQ.pop ltKey st.pq with
    | .error _ => none
    | .ok ((_, u), pq') =>
      some (calcKey hf st.g st.rhs u,
        LazyPQ.push pq' u (calcKey hf st.g st.rhs u))

/-- the termination check at the top of the main loop: `none` = crash,
`inl` = break, `inr` = fall through (with the queue as mutated by
`pq_top_key`). -/
def lpaCheck (hf : ℕ → ℤ) (target : ℕ) (st : LState) :
    Option (LState ⊕ LState) :=
  if st.rhs target = st.g target then
    match pq_top_key hf st with
    | none => none
    | some kpq =>
      if ltKey kpq.1 (calcKey hf st.g st.rhs target) then
        some (Sum.inr ⟨st.g, st.rhs, kpq.2⟩)
      else some (Sum.inl ⟨st.g, st.rhs, kpq.2⟩)
  else some (Sum.inr st)

/-- the `while True` loop of `lpa_star`, instrumented: returns the list
of states right after each `update_vertex` call and the list of
`(u, rhs[u], g[u])` observed at each live pop, along with the final
state (`none` = fuel ran out or the Python code would crash). -/
def lpaLoopT (G : Graph) (hf : ℕ → ℤ) (source target : ℕ) :
    ℕ → LState → (List LState × List (ℕ × EInt × EInt)) × Option LState
  | 0, _ => (([], []), none)
  | Nat.succ fuel, st =>
    match lpaCheck hf target st with
    | none => (([], []), none)
    | some (Sum.inl stB) => (([], []), some stB)
    | some (Sum.inr st1) =>
      match LazyPQ.pop ltKey st1.pq with
      | .error _ => (([], []), none)
      | .ok ((k_old, u), pq1) =>
        if ltKey k_old (calcKey hf st1.g st1.rhs u) then
          let r := lpaLoopT G hf source target fuel
            ⟨st1.g, st1.rhs, LazyPQ.push pq1 u (calcKey hf st1.g st1.rhs u)⟩
          ((r.1.1, (u, st1.rhs u, st1.g u) :: r.1.2), r.2)
        else
          if ltE (st1.rhs u) (st1.g u) then
            let su := updateSuccsT G hf source (nbrs G u)
              ⟨upd st1.g u (st1.rhs u), st1.rhs, pq1⟩
            let r := lpaLoopT G hf source target fuel su.1
            ((su.2 ++ r.1.1, (u, st1.rhs u, st1.g u) :: r.1.2), r.2)
          else
            let st3 := update_vertex G hf source u
              ⟨upd st1.g u none, st1.rhs, pq1⟩
            let su := updateSuccsT G hf source (nbrs G u) st3
            let r := lpaLoopT G hf source target fuel su.1
            ((st3 :: (su.2 ++ r.1.1), (u, st1.rhs u, st1.g u) :: r.1.2),
              r.2)

/-- the state of `lpa_star` just before the main loop:
`g[source] = INF`, `rhs[source] = 0`, the queue holds `source`. -/
def lpaInit (hf : ℕ → ℤ) (source : ℕ) : LState :=
  ⟨fun _ => none, upd (fun _ => none) source (some 0),
    LazyPQ.push ⟨[]⟩ source
      (calcKey hf (fun _ => none) (upd (fun _ => none) source (some 0))
        source)⟩

/-- the instrumented run of the `lpa_star` search loop. -/
def lpa_star_loopTrace (G : Graph) (hf : ℕ → ℤ) (source target : ℕ)
    (fuel : ℕ) : (List LState × List (ℕ × EInt × EInt)) × Option LState :=
  lpaLoopT G hf source target fuel (lpaInit hf source)

theorem leEP_none_right (x : EInt) : leEP x none := rfl

/-- the loop invariant of the `lpa_star` search: the queue is
well-formed, holds exactly the locally-inconsistent nodes, `rhs ≤ g`
pointwise, and each stored `rhs` dominates its current recomputation. -/
def LpaInv (G : Graph) (source : ℕ) (st : LState) : Prop :=
  PQWF st.pq.heap ∧
  (∀ v, liveAt st.pq.heap v ↔ st.rhs v ≠ st.g v) ∧
  (∀ v, leEP (st.rhs v) (st.g v)) ∧
  (∀ v, v ≠ source → leEP (computeRhs G st.g v) (st.rhs v))

theorem computeRhs_mono (G : Graph) (g1 g2 : ℕ → EInt)
    (h : ∀ x, leEP (g1 x) (g2 x)) (v : ℕ) :
    leEP (computeRhs G g1 v) (computeRhs G g2 v) := by
  rw [computeRhs, computeRhs]
  have key : ∀ (l : List ℕ) (a1 a2 : EInt), leEP a1 a2 →
      leEP (l.foldl (fun acc s => minE acc (eaddW (g1 s) (weightQ G s v))) a1)
        (l.foldl (fun acc s => minE acc (eaddW (g2 s) (weightQ G s v))) a2) := by
    intro l
    induction l with
    | nil => intro a1 a2 h12; exact h12
    | cons s rest ih =>
      intro a1 a2 h12
      exact ih _ _ (minE_mono h12 (eaddW_mono _ (h s)))
  exact key (predsL G v) none none (leEP_refl none)

theorem push_state_inv (G : Graph) (hf : ℕ → ℤ) (source u : ℕ)
    (g rhs : ℕ → EInt) (pq : LazyPQ (EInt × EInt))
    (i0 : PQWF pq.heap)
    (i2 : ∀ v, v ≠ u → (liveAt pq.heap v ↔ rhs v ≠ g v))
    (hu : rhs u ≠ g u)
    (i1 : ∀ v, leEP (rhs v) (g v))
    (i3 : ∀ v, v ≠ source → leEP (computeRhs G g v) (rhs v)) :
    LpaInv G source ⟨g, rhs, LazyPQ.push pq u (calcKey hf g rhs u)⟩ := by
  refine ⟨push_PQWF _ _ _ i0, ?_, i1, i3⟩
  intro v
  show liveAt (LazyPQ.push pq u (calcKey hf g rhs u)).heap v ↔ rhs v ≠ g v
  rw [push_liveAt]
  by_cases hv : v = u
  · subst hv
    exact ⟨fun _ => hu, fun _ => Or.inl rfl⟩
  · rw [i2 v hv]
    constructor
    · intro h
      rcases h with h | h
      · exact absurd h hv
      · exact h
    · exact Or.inr

theorem nopush_state_inv (G : Graph) (source u : ℕ)
    (g rhs : ℕ → EInt) (pq : LazyPQ (EInt × EInt))
    (i0 : PQWF pq.heap)
    (i2 : ∀ v, v ≠ u → (liveAt pq.heap v ↔ rhs v ≠ g v))
    (hu : rhs u = g u) (hnl : ¬ liveAt pq.heap u)
    (i1 : ∀ v, leEP (rhs v) (g v))
    (i3 : ∀ v, v ≠ source → leEP (computeRhs G g v) (rhs v)) :
    LpaInv G source ⟨g, rhs, pq⟩ := by
  refine ⟨i0, ?_, i1, i3⟩
  intro v
  show liveAt pq.heap v ↔ rhs v ≠ g v
  by_cases hv : v = u
  · subst hv
    exact ⟨fun hl => absurd hl hnl, fun hx => absurd hu hx⟩
  · exact i2 v hv

theorem update_vertex_inv (G : Graph) (hf : ℕ → ℤ) (source u : ℕ)
    (st : LState) (hinv : LpaInv G source st) :
    LpaInv G source (update_vertex G hf source u st) := by
  obtain ⟨i0, i2, i1, i3⟩ := hinv
  rw [update_vertex]
  by_cases hus : u ≠ source
  · simp only [if_pos hus]
    by_cases hne : upd st.rhs u (computeRhs G st.g u) u ≠ st.g u
    · rw [if_pos hne]
      apply push_state_inv G hf source u st.g _ st.pq i0
      · intro v hv
        rw [upd_other _ _ _ _ hv]
        exact i2 v
      · exact hne
      · intro v
        by_cases hv : v = u
        · subst hv
          rw [upd_same]
          exact leEP_trans (i3 v hus) (i1 v)
        · rw [upd_other _ _ _ _ hv]
          exact i1 v
      · intro v hvs
        by_cases hv : v = u
        · subst hv
          rw [upd_same]
          exact leEP_refl _
        · rw [upd_other _ _ _ _ hv]
          exact i3 v hvs
    · rw [if_neg hne]
      rw [not_not, upd_same] at hne
      have hnl : ¬ liveAt st.pq.heap u := by
        intro hl
        have h1 := (i2 u).mp hl
        have h2 := ltE_of_leEP_ne (i1 u) h1
        have h3 : leEP (st.g u) (st.rhs u) := by
          rw [← hne]
          exact i3 u hus
        rw [leEP] at h3
        rw [h3] at h2
        exact Bool.noConfusion h2
      apply nopush_state_inv G source u st.g _ st.pq i0
      · intro v hv
        rw [upd_other _ _ _ _ hv]
        exact i2 v
      · rw [upd_same]
        exact hne
      · exact hnl
      · intro v
        by_cases hv : v = u
        · subst hv
          rw [upd_same, hne]
          exact leEP_refl _
        · rw [upd_other _ _ _ _ hv]
          exact i1 v
      · intro v hvs
        by_cases hv : v = u
        · subst hv
          rw [upd_same]
          exact leEP_refl _
        · rw [upd_other _ _ _ _ hv]
          exact i3 v hvs
  · simp only [if_neg hus]
    by_cases hne : st.rhs u ≠ st.g u
    · rw [if_pos hne]
      apply push_state_inv G hf source u st.g st.rhs st.pq i0
      · intro v _
        exact i2 v
      · exact hne
      · exact i1
      · exact i3
    · rw [if_neg hne]
      rw [not_not] at hne
      apply nopush_state_inv G source u st.g st.rhs st.pq i0
      · intro v _
        exact i2 v
      · exact hne
      · intro hl
        exact ((i2 u).mp hl) hne
      · exact i1
      · exact i3

theorem updateSuccsT_inv (G : Graph) (hf : ℕ → ℤ) (source : ℕ) :
    ∀ (l : List ℕ) (st : LState), LpaInv G source st →
      LpaInv G source (updateSuccsT G hf source l st).1 ∧
      (∀ s ∈ (updateSuccsT G hf source l st).2, LpaInv G source s) := by
  intro l
  induction l with
  | nil =>
    intro st h
    exact ⟨h, by intro s hs; simp [updateSuccsT] at hs⟩
  | cons x rest ih =>
    intro st h
    have h1 := update_vertex_inv G hf source x st h
    obtain ⟨ha, hb⟩ := ih (update_vertex G hf source x st) h1
    rw [updateSuccsT]
    refine ⟨ha, ?_⟩
    intro s hs
    simp only [List.mem_cons] at hs
    rcases hs with rfl | hs
    · exact h1
    · exact hb s hs

theorem pq_top_key_inv (G : Graph) (hf : ℕ → ℤ) (source : ℕ)
    (st : LState) (k : EInt × EInt) (pq2 : LazyPQ (EInt × EInt))
    (h : pq_top_key hf st = some (k, pq2)) (hinv : LpaInv G source st) :
    LpaInv G source ⟨st.g, st.rhs, pq2⟩ := by
  rw [pq_top_key] at h
  by_cases he : st.pq.isEmpty = true
  · rw [if_pos he] at h
    simp only [Option.some.injEq, Prod.mk.injEq] at h
    rw [← h.2]
    exact hinv
  · rw [if_neg he] at h
    cases hpop : LazyPQ.pop ltKey st.pq with
    | error e => rw [hpop] at h; simp at h
    | ok r =>
      obtain ⟨⟨kp, u⟩, pq'⟩ := r
      rw [hpop] at h
      simp only [Option.some.injEq, Prod.mk.injEq] at h
      obtain ⟨i0, i2, i1, i3⟩ := hinv
      obtain ⟨hlive, hnl, hoth, hwf'⟩ := pop_liveAt ltKey st.pq kp u pq' hpop i0
      rw [← h.2]
      refine ⟨push_PQWF _ _ _ hwf', ?_, i1, i3⟩
      intro v
      rw [push_liveAt]
      by_cases hv : v = u
      · subst hv
        constructor
        · intro _
          exact (i2 v).mp hlive
        · intro _
          exact Or.inl rfl
      · constructor
        · intro hor
          rcases hor with h1 | h1
          · exact absurd h1 hv
          · exact (i2 v).mp ((hoth v hv).mp h1)
        · intro hx
          exact Or.inr ((hoth v hv).mpr ((i2 v).mpr hx))

theorem lpaCheck_inv (G : Graph) (hf : ℕ → ℤ) (source target : ℕ)
    (st : LState) (out : LState ⊕ LState)
    (h : lpaCheck hf target st = some out) (hinv : LpaInv G source st) :
    (∀ s, out = Sum.inl s → LpaInv G source s) ∧
      (∀ s, out = Sum.inr s → LpaInv G source s) := by
  rw [lpaCheck] at h
  by_cases hc : st.rhs target = st.g target
  · rw [if_pos hc] at h
    cases htk : pq_top_key hf st with
    | none => rw [htk] at h; simp at h
    | some kpq =>
      rw [htk] at h
      dsimp only at h
      have hstep := pq_top_key_inv G hf source st kpq.1 kpq.2 (by
        rw [htk]) hinv
      by_cases hlt : ltKey kpq.1 (calcKey hf st.g st.rhs target) = true
      · rw [if_pos hlt] at h
        injection h with h
        constructor
        · intro s hs; rw [← h] at hs; exact absurd hs (by simp)
        · intro s hs
          rw [← h] at hs
          injection hs with hs
          rw [← hs]
          exact hstep
      · rw [if_neg hlt] at h
        injection h with h
        constructor
        · intro s hs
          rw [← h] at hs
          injection hs with hs
          rw [← hs]
          exact hstep
        · intro s hs; rw [← h] at hs; exact absurd hs (by simp)
  · rw [if_neg hc] at h
    injection h with h
    constructor
    · intro s hs; rw [← h] at hs; exact absurd hs (by simp)
    · intro s hs
      rw [← h] at hs
      injection hs with hs
      rw [← hs]
      exact hinv

theorem lpaLoopT_inv (G : Graph) (hf : ℕ → ℤ) (source target : ℕ) :
    ∀ (fuel : ℕ) (st : LState), LpaInv G source st →
      (∀ s ∈ (lpaLoopT G hf source target fuel st).1.1,
        ∀ v, liveAt s.pq.heap v ↔ s.rhs v ≠ s.g v) ∧
      (∀ ev ∈ (lpaLoopT G hf source target fuel st).1.2,
        ev.2.1 ≠ ev.2.2) := by
  intro fuel
  induction fuel with
  | zero =>
    intro st _
    constructor <;> intro x hx <;> simp [lpaLoopT] at hx
  | succ fuel ih =>
    intro st hinv
    rw [lpaLoopT]
    cases hchk : lpaCheck hf target st with
    | none => constructor <;> intro x hx <;> simp at hx
    | some out =>
      have hco := lpaCheck_inv G hf source target st out hchk hinv
      cases out with
      | inl stB => constructor <;> intro x hx <;> simp at hx
      | inr st1 =>
        have hinv1 : LpaInv G source st1 := hco.2 st1 rfl
        dsimp only
        cases hpop : LazyPQ.pop ltKey st1.pq with
        | error e => constructor <;> intro x hx <;> simp at hx
        | ok r0 =>
          obtain ⟨⟨k_old, u⟩, pq1⟩ := r0
          dsimp only
          obtain ⟨hlive, hnl, hoth, hwf1⟩ :=
            pop_liveAt ltKey st1.pq k_old u pq1 hpop hinv1.1
          have hev : st1.rhs u ≠ st1.g u := (hinv1.2.1 u).mp hlive
          by_cases hstale : ltKey k_old (calcKey hf st1.g st1.rhs u) = true
          · rw [if_pos hstale]
            have hinv2 : LpaInv G source ⟨st1.g, st1.rhs,
                LazyPQ.push pq1 u (calcKey hf st1.g st1.rhs u)⟩ := by
              apply push_state_inv G hf source u st1.g st1.rhs pq1 hwf1
              · intro v hv
                rw [hoth v hv]
                exact hinv1.2.1 v
              · exact hev
              · exact hinv1.2.2.1
              · exact hinv1.2.2.2
            obtain ⟨ha, hb⟩ := ih _ hinv2
            constructor
            · intro s hs
              exact ha s hs
            · intro ev hv
              rcases List.mem_cons.mp hv with rfl | hv2
              · exact hev
              · exact hb ev hv2
          · rw [if_neg hstale]
            by_cases hgt : ltE (st1.rhs u) (st1.g u) = true
            · rw [if_pos hgt]
              have hstg : LpaInv G source
                  ⟨upd st1.g u (st1.rhs u), st1.rhs, pq1⟩ := by
                refine ⟨hwf1, ?_, ?_, ?_⟩
                · intro v
                  show liveAt pq1.heap v ↔
                    st1.rhs v ≠ upd st1.g u (st1.rhs u) v
                  by_cases hv : v = u
                  · subst hv
                    rw [upd_same]
                    constructor
                    · intro hl
                      exact absurd hl hnl
                    · intro hx
                      exact absurd rfl hx
                  · rw [upd_other _ _ _ _ hv, hoth v hv]
                    exact hinv1.2.1 v
                · intro v
                  show leEP (st1.rhs v) (upd st1.g u (st1.rhs u) v)
                  by_cases hv : v = u
                  · subst hv
                    rw [upd_same]
                    exact leEP_refl _
                  · rw [upd_other _ _ _ _ hv]
                    exact hinv1.2.2.1 v
                · intro v hvs
                  show leEP (computeRhs G (upd st1.g u (st1.rhs u)) v)
                    (st1.rhs v)
                  refine leEP_trans (computeRhs_mono G _ st1.g ?_ v)
                    (hinv1.2.2.2 v hvs)
                  intro x
                  by_cases hx : x = u
                  · subst hx
                    rw [upd_same]
                    exact hinv1.2.2.1 x
                  · rw [upd_other _ _ _ _ hx]
                    exact leEP_refl _
              obtain ⟨hsa, hsb⟩ :=
                updateSuccsT_inv G hf source (nbrs G u) _ hstg
              obtain ⟨ha, hb⟩ := ih _ hsa
              constructor
              · intro s hs
                rcases List.mem_append.mp hs with h1 | h1
                · exact (hsb s h1).2.1
                · exact ha s h1
              · intro ev hv
                rcases List.mem_cons.mp hv with rfl | hv2
                · exact hev
                · exact hb ev hv2
            · exfalso
              have hge : leEP (st1.g u) (st1.rhs u) :=
                (Bool.not_eq_true _).mp hgt
              exact hev (eq_of_leEP_leEP (hinv1.2.2.1 u) hge)

theorem lpaInit_inv (G : Graph) (hf : ℕ → ℤ) (source : ℕ) :
    LpaInv G source (lpaInit hf source) := by
  rw [lpaInit]
  apply push_state_inv G hf source source (fun _ => none)
    (upd (fun _ => none) source (some 0)) ⟨[]⟩
  · intro v
    simp [liveList]
  · intro v hv
    constructor
    · rintro ⟨e, he, _⟩
      simp at he
    · intro hx
      rw [upd_other _ _ _ _ hv] at hx
      exact absurd rfl hx
  · rw [upd_same]
    simp
  · intro v
    by_cases hv : v = source
    · subst hv
      rw [upd_same]
      exact leEP_none_right _
    · rw [upd_other _ _ _ _ hv]
      exact leEP_refl _
  · intro v hv
    rw [upd_other _ _ _ _ hv]
    exact leEP_none_right _

/-- C2: in every run of the `lpa_star` search loop — any graph, source,
target, heuristic and fuel — after every call to `update_vertex` the
priority queue holds exactly the locally-inconsistent nodes: an item is
live in the queue iff `rhs ≠ g` at that state (so a node whose
recomputation yields `g[u] == rhs[u]` is never left live, and an
inconsistent node is (re)inserted with its fresh key); consequently every
node popped live from the queue satisfies `g != rhs` at the moment it is
popped. -/
theorem C2_lpa_queue_exactly_inconsistent (G : Graph) (hf : ℕ → ℤ)
    (source target : ℕ) (fuel : ℕ) :
    (∀ s ∈ (lpa_star_loopTrace G hf source target fuel).1.1,
      ∀ v, liveAt s.pq.heap v ↔ s.rhs v ≠ s.g v) ∧
    (∀ ev ∈ (lpa_star_loopTrace G hf source target fuel).1.2,
      ev.2.1 ≠ ev.2.2) :=
  lpaLoopT_inv G hf source target fuel (lpaInit hf source)
    (lpaInit_inv G hf source)

end S2P
